import Mathlib

/-!
# Matrix falling text: a verification development

Shallow embedding of `matrix.c` (the terminal "digital rain" renderer), with
proofs about its UTF-8 encoder, trail lifecycle, compositor and frame flattener.

Conventions of the embedding
* `uint32_t` values are `Nat`s reduced `% 2^32` after every operation that can
  wrap; `size_t` values are reduced `% 2^64`; an `int` obtained by a cast from
  an unsigned value is the two's-complement reading `toInt32`.
* A `char*` buffer is a byte memory `Mem = Nat → Nat` indexed by the offset
  from the pointer; a bounded region of it is the allocated buffer, so that a
  write outside the allocation is visible in the model.
* `rand()` is an explicit stream of naturals together with a read position.
-/

namespace Matrix

/-! ## Machine integers and byte memory -/

/-- Two's-complement reading of a 32-bit pattern, as done by an `(int)` cast. -/
def toInt32 (n : Nat) : Int :=
  if n % 2 ^ 32 < 2 ^ 31 then ((n % 2 ^ 32 : Nat) : Int) else ((n % 2 ^ 32 : Nat) : Int) - 2 ^ 32

/-- Subtraction of two `uint32_t` values. -/
def u32_sub (a b : Nat) : Nat := (a % 2 ^ 32 + 2 ^ 32 - b % 2 ^ 32) % 2 ^ 32

/-- Subtraction of two `size_t` values (64 bits wide). -/
def size_sub (a b : Nat) : Nat := (a % 2 ^ 64 + 2 ^ 64 - b % 2 ^ 64) % 2 ^ 64

/-- Byte memory addressed by the offset from a base pointer. -/
abbrev Mem := Nat → Nat

/-- Single byte store `m[a] = v`. -/
def store (m : Mem) (a v : Nat) : Mem := fun i => if i = a then v else m i

/-- Stores the bytes of `bs` at consecutive addresses starting at `a`. -/
def store_bytes (m : Mem) (a : Nat) : List Nat → Mem
  | [] => m
  | b :: bs => store_bytes (store m a b) (a + 1) bs

/-- Effect of `memset(&m[a], v, n)`. -/
def memset (m : Mem) (a v n : Nat) : Mem := fun i => if a ≤ i ∧ i < a + n then v else m i

/-- Reads `n` consecutive bytes starting at `a`. -/
def load_bytes (m : Mem) (a n : Nat) : List Nat := (List.range n).map fun k => m (a + k)

/-! ## UTF-8 encoder (`write_utf8_buf`) -/

/-- Loop of `write_utf8_buf` over the remaining input, carrying `bytes_written`
and the output memory; an early `return` ends the recursion. -/
def write_utf8_loop (max_output_length : Nat) : List Nat → Nat → Mem → Nat × Mem
  | [], bytes_written, output => (bytes_written, output)
  | c :: rest, bytes_written, output =>
    if c < 0x80 then
      if bytes_written ≥ size_sub max_output_length 1 then (bytes_written, output)
      else
        let output := store output bytes_written ((c &&& 0x7F) ||| 0x00)
        write_utf8_loop max_output_length rest (bytes_written + 1) output
    else if c < 0x800 then
      if bytes_written ≥ size_sub max_output_length 2 then (bytes_written, output)
      else
        let output := store output bytes_written (((c >>> 6) &&& 0x1F) ||| 0xC0)
        let output := store output (bytes_written + 1) ((c &&& 0x3F) ||| 0x80)
        write_utf8_loop max_output_length rest (bytes_written + 2) output
    else if c < 0x11000 then
      if bytes_written ≥ size_sub max_output_length 3 then (bytes_written, output)
      else
        let output := store output bytes_written (((c >>> 12) &&& 0x0F) ||| 0xE0)
        let output := store output (bytes_written + 1) (((c >>> 6) &&& 0x3F) ||| 0x80)
        let output := store output (bytes_written + 2) ((c &&& 0x3F) ||| 0x80)
        write_utf8_loop max_output_length rest (bytes_written + 3) output
    else
      if bytes_written ≥ size_sub max_output_length 4 then (bytes_written, output)
      else
        let output := store output bytes_written (((c >>> 18) &&& 0x07) ||| 0xF0)
        let output := store output (bytes_written + 1) (((c >>> 12) &&& 0x3F) ||| 0x80)
        let output := store output (bytes_written + 2) (((c >>> 6) &&& 0x3F) ||| 0x80)
        let output := store output (bytes_written + 3) ((c &&& 0x3F) ||| 0x80)
        write_utf8_loop max_output_length rest (bytes_written + 4) output

/-- The function `write_utf8_buf(max_output_length, output, input_length, input)`:
the `int` it returns (the `size_t` counter cast to `int`) and the output
memory afterwards.  `input` holds `uint32_t` code points. -/
def write_utf8_buf (max_output_length : Nat) (output : Mem) (input_length : Nat)
    (input : List Nat) : Int × Mem :=
  let r := write_utf8_loop max_output_length (input.take input_length) 0 output
  (toInt32 r.1, r.2)

/-- The bytes one iteration of the loop of `write_utf8_buf` stores for the code
point `c`, branch by branch. -/
def encode_bytes (c : Nat) : List Nat :=
  if c < 0x80 then [(c &&& 0x7F) ||| 0x00]
  else if c < 0x800 then [((c >>> 6) &&& 0x1F) ||| 0xC0, (c &&& 0x3F) ||| 0x80]
  else if c < 0x11000 then
    [((c >>> 12) &&& 0x0F) ||| 0xE0, ((c >>> 6) &&& 0x3F) ||| 0x80, (c &&& 0x3F) ||| 0x80]
  else
    [((c >>> 18) &&& 0x07) ||| 0xF0, ((c >>> 12) &&& 0x3F) ||| 0x80,
     ((c >>> 6) &&& 0x3F) ||| 0x80, (c &&& 0x3F) ||| 0x80]

/-- Number of bytes of the standard UTF-8 form of a code point (RFC 3629). -/
def utf8_width (c : Nat) : Nat :=
  if c < 0x80 then 1 else if c < 0x800 then 2 else if c < 0x10000 then 3 else 4

/-- Continuation byte `10xxxxxx`. -/
def is_continuation (b : Nat) : Bool := 0x80 ≤ b && b < 0xC0

/-- Reference decoder, written from RFC 3629 and not from the program: decodes a
byte string that is exactly one well-formed UTF-8 sequence, rejecting overlong
forms, surrogates and values above `0x10FFFF`. -/
def utf8_decode : List Nat → Option Nat
  | [b0] => if b0 < 0x80 then some b0 else none
  | [b0, b1] =>
    if 0xC0 ≤ b0 ∧ b0 < 0xE0 ∧ is_continuation b1 then
      let v := (b0 - 0xC0) * 0x40 + (b1 - 0x80)
      if 0x80 ≤ v then some v else none
    else none
  | [b0, b1, b2] =>
    if 0xE0 ≤ b0 ∧ b0 < 0xF0 ∧ is_continuation b1 ∧ is_continuation b2 then
      let v := (b0 - 0xE0) * 0x1000 + (b1 - 0x80) * 0x40 + (b2 - 0x80)
      if 0x800 ≤ v ∧ ¬ (0xD800 ≤ v ∧ v < 0xE000) then some v else none
    else none
  | [b0, b1, b2, b3] =>
    if 0xF0 ≤ b0 ∧ b0 < 0xF8 ∧ is_continuation b1 ∧ is_continuation b2 ∧ is_continuation b3 then
      let v := (b0 - 0xF0) * 0x40000 + (b1 - 0x80) * 0x1000 + (b2 - 0x80) * 0x40 + (b3 - 0x80)
      if 0x10000 ≤ v ∧ v ≤ 0x10FFFF then some v else none
    else none
  | _ => none

/-- Unicode scalar value: at most `0x10FFFF` and not a surrogate. -/
def is_scalar (c : Nat) : Prop := c ≤ 0x10FFFF ∧ ¬ (0xD800 ≤ c ∧ c < 0xE000)

/-! ## Random source and Glyph Source -/

/-- The process-wide `rand()` state: the sequence of values it will return and
how many of them have been consumed. -/
structure Rand where
  draws : Nat → Nat
  pos : Nat

/-- One call of `rand()`: the value returned and the state afterwards. -/
def rand (r : Rand) : Nat × Rand := (r.draws r.pos, ⟨r.draws, r.pos + 1⟩)

/-- The bytes of the string literal `ASCII_CHARS`, terminating zero included. -/
def ASCII_CHARS : List Nat :=
  [0x30, 0x31, 0x32, 0x33, 0x34, 0x35, 0x36, 0x37, 0x38, 0x39,
   0x2A, 0x2B, 0x2D, 0x3C, 0x3D, 0x3E, 0x7C, 0x00]

/-- The value of `sizeof(ASCII_CHARS)`. -/
def sizeof_ASCII_CHARS : Nat := ASCII_CHARS.length

/-- The function `generate_random_char()`: two calls of `rand()`, the first
choosing the branch and the second the character. -/
def generate_random_char (r : Rand) : Nat × Rand :=
  let a := rand r
  if a.1 % 5 ≤ 3 then
    let b := rand a.2
    ((0xff60 + (b.1 % 0x38) + 0x06) % 2 ^ 32, b.2)
  else
    let b := rand a.2
    (ASCII_CHARS.getD (b.1 % (sizeof_ASCII_CHARS - 1)) 0, b.2)

/-! ## Binary floating point

Finite binary floating-point values `(-1)^neg * mant * 2^exp` with exact
arithmetic followed by round-to-nearest-even to a given precision (24 bits for
`float`, 53 bits for `double`).  Exponent range, infinities and NaN are not
represented: every value the program computes lies far inside the normal
range. -/

/-- Number of binary digits of `n`, by recursion on a fuel that suffices. -/
def bitlen_go : Nat → Nat → Nat
  | 0, _ => 0
  | f + 1, n => if n = 0 then 0 else bitlen_go f (n / 2) + 1

/-- Number of binary digits of `n` (`0` for `0`). -/
def bitlen (n : Nat) : Nat := bitlen_go n n

/-- Finite binary floating-point value `(-1)^neg * mant * 2^exp`. -/
structure fp where
  neg : Bool
  mant : Nat
  exp : Int
deriving DecidableEq, Repr

/-- Rounds to `p` significant bits, to nearest, ties to even. -/
def fp_round (p : Nat) (x : fp) : fp :=
  let bits := bitlen x.mant
  if bits ≤ p then x
  else
    let s := bits - p
    let q := x.mant / 2 ^ s
    let r := x.mant % 2 ^ s
    let half := 2 ^ (s - 1)
    let q := if half < r ∨ (r = half ∧ q % 2 = 1) then q + 1 else q
    ⟨x.neg, q, x.exp + s⟩

/-- The signed integer `x / 2^e`, for an `e` not above the exponent of `x`. -/
def fp_scaled (x : fp) (e : Int) : Int :=
  (if x.neg then -1 else 1) * ((x.mant * 2 ^ (x.exp - e).toNat : Nat) : Int)

/-- Exact sum. -/
def fp_add (a b : fp) : fp :=
  let e := min a.exp b.exp
  let s := fp_scaled a e + fp_scaled b e
  ⟨decide (s < 0), s.natAbs, e⟩

/-- Exact difference. -/
def fp_sub (a b : fp) : fp := fp_add a ⟨!b.neg, b.mant, b.exp⟩

/-- Exact product. -/
def fp_mul (a b : fp) : fp := ⟨xor a.neg b.neg, a.mant * b.mant, a.exp + b.exp⟩

/-- Quotient correctly rounded to `p` bits: the quotient is developed to more
than `p + 2` bits and a sticky bit records a non-zero remainder.  A zero
divisor (an infinity in C) gives zero here. -/
def fp_div (p : Nat) (a b : fp) : fp :=
  if b.mant = 0 then ⟨xor a.neg b.neg, 0, 0⟩
  else
    let k := p + 2 + bitlen b.mant
    let n := a.mant * 2 ^ k
    let sticky := if n % b.mant = 0 then 0 else 1
    fp_round p ⟨xor a.neg b.neg, 2 * (n / b.mant) + sticky, a.exp - b.exp - k - 1⟩

/-- Comparison `a <= b`. -/
def fp_le (a b : fp) : Bool :=
  let e := min a.exp b.exp
  decide (fp_scaled a e ≤ fp_scaled b e)

/-- Comparison `a < b`. -/
def fp_lt (a b : fp) : Bool :=
  let e := min a.exp b.exp
  decide (fp_scaled a e < fp_scaled b e)

/-- Truncation toward zero, the integral part taken by a cast to an integer type. -/
def fp_trunc (x : fp) : Int :=
  (if x.neg then -1 else 1) *
    (((if 0 ≤ x.exp then x.mant * 2 ^ x.exp.toNat else x.mant / 2 ^ (-x.exp).toNat : Nat)) : Int)

/-- An integer as an exact value. -/
def fp_of_nat (n : Nat) : fp := ⟨false, n, 0⟩

/-- Conversion to `float`. -/
def to_float (x : fp) : fp := fp_round 24 x

/-- The `double` sum. -/
def d_add (a b : fp) : fp := fp_round 53 (fp_add a b)

/-- The `double` difference. -/
def d_sub (a b : fp) : fp := fp_round 53 (fp_sub a b)

/-- The `double` product. -/
def d_mul (a b : fp) : fp := fp_round 53 (fp_mul a b)

/-- The `double` quotient. -/
def d_div (a b : fp) : fp := fp_div 53 a b

/-- The `double` nearest to a decimal literal `n / d`. -/
def d_literal (n d : Nat) : fp := fp_div 53 (fp_of_nat n) (fp_of_nat d)

/-- Cast of a `double` to `uint8_t`: the integral part, kept modulo 256 (the
cast is undefined in C when the integral part is outside `0..255`). -/
def to_uint8 (x : fp) : Nat := (fp_trunc x % 256).toNat

/-! ## Options and data types of the program -/

/-- The option `SPEED`, the literal `0.5`. -/
def SPEED : fp := d_literal 5 10

/-- The option `MIN_TRAIL`. -/
def MIN_TRAIL : Nat := 14

/-- The option `MAX_TRAIL`. -/
def MAX_TRAIL : Nat := 20

/-- The option `INIT_CHANCE`, the literal `1E-3`. -/
def INIT_CHANCE : fp := d_literal 1 1000

/-- The option `MAX_NUM_TRAILS`. -/
def MAX_NUM_TRAILS : Nat := 1024

/-- The struct `char_trail`; `x`, `y`, `length` are `uint32_t`, `characters` is
the array of `MAX_TRAIL` code points read by index. -/
structure char_trail where
  counter : fp
  x : Nat
  y : Nat
  length : Nat
  characters : Nat → Nat

/-- The struct `rgb` of three `uint8_t` channels. -/
structure rgb where
  red : Nat
  green : Nat
  blue : Nat
deriving DecidableEq, Repr

/-- The struct `screen_size`. -/
structure screen_size where
  screen_width : Int
  screen_height : Int
deriving DecidableEq, Repr

/-! ## Trail lifecycle -/

/-- The loop of `create_trail` that fills `characters[i]` for `i < length`:
`n` iterations remain and `i` is the loop variable. -/
def fill_characters : Nat → Nat → (Nat → Nat) → Rand → (Nat → Nat) × Rand
  | 0, _, characters, r => (characters, r)
  | n + 1, i, characters, r =>
    let g := generate_random_char r
    fill_characters n (i + 1) (store characters i g.1) g.2

/-- The function `create_trail(x)`.  `fresh` is the indeterminate content of the
array inside the block returned by `malloc`. -/
def create_trail (x : Nat) (fresh : Nat → Nat) (r : Rand) : char_trail × Rand :=
  let a := rand r
  let length := ((a.1 % (MAX_TRAIL - MIN_TRAIL)) + MIN_TRAIL) % 2 ^ 32
  let f := fill_characters length 0 fresh a.2
  (⟨fp_of_nat 0, x, u32_sub 0 length, length, f.1⟩, f.2)

/-- The function `calc_colour_from_pos(index, length)`: the quotient and the
coefficient are computed in `double` from the two `float` conversions. -/
def calc_colour_from_pos (index length : Nat) : rgb :=
  if index = 0 then ⟨200, 200, 200⟩
  else
    let coefficient :=
      d_sub (fp_of_nat 1)
        (d_div (to_float (fp_of_nat index)) (d_mul (to_float (fp_of_nat length)) (d_literal 11 10)))
    ⟨to_uint8 (d_mul (fp_of_nat 40) coefficient),
     to_uint8 (d_mul (fp_of_nat 255) coefficient),
     to_uint8 (d_mul (fp_of_nat 40) coefficient)⟩

/-- Effect of `memmove(characters + 1, characters, n * sizeof(characters[0]))`. -/
def memmove_up (characters : Nat → Nat) (n : Nat) : Nat → Nat :=
  fun i => if 1 ≤ i ∧ i < 1 + n then characters (i - 1) else characters i

/-- The function `update_trail(trail)`.  The statement `trail->y += 1.0` adds in
`double` and converts back to `uint32_t`; the conversion of `4294967296.0`
(from `y = 0xFFFFFFFF`) is taken modulo `2^32`, as the x86-64 code does. -/
def update_trail (trail : char_trail) (r : Rand) : char_trail × Rand :=
  let y := (fp_trunc (d_add (fp_of_nat trail.y) (fp_of_nat 1)) % 2 ^ 32).toNat
  let characters := memmove_up trail.characters (u32_sub trail.length 1)
  let g := generate_random_char r
  (⟨trail.counter, trail.x, y, trail.length, store characters 0 g.1⟩, g.2)

/-! ## Compositor (`write_trail`) -/

/-- Decimal digits printed by `%d` for a non-negative argument. -/
def fmt_d (n : Nat) : List Nat := (Nat.toDigits 10 n).map Char.toNat

/-- The expansion of `ANSI_SET_COLOUR_RGB`, which is `ESC [ 3 8 ; 2 ; %d ; %d ; %d m`. -/
def fmt_set_colour (colour : rgb) : List Nat :=
  [0x1b, 0x5b, 0x33, 0x38, 0x3b, 0x32, 0x3b] ++ fmt_d colour.red ++ [0x3b] ++
    fmt_d colour.green ++ [0x3b] ++ fmt_d colour.blue ++ [0x6d]

/-- The bytes of `ANSI_RESET_COLOUR`, which is `ESC [ 3 9 m`. -/
def ANSI_RESET_COLOUR : List Nat := [0x1b, 0x5b, 0x33, 0x39, 0x6d]

/-- The library function `snprintf(&m[a], size, ...)` for an expansion `s`: writes
at most `size - 1` bytes of `s` and a terminating zero, and returns the length
of `s`. -/
def snprintf (m : Mem) (a size : Nat) (s : List Nat) : Int × Mem :=
  if size = 0 then ((s.length : Int), m)
  else ((s.length : Int), store_bytes m a (s.take (size - 1) ++ [0]))

/-- The call `write_utf8_buf(max, &buffer[base], n, input)` on a buffer seen from
its own base. -/
def write_utf8_at (buffer : Mem) (base max_output_length input_length : Nat)
    (input : List Nat) : Int × Mem :=
  let r := write_utf8_buf max_output_length (fun k => buffer (base + k)) input_length input
  (r.1, fun a => if base ≤ a then r.2 (a - base) else buffer a)

/-- The `uint32_t` sum `index + temp_offset` used to address the buffer. -/
def u32_add_int (index : Nat) (temp_offset : Int) : Nat :=
  ((index : Int) + temp_offset).toNat % 2 ^ 32

/-- The index computed by `write_trail` for glyph `j`, in `uint32_t` arithmetic. -/
def trail_index (trail : char_trail) (width j : Nat) : Nat :=
  (((trail.x + (u32_sub trail.y j * (width % 2 ^ 32)) % 2 ^ 32) % 2 ^ 32) * 32) % 2 ^ 32

/-- The bound `(uint32_t)((width * height * 32) - 32)` of the index check. -/
def index_bound (width height : Nat) : Nat :=
  ((((width * height * 32 : Nat) : Int) - 32) % 2 ^ 32).toNat

/-- The body of the loop of `write_trail` for glyph index `j`. -/
def write_trail_glyph (trail : char_trail) (buffer : Mem) (width height j : Nat) : Mem :=
  let index := trail_index trail width j
  if index > index_bound width height then buffer
  else
    let buffer := memset buffer index 0 32
    let colour := calc_colour_from_pos j trail.length
    let p := snprintf buffer index 24 (fmt_set_colour colour)
    let u := write_utf8_at p.2 (u32_add_int index p.1) 32 1 [trail.characters j]
    let temp_offset := p.1 + u.1
    (snprintf u.2 (u32_add_int index temp_offset) 6 ANSI_RESET_COLOUR).2

/-- The function `write_trail(trail, buffer, width, height)`: the loop over
`j < length - 1`, the bound being a `uint32_t`. -/
def write_trail (trail : char_trail) (buffer : Mem) (width height : Nat) : Mem :=
  (List.range (u32_sub trail.length 1)).foldl
    (fun b j => write_trail_glyph trail b width height j) buffer

/-! ## Frame flattener (the last loop of `main`) -/

/-- The inner `while` loop copying one slot: `tmp_ptr` counts the bytes copied,
the first argument bounds the iterations (at most 32 are possible). -/
def copy_cell (buffer : Mem) (i ptr : Nat) : Nat → Nat → Mem → Nat × Mem
  | 0, tmp_ptr, screen_buffer => (tmp_ptr, screen_buffer)
  | fuel + 1, tmp_ptr, screen_buffer =>
    if tmp_ptr < 32 ∧ buffer (i * 32 + tmp_ptr) ≠ 0 then
      copy_cell buffer i ptr fuel (tmp_ptr + 1)
        (store screen_buffer (ptr + tmp_ptr) (buffer (i * 32 + tmp_ptr)))
    else (tmp_ptr, screen_buffer)

/-- State of the flattening loop: the screen buffer, `ptr` and `num_characters`. -/
structure flat_state where
  screen_buffer : Mem
  ptr : Nat
  num_characters : Nat

/-- One iteration of the flattening loop for slot `i`; `win32` tells whether
`_WIN32` is defined, in which case no newline is stored. -/
def flatten_cell (win32 : Bool) (width : Nat) (buffer : Mem) (s : flat_state) (i : Nat) :
    flat_state :=
  let s1 : flat_state :=
    if s.num_characters % width = 0 ∧ win32 = false then
      ⟨store s.screen_buffer s.ptr 0x0A, s.ptr + 1, s.num_characters⟩
    else s
  if buffer (i * 32) ≠ 0 then
    let c := copy_cell buffer i s1.ptr 32 0 s1.screen_buffer
    ⟨c.2, s1.ptr + c.1, s1.num_characters + 1⟩
  else ⟨s1.screen_buffer, s1.ptr + 1, s1.num_characters + 1⟩

/-- The flattening loop over the `width * height` slots, from `ptr = 0`. -/
def flatten (win32 : Bool) (width height : Nat) (buffer screen_buffer : Mem) : flat_state :=
  (List.range (width * height)).foldl (flatten_cell win32 width buffer) ⟨screen_buffer, 0, 0⟩

/-- The bytes of one frame handed to `fwrite`: the screen buffer is filled with
blanks over its `width * height * 32` bytes, the slots are flattened into it and
the first `ptr` bytes are emitted. -/
def frame_output (win32 : Bool) (width height : Nat) (buffer screen_buffer : Mem) : List Nat :=
  let s := flatten win32 width height buffer (memset screen_buffer 0 0x20 (width * height * 32))
  load_bytes s.screen_buffer 0 s.ptr

/-! ## Viewport size and the trail pool -/

/-- The function `get_screen_size()` after the platform query has reported
`width` and `height`. -/
def get_screen_size (width height : Int) : screen_size :=
  let width := if width ≤ 0 then 80 else width
  let height := if height ≤ 0 then 24 else height
  ⟨width, height⟩

/-- The library constant `RAND_MAX` (its glibc value). -/
def RAND_MAX : Nat := 2147483647

/-- The `while (counter >= 1.0)` loop of the trail update; the first argument
bounds the iterations. -/
def advance_loop : Nat → char_trail → Rand → char_trail × Rand
  | 0, trail, r => (trail, r)
  | fuel + 1, trail, r =>
    if fp_le (fp_of_nat 1) trail.counter then
      let u := update_trail trail r
      advance_loop fuel
        ⟨to_float (d_sub u.1.counter (fp_of_nat 1)), u.1.x, u.1.y, u.1.length, u.1.characters⟩ u.2
    else (trail, r)

/-- The trail update of `main`: `counter += SPEED`, then one `update_trail` for
every whole unit of the counter. -/
def advance (trail : char_trail) (r : Rand) : char_trail × Rand :=
  let counter := to_float (d_add trail.counter SPEED)
  advance_loop (fp_trunc counter).toNat
    ⟨counter, trail.x, trail.y, trail.length, trail.characters⟩ r

/-- The end of the pool loop body for an advanced trail: the slot is freed when
`(int)(y - length) > height`, and the trail is written to the intermediate
buffer otherwise. -/
def retire_or_write (trail : char_trail) (buffer : Mem) (width height : Nat) :
    Option char_trail × Mem :=
  if toInt32 (u32_sub trail.y trail.length) > (height : Int) then (none, buffer)
  else (some trail, write_trail trail buffer width height)

/-- One iteration of the pool loop of `main` on the slot `slot`. -/
def pool_slot_step (slot : Option char_trail) (buffer : Mem) (width height : Nat)
    (fresh : Nat → Nat) (r : Rand) : Option char_trail × Mem × Rand :=
  match slot with
  | none =>
    let a := rand r
    if fp_lt (fp_div 24 (to_float (fp_of_nat a.1)) (to_float (fp_of_nat RAND_MAX))) INIT_CHANCE then
      let b := rand a.2
      let c := create_trail ((b.1 % width) % 2 ^ 32) fresh b.2
      (some c.1, buffer, c.2)
    else (none, buffer, a.2)
  | some trail =>
    let u := advance trail r
    let w := retire_or_write u.1 buffer width height
    (w.1, w.2, u.2)

/-! ## Auxiliary notions used by the statements -/

/-- The render of one glyph as `write_trail` lays it out: the colour-set escape,
the bytes of the glyph, the colour-reset escape. -/
def cell_render (colour : rgb) (glyph : Nat) : List Nat :=
  fmt_set_colour colour ++ encode_bytes glyph ++ ANSI_RESET_COLOUR

/-- The character universe of the Glyph Source: the block `0xFF66 .. 0xFF9D` and
the characters of `ASCII_CHARS` before its terminating zero. -/
def is_glyph (g : Nat) : Prop :=
  (0xFF66 ≤ g ∧ g ≤ 0xFF9D) ∨ g ∈ ASCII_CHARS.take (sizeof_ASCII_CHARS - 1)

/-- The loop of `write_trail` stopped after the glyph indices below `n`. -/
def write_trail_upto (trail : char_trail) (buffer : Mem) (width height n : Nat) : Mem :=
  (List.range n).foldl (fun b j => write_trail_glyph trail b width height j) buffer

/-- The byte at offset `k` of the 32-byte slot that glyph `j` of a trail fills:
its render followed by zeros. -/
def cell_byte (trail : char_trail) (j k : Nat) : Nat :=
  (cell_render (calc_colour_from_pos j trail.length) (trail.characters j)).getD k 0

/-! ## Reference description of a flattened frame

Written from the description of the Frame Flattener, to be compared with the
loop of `main`. -/

/-- Contribution of slot `i` to the frame: the blank `0x20` for an empty slot,
the stored bytes up to the first zero byte otherwise. -/
def spec_cell (buffer : Mem) (i : Nat) : List Nat :=
  if buffer (i * 32) = 0 then [0x20]
  else (load_bytes buffer (i * 32) 32).takeWhile fun b => b ≠ 0

/-- The separator emitted at a row boundary: a newline, or nothing on the
Windows build. -/
def spec_separator (win32 : Bool) : List Nat := if win32 then [] else [0x0A]

/-- One row of the frame: the separator, then the contributions of the slots of
the row from left to right. -/
def spec_row (win32 : Bool) (width : Nat) (buffer : Mem) (row : Nat) : List Nat :=
  spec_separator win32 ++
    (List.range width).flatMap fun col => spec_cell buffer (row * width + col)

/-- The frame: the rows from top to bottom. -/
def spec_frame (win32 : Bool) (width height : Nat) (buffer : Mem) : List Nat :=
  (List.range height).flatMap (spec_row win32 width buffer)

/-- What the loop of `main` emits for slot `i`: a separator when `i` starts a
row, then the contribution of the slot. -/
def flat_piece (win32 : Bool) (width : Nat) (buffer : Mem) (i : Nat) : List Nat :=
  (if i % width = 0 then spec_separator win32 else []) ++ spec_cell buffer i

/-- The flattening loop stopped after the slots below `n`. -/
def flatten_upto (win32 : Bool) (width : Nat) (buffer screen_buffer : Mem) (n : Nat) :
    flat_state :=
  (List.range n).foldl (flatten_cell win32 width buffer) ⟨screen_buffer, 0, 0⟩

/-- The state after `k` consecutive calls of `update_trail`, one for each time the
phase counter reaches `1.0`. -/
def update_times : Nat → char_trail → Rand → char_trail × Rand
  | 0, trail, r => (trail, r)
  | k + 1, trail, r => update_trail (update_times k trail r).1 (update_times k trail r).2

/-- The trail of the end-to-end example: length 5, column 0, head row 4, with
glyphs from both halves of the character universe. -/
def example_trail : char_trail :=
  ⟨fp_of_nat 0, 0, 4, 5, fun i => [0x41, 0xFF66, 0x30, 0xFF9D, 0x7C].getD i 0⟩

/-- A trail far below any viewport whose 32-bit index wraps around to slot 0 of
a `2 x 2` viewport: column 0, head row `2^26`, length 2. -/
def wrapping_trail : char_trail := ⟨fp_of_nat 0, 0, 2 ^ 26, 2, fun _ => 0x41⟩

/-- A trail left right of the viewport by a resize to `10 x 10`: column 12, head
row 2, length 5. -/
def resized_trail : char_trail := ⟨fp_of_nat 0, 12, 2, 5, fun _ => 0x41⟩

/-- The integer part of `m * (1 - index / (length * 1.1))` in exact arithmetic, for
`index <= length * 1.1`: the quotient of `m * (11 * length - 10 * index)` by
`11 * length`. -/
def fade_exact (m index length : Nat) : Nat :=
  m * (11 * length - 10 * index) / (11 * length)

/-- The pool loop of `main` over the slots in index order: every slot is stepped
on the buffer left by the slots before it. -/
def pool_loop (width height : Nat) (fresh : Nat → Nat) :
    List (Option char_trail) → Mem → Rand → List (Option char_trail) × Mem × Rand
  | [], buffer, r => ([], buffer, r)
  | slot :: rest, buffer, r =>
    ((pool_slot_step slot buffer width height fresh r).1 ::
        (pool_loop width height fresh rest
          (pool_slot_step slot buffer width height fresh r).2.1
          (pool_slot_step slot buffer width height fresh r).2.2).1,
      (pool_loop width height fresh rest
        (pool_slot_step slot buffer width height fresh r).2.1
        (pool_slot_step slot buffer width height fresh r).2.2).2)

/-- A second trail on the cells of the example trail: column 0, head row 4,
length 5, every glyph an asterisk. -/
def overlap_trail : char_trail := ⟨fp_of_nat 0, 0, 4, 5, fun _ => 0x2A⟩

/-- A slot as the compositor leaves it: all zeros, or the render of some glyph of
some trail followed by zeros. -/
def composited_cell (buffer : Mem) (i : Nat) : Prop :=
  (∀ k, k < 32 → buffer (i * 32 + k) = 0) ∨
    ∃ (t : char_trail) (j : Nat), ∀ k, k < 32 → buffer (i * 32 + k) = cell_byte t j k

/-- The trails reachable from `t0` by any number of `update_trail` steps, each
taken in any state of the random source. -/
inductive reachable (t0 : char_trail) : char_trail → Prop
  | start : reachable t0 t0
  | step (t : char_trail) (r : Rand) : reachable t0 t → reachable t0 (update_trail t r).1

/-- The concatenated encodings of a sequence of code points, each as
`write_utf8_buf` stores it. -/
def encode_all (input : List Nat) : List Nat := input.flatMap encode_bytes

/-- The number of leading code points of `input` that fit when `used` bytes are
already taken: the index of the first code point whose encoding would bring
the total to `cap` or more, or the length of `input` if there is none. -/
def fit_count (cap : Nat) : List Nat → Nat → Nat
  | [], _ => 0
  | c :: rest, used =>
    if cap ≤ used + (encode_bytes c).length then 0
    else fit_count cap rest (used + (encode_bytes c).length) + 1

/-- The content of one pool slot after `n` frames: frame `k + 1` steps the slot
with the buffer `bufs k` and the state `rs k` of the random source that the
slots before it have left. -/
def slot_frames (width height : Nat) (fresh : Nat → Nat) (bufs : Nat → Mem) (rs : Nat → Rand) :
    Nat → Option char_trail → Option char_trail
  | 0, slot => slot
  | n + 1, slot =>
    (pool_slot_step (slot_frames width height fresh bufs rs n slot) (bufs n) width height
      fresh (rs n)).1

/-- Reference encoder, written from the table of RFC 3629 and not from the
program: the standard UTF-8 form of a code point up to `0x10FFFF`. -/
def utf8_encode (c : Nat) : List Nat :=
  if c < 0x80 then [c]
  else if c < 0x800 then [0xC0 + c / 0x40, 0x80 + c % 0x40]
  else if c < 0x10000 then [0xE0 + c / 0x1000, 0x80 + c / 0x40 % 0x40, 0x80 + c % 0x40]
  else [0xF0 + c / 0x40000, 0x80 + c / 0x1000 % 0x40, 0x80 + c / 0x40 % 0x40, 0x80 + c % 0x40]

/-- The concatenated standard UTF-8 forms of a sequence of code points. -/
def utf8_encode_all (input : List Nat) : List Nat := input.flatMap utf8_encode

/-- The index of the first code point of `input` whose standard UTF-8 form
would bring the total to `cap` or more when `used` bytes are already taken,
or the length of `input` if there is none. -/
def utf8_fit_count (cap : Nat) : List Nat → Nat → Nat
  | [], _ => 0
  | c :: rest, used =>
    if cap ≤ used + utf8_width c then 0
    else utf8_fit_count cap rest (used + utf8_width c) + 1

/-- The `while (counter >= 1.0)` loop of the trail update seen on the phase
counter alone: the number of times the counter is found at `1.0` or more, each
time followed by `counter -= 1.0`; the first argument bounds the iterations as
in `advance_loop`. -/
def phase_count : Nat → fp → Nat
  | 0, _ => 0
  | fuel + 1, counter =>
    if fp_le (fp_of_nat 1) counter then
      phase_count fuel (to_float (d_sub counter (fp_of_nat 1))) + 1
    else 0

/-- The number of times the phase reaches `1.0` in one frame that the counter
enters with the value `counter`: `counter += SPEED`, then the loop. -/
def phase_steps (counter : fp) : Nat :=
  phase_count (fp_trunc (to_float (d_add counter SPEED))).toNat
    (to_float (d_add counter SPEED))

/-- The trail after `n` frames of the trail update of `main`; frame `k + 1` finds
the random source in the state `rs k`. -/
def advance_frames (rs : Nat → Rand) : Nat → char_trail → char_trail
  | 0, trail => trail
  | n + 1, trail => (advance (advance_frames rs n trail) (rs n)).1

/-- The number of times the phase has reached `1.0` in the first `n` frames. -/
def phase_reached (rs : Nat → Rand) : Nat → char_trail → Nat
  | 0, _ => 0
  | n + 1, trail =>
    phase_reached rs n trail + phase_steps (advance_frames rs n trail).counter

/-! ## Lemmas on machine arithmetic and byte memory -/

theorem size_sub_of_le (a b : Nat) (hb : b ≤ a) (ha : a < 2 ^ 64) : size_sub a b = a - b := by
  unfold size_sub
  omega

theorem size_sub_of_lt (a b : Nat) (hb : a < b) (hb2 : b < 2 ^ 64) :
    size_sub a b = 2 ^ 64 + a - b := by
  unfold size_sub
  omega

theorem toInt32_small (n : Nat) (h : n < 2 ^ 31) : toInt32 n = (n : Int) := by
  unfold toInt32
  have h1 : n % 2 ^ 32 = n := Nat.mod_eq_of_lt (by omega)
  rw [h1, if_pos h]

theorem and_7F (x : Nat) : x &&& 0x7F = x % 128 := Nat.and_pow_two_sub_one_eq_mod x 7
theorem and_3F (x : Nat) : x &&& 0x3F = x % 64 := Nat.and_pow_two_sub_one_eq_mod x 6
theorem and_1F (x : Nat) : x &&& 0x1F = x % 32 := Nat.and_pow_two_sub_one_eq_mod x 5
theorem and_0F (x : Nat) : x &&& 0x0F = x % 16 := Nat.and_pow_two_sub_one_eq_mod x 4
theorem and_07 (x : Nat) : x &&& 0x07 = x % 8 := Nat.and_pow_two_sub_one_eq_mod x 3

theorem or_80_aux : ∀ x < 64, x ||| 0x80 = x + 0x80 := by decide
theorem or_C0_aux : ∀ x < 32, x ||| 0xC0 = x + 0xC0 := by decide
theorem or_E0_aux : ∀ x < 16, x ||| 0xE0 = x + 0xE0 := by decide
theorem or_F0_aux : ∀ x < 8, x ||| 0xF0 = x + 0xF0 := by decide

theorem byte_cont (x : Nat) : (x &&& 0x3F) ||| 0x80 = x % 64 + 0x80 := by
  rw [and_3F]; exact or_80_aux _ (Nat.mod_lt _ (by decide))
theorem byte_lead2 (x : Nat) : (x &&& 0x1F) ||| 0xC0 = x % 32 + 0xC0 := by
  rw [and_1F]; exact or_C0_aux _ (Nat.mod_lt _ (by decide))
theorem byte_lead3 (x : Nat) : (x &&& 0x0F) ||| 0xE0 = x % 16 + 0xE0 := by
  rw [and_0F]; exact or_E0_aux _ (Nat.mod_lt _ (by decide))
theorem byte_lead4 (x : Nat) : (x &&& 0x07) ||| 0xF0 = x % 8 + 0xF0 := by
  rw [and_07]; exact or_F0_aux _ (Nat.mod_lt _ (by decide))
theorem byte_ascii (x : Nat) : (x &&& 0x7F) ||| 0x00 = x % 128 := by
  rw [and_7F]; simp


theorem write_utf8_loop_cons (cap c : Nat) (rest : List Nat) (bw : Nat) (out : Mem)
    (hcap : cap < 2 ^ 64) (hk : (encode_bytes c).length ≤ cap) :
    write_utf8_loop cap (c :: rest) bw out =
      if cap ≤ bw + (encode_bytes c).length then (bw, out)
      else write_utf8_loop cap rest (bw + (encode_bytes c).length)
        (store_bytes out bw (encode_bytes c)) := by
  unfold encode_bytes at hk ⊢
  rw [write_utf8_loop]
  by_cases h1 : c < 0x80
  · simp only [h1, if_true, List.length_cons, List.length_nil] at hk ⊢
    rw [size_sub_of_le cap 1 (by omega) hcap]
    by_cases h : cap ≤ bw + 1
    · rw [if_pos (by omega), if_pos (by omega)]
    · rw [if_neg (by omega), if_neg (by omega)]; rfl
  · by_cases h2 : c < 0x800
    · simp only [h1, h2, if_true, if_false, List.length_cons, List.length_nil] at hk ⊢
      rw [size_sub_of_le cap 2 (by omega) hcap]
      by_cases h : cap ≤ bw + 2
      · rw [if_pos (by omega), if_pos (by omega)]
      · rw [if_neg (by omega), if_neg (by omega)]; rfl
    · by_cases h3 : c < 0x11000
      · simp only [h1, h2, h3, if_true, if_false, List.length_cons, List.length_nil] at hk ⊢
        rw [size_sub_of_le cap 3 (by omega) hcap]
        by_cases h : cap ≤ bw + 3
        · rw [if_pos (by omega), if_pos (by omega)]
        · rw [if_neg (by omega), if_neg (by omega)]; rfl
      · simp only [h1, h2, h3, if_false, List.length_cons, List.length_nil] at hk ⊢
        rw [size_sub_of_le cap 4 (by omega) hcap]
        by_cases h : cap ≤ bw + 4
        · rw [if_pos (by omega), if_pos (by omega)]
        · rw [if_neg (by omega), if_neg (by omega)]; rfl


theorem store_bytes_outside (bs : List Nat) (m : Mem) (base a : Nat)
    (h : a < base ∨ base + bs.length ≤ a) : store_bytes m base bs a = m a := by
  induction bs generalizing m base with
  | nil => rfl
  | cons b bs ih =>
    rw [store_bytes, ih]
    · unfold store
      rw [if_neg]
      simp only [List.length_cons] at h
      omega
    · simp only [List.length_cons] at h
      omega

theorem store_bytes_inside (bs : List Nat) (m : Mem) (base k : Nat) (h : k < bs.length) :
    store_bytes m base bs (base + k) = bs.getD k 0 := by
  induction bs generalizing m base k with
  | nil => simp at h
  | cons b bs ih =>
    rw [store_bytes]
    cases k with
    | zero =>
      rw [store_bytes_outside _ _ _ _ (Or.inl (by omega))]
      simp [store]
    | succ k =>
      have := ih (store m base b) (base + 1) k (by simpa using h)
      rw [show base + (k + 1) = base + 1 + k by omega, this]
      simp

theorem load_store_bytes (bs : List Nat) (m : Mem) (base : Nat) :
    load_bytes (store_bytes m base bs) base bs.length = bs := by
  apply List.ext_getElem
  · simp [load_bytes]
  · intro n h1 h2
    simp only [load_bytes, List.getElem_map, List.getElem_range]
    rw [store_bytes_inside _ _ _ _ h2]
    simp [List.getD_eq_getElem?_getD, h2]

theorem encode_bytes_length_std (c : Nat) (h : ¬ (0x10000 ≤ c ∧ c < 0x11000)) :
    (encode_bytes c).length = utf8_width c := by
  unfold encode_bytes utf8_width
  split_ifs <;> first | rfl | omega

theorem encode_bytes_length_le (c : Nat) : (encode_bytes c).length ≤ 4 := by
  unfold encode_bytes
  split_ifs <;> simp

theorem shr6 (c : Nat) : c >>> 6 = c / 64 := Nat.shiftRight_eq_div_pow c 6
theorem shr12 (c : Nat) : c >>> 12 = c / 4096 := Nat.shiftRight_eq_div_pow c 12
theorem shr18 (c : Nat) : c >>> 18 = c / 262144 := Nat.shiftRight_eq_div_pow c 18

theorem utf8_decode_encode_bytes (c : Nat) (hc : is_scalar c)
    (h : ¬ (0x10000 ≤ c ∧ c < 0x11000)) : utf8_decode (encode_bytes c) = some c := by
  obtain ⟨hmax, hsur⟩ := hc
  unfold encode_bytes
  by_cases h1 : c < 0x80
  · simp only [h1, if_true, byte_ascii, utf8_decode]
    rw [if_pos (by omega)]
    exact congrArg some (by omega)
  · by_cases h2 : c < 0x800
    · simp only [h1, h2, if_true, if_false, byte_cont, byte_lead2, shr6,
        utf8_decode, is_continuation]
      rw [if_pos (by simp; omega)]
      split_ifs with hv
      · exact congrArg some (by omega)
      · omega
    · by_cases h3 : c < 0x11000
      · simp only [h1, h2, h3, if_true, if_false, byte_cont, byte_lead3, shr6, shr12,
          utf8_decode, is_continuation]
        rw [if_pos (by simp; omega)]
        split_ifs with hv
        · exact congrArg some (by omega)
        · omega
      · simp only [h1, h2, h3, if_false, byte_cont, byte_lead4, shr6, shr12, shr18,
          utf8_decode, is_continuation]
        rw [if_pos (by simp; omega)]
        split_ifs with hv
        · exact congrArg some (by omega)
        · omega

/-- With room for the encoding and one spare byte, a single code point is stored
whole at offset 0 and its length is returned. -/
theorem write_utf8_buf_single (c cap : Nat) (out : Mem)
    (hcap : (encode_bytes c).length < cap) (hsize : cap < 2 ^ 64) :
    write_utf8_buf cap out 1 [c] =
      (((encode_bytes c).length : Int), store_bytes out 0 (encode_bytes c)) := by
  have hlen := encode_bytes_length_le c
  unfold write_utf8_buf
  simp only [List.take_succ_cons, List.take_zero]
  rw [write_utf8_loop_cons cap c [] 0 out hsize (by omega), if_neg (by omega)]
  simp only [write_utf8_loop, Nat.zero_add]
  rw [toInt32_small _ (by omega)]

/-- Below the width of a code point the capacity check is vacuous: the `size_t`
difference wraps, and the whole encoding is stored from offset 0 although it
does not fit. -/
theorem write_utf8_buf_wraps (c cap : Nat) (out : Mem) (hcap : cap < (encode_bytes c).length) :
    write_utf8_buf cap out 1 [c] =
      (((encode_bytes c).length : Int), store_bytes out 0 (encode_bytes c)) := by
  have hlen := encode_bytes_length_le c
  unfold write_utf8_buf
  simp only [List.take_succ_cons, List.take_zero]
  unfold encode_bytes at hcap hlen ⊢
  rw [write_utf8_loop]
  by_cases h1 : c < 0x80
  · simp only [h1, if_true, List.length_cons, List.length_nil] at hcap ⊢
    rw [size_sub_of_lt cap 1 (by omega) (by decide), if_neg (by omega)]
    simp only [write_utf8_loop, Nat.zero_add, store_bytes]
    rw [toInt32_small _ (by decide)]
  · by_cases h2 : c < 0x800
    · simp only [h1, h2, if_true, if_false, List.length_cons, List.length_nil] at hcap ⊢
      rw [size_sub_of_lt cap 2 (by omega) (by decide), if_neg (by omega)]
      simp only [write_utf8_loop, Nat.zero_add, store_bytes]
      rw [toInt32_small _ (by decide)]
    · by_cases h3 : c < 0x11000
      · simp only [h1, h2, h3, if_true, if_false, List.length_cons, List.length_nil] at hcap ⊢
        rw [size_sub_of_lt cap 3 (by omega) (by decide), if_neg (by omega)]
        simp only [write_utf8_loop, Nat.zero_add, store_bytes]
        rw [toInt32_small _ (by decide)]
      · simp only [h1, h2, h3, if_false, List.length_cons, List.length_nil] at hcap ⊢
        rw [size_sub_of_lt cap 4 (by omega) (by decide), if_neg (by omega)]
        simp only [write_utf8_loop, Nat.zero_add, store_bytes]
        rw [toInt32_small _ (by decide)]

/-! ## The UTF-8 encoder -/

/-- C1 (amended): for every Unicode scalar value `c` outside `[0x10000, 0x11000)`
and every capacity `cap` strictly greater than the standard UTF-8 width of `c`,
`write_utf8_buf(cap, out, 1, [c])` returns that width, the bytes it leaves at
offsets `0 .. width` decode to exactly `c` under the reference decoder, and no
other byte of the output is changed. -/
theorem write_utf8_buf_roundtrip (c cap : Nat) (out : Mem) (hc : is_scalar c)
    (hrange : ¬ (0x10000 ≤ c ∧ c < 0x11000)) (hcap : utf8_width c < cap)
    (hsize : cap < 2 ^ 64) :
    (write_utf8_buf cap out 1 [c]).1 = (utf8_width c : Int) ∧
      utf8_decode (load_bytes (write_utf8_buf cap out 1 [c]).2 0 (utf8_width c)) = some c ∧
      ∀ a, utf8_width c ≤ a → (write_utf8_buf cap out 1 [c]).2 a = out a := by
  have hlen := encode_bytes_length_std c hrange
  rw [write_utf8_buf_single c cap out (by omega) hsize]
  refine ⟨by simp only [hlen], ?_, ?_⟩
  · simp only []
    rw [← hlen, load_store_bytes, utf8_decode_encode_bytes c hc hrange]
  · intro a ha
    exact store_bytes_outside _ _ _ _ (Or.inr (by omega))

/-- Witness of C1 (amended): the katakana code point `0xFF66` with the capacity 32
used by the compositor. -/
theorem write_utf8_buf_roundtrip_witness :
    (write_utf8_buf 32 (fun _ => 0) 1 [0xFF66]).1 = (utf8_width 0xFF66 : Int) ∧
      utf8_decode (load_bytes (write_utf8_buf 32 (fun _ => 0) 1 [0xFF66]).2 0
        (utf8_width 0xFF66)) = some 0xFF66 ∧
      ∀ a, utf8_width 0xFF66 ≤ a → (write_utf8_buf 32 (fun _ => 0) 1 [0xFF66]).2 a = 0 :=
  write_utf8_buf_roundtrip 0xFF66 32 (fun _ => 0) (by unfold is_scalar; decide) (by decide)
    (by decide) (by decide)

/-- C1 as stated fails twice.  With `cap` equal to the width (`cap = 1` for the
one-byte `0x41`) nothing is written and `0` is returned; and the code point
`0x10000`, whose standard width is 4, is stored as the three bytes `E0 80 80`,
which no UTF-8 decoder maps to `0x10000`, with `3` returned. -/
theorem write_utf8_buf_roundtrip_counterexample :
    (is_scalar 0x41 ∧ utf8_width 0x41 ≤ 1 ∧
      (write_utf8_buf 1 (fun _ => 0xAA) 1 [0x41]).1 = 0 ∧
      load_bytes (write_utf8_buf 1 (fun _ => 0xAA) 1 [0x41]).2 0 1 = [0xAA]) ∧
    (is_scalar 0x10000 ∧ utf8_width 0x10000 ≤ 8 ∧
      (write_utf8_buf 8 (fun _ => 0xAA) 1 [0x10000]).1 = 3 ∧
      load_bytes (write_utf8_buf 8 (fun _ => 0xAA) 1 [0x10000]).2 0 4 = [0xE0, 0x80, 0x80, 0xAA] ∧
      utf8_decode (load_bytes (write_utf8_buf 8 (fun _ => 0xAA) 1 [0x10000]).2 0 4) ≠
        some 0x10000 ∧
      utf8_decode (load_bytes (write_utf8_buf 8 (fun _ => 0xAA) 1 [0x10000]).2 0 3) ≠
        some 0x10000) := by
  unfold is_scalar
  decide

/-- C2 fails on the code: with a capacity below the width the `size_t`
subtraction `max_output_length - k` wraps, the check never fires, and the whole
encoding is stored past the capacity.  With `cap = 0` the byte of `0x41` lands
at offset 0 and `1` is returned; with `cap = 2` the three bytes of `0xFF66` are
stored, one of them at offset 2, and `3` is returned. -/
theorem write_utf8_buf_below_width_overruns :
    ((write_utf8_buf 0 (fun _ => 0) 1 [0x41]).1 = 1 ∧
      (write_utf8_buf 0 (fun _ => 0) 1 [0x41]).2 0 = 0x41) ∧
    ((write_utf8_buf 2 (fun _ => 0) 1 [0xFF66]).1 = 3 ∧
      load_bytes (write_utf8_buf 2 (fun _ => 0) 1 [0xFF66]).2 0 3 = [0xEF, 0xBD, 0xA6]) := by
  decide

/-! ## The compositor: one glyph -/

theorem store_store_same (m : Mem) (a v w : Nat) : store (store m a v) a w = store m a w := by
  funext i
  unfold store
  split_ifs <;> rfl

theorem store_bytes_append (xs ys : List Nat) (m : Mem) (a : Nat) :
    store_bytes m a (xs ++ ys) = store_bytes (store_bytes m a xs) (a + xs.length) ys := by
  induction xs generalizing m a with
  | nil => rfl
  | cons x xs ih =>
    rw [List.cons_append, store_bytes, store_bytes, ih, List.length_cons,
      show a + 1 + xs.length = a + (xs.length + 1) by omega]

/-- Storing `ys` over the terminator of an earlier string continues that string. -/
theorem store_bytes_over_terminator (xs ys : List Nat) (m : Mem) (a : Nat) (hys : ys ≠ []) :
    store_bytes (store_bytes m a (xs ++ [0])) (a + xs.length) ys = store_bytes m a (xs ++ ys) := by
  cases ys with
  | nil => exact absurd rfl hys
  | cons y ys =>
    rw [store_bytes_append, store_bytes_append]
    simp only [store_bytes, store_store_same]

theorem toDigitsCore_length_le (fuel : Nat) :
    ∀ (k n : Nat) (ds : List Char), 1 ≤ k → n < 10 ^ k →
      (Nat.toDigitsCore 10 fuel n ds).length ≤ ds.length + k := by
  induction fuel with
  | zero =>
    intro k n ds _ _
    simp [Nat.toDigitsCore]
  | succ fuel ih =>
    intro k n ds hk hn
    rw [Nat.toDigitsCore]
    split_ifs with h0
    · simp only [List.length_cons]
      omega
    · have hk2 : 2 ≤ k := by
        by_contra hlt
        have hk1 : k = 1 := by omega
        subst hk1
        omega
      have hn2 : n / 10 < 10 ^ (k - 1) := by
        rw [Nat.div_lt_iff_lt_mul (by decide)]
        calc n < 10 ^ k := hn
          _ = 10 ^ (k - 1 + 1) := by rw [Nat.sub_add_cancel hk]
          _ = 10 ^ (k - 1) * 10 := by rw [pow_succ]
      have := ih (k - 1) (n / 10) (Nat.digitChar (n % 10) :: ds) (by omega) hn2
      simp only [List.length_cons] at this
      omega

theorem fmt_d_length_le (n : Nat) (h : n < 256) : (fmt_d n).length ≤ 3 := by
  unfold fmt_d Nat.toDigits
  rw [List.length_map]
  have h3 : n < 10 ^ 3 := by
    have : (10 : Nat) ^ 3 = 1000 := by norm_num
    omega
  have := toDigitsCore_length_le (n + 1) 3 n [] (by omega) h3
  simpa using this

theorem to_uint8_lt (x : fp) : to_uint8 x < 256 := by
  unfold to_uint8
  have h1 : fp_trunc x % 256 < 256 := Int.emod_lt_of_pos _ (by decide)
  have h2 : 0 ≤ fp_trunc x % 256 := Int.emod_nonneg _ (by decide)
  omega

theorem calc_colour_from_pos_lt (index length : Nat) :
    (calc_colour_from_pos index length).red < 256 ∧
      (calc_colour_from_pos index length).green < 256 ∧
      (calc_colour_from_pos index length).blue < 256 := by
  unfold calc_colour_from_pos
  split_ifs
  · decide
  · dsimp only
    exact ⟨to_uint8_lt _, to_uint8_lt _, to_uint8_lt _⟩

theorem fmt_set_colour_length_le (c : rgb) (hr : c.red < 256) (hg : c.green < 256)
    (hb : c.blue < 256) : (fmt_set_colour c).length ≤ 19 := by
  have h1 := fmt_d_length_le _ hr
  have h2 := fmt_d_length_le _ hg
  have h3 := fmt_d_length_le _ hb
  unfold fmt_set_colour
  simp only [List.length_append, List.length_cons, List.length_nil]
  omega

theorem encode_bytes_ne_nil (c : Nat) : encode_bytes c ≠ [] := by
  unfold encode_bytes
  split_ifs <;> simp

theorem store_bytes_shift (bs : List Nat) (m : Mem) (base a k : Nat) :
    store_bytes (fun i => m (base + i)) a bs k = store_bytes m (base + a) bs (base + k) := by
  induction bs generalizing m a with
  | nil => rfl
  | cons b bs ih =>
    rw [store_bytes, store_bytes]
    have h : store (fun i => m (base + i)) a b = fun i => store m (base + a) b (base + i) := by
      funext i
      unfold store
      by_cases hi : i = a
      · rw [if_pos hi, if_pos (by omega)]
      · rw [if_neg hi, if_neg (by omega)]
    rw [h, ih, Nat.add_assoc]

theorem write_utf8_at_single (m : Mem) (base c : Nat) :
    write_utf8_at m base 32 1 [c] =
      (((encode_bytes c).length : Int), store_bytes m base (encode_bytes c)) := by
  have hlen := encode_bytes_length_le c
  unfold write_utf8_at
  rw [write_utf8_buf_single c 32 _ (by omega) (by decide)]
  refine Prod.ext rfl ?_
  funext a
  show (if base ≤ a then store_bytes (fun k => m (base + k)) 0 (encode_bytes c) (a - base)
    else m a) = _
  by_cases h : base ≤ a
  · rw [if_pos h, store_bytes_shift, Nat.add_zero, Nat.add_sub_cancel' h]
  · rw [if_neg h]
    exact (store_bytes_outside _ _ _ _ (Or.inl (by omega))).symm

theorem trail_index_lt (t : char_trail) (width j : Nat) :
    trail_index t width j + 32 ≤ 2 ^ 32 := by
  unfold trail_index
  omega

theorem u32_add_int_small (index n : Nat) (h : index + n < 2 ^ 32) :
    u32_add_int index (n : Int) = index + n := by
  unfold u32_add_int
  have : ((index : Int) + (n : Int)).toNat = index + n := by omega
  rw [this, Nat.mod_eq_of_lt h]

theorem cell_render_length_le (j length glyph : Nat) :
    (cell_render (calc_colour_from_pos j length) glyph).length ≤ 28 := by
  obtain ⟨h1, h2, h3⟩ := calc_colour_from_pos_lt j length
  have hf := fmt_set_colour_length_le _ h1 h2 h3
  have hg := encode_bytes_length_le glyph
  unfold cell_render
  simp only [List.length_append, ANSI_RESET_COLOUR, List.length_cons, List.length_nil]
  omega

/-- A glyph that passes the index check leaves in the buffer its render and a
terminating zero, laid over a zeroed 32-byte slot. -/
theorem write_trail_glyph_written (t : char_trail) (buf : Mem) (width height j : Nat)
    (h : trail_index t width j ≤ index_bound width height) :
    write_trail_glyph t buf width height j =
      store_bytes (memset buf (trail_index t width j) 0 32) (trail_index t width j)
        (cell_render (calc_colour_from_pos j t.length) (t.characters j) ++ [0]) := by
  obtain ⟨h1, h2, h3⟩ := calc_colour_from_pos_lt j t.length
  have hf := fmt_set_colour_length_le _ h1 h2 h3
  have hg := encode_bytes_length_le (t.characters j)
  have hi := trail_index_lt t width j
  unfold write_trail_glyph
  simp only []
  rw [if_neg (by omega)]
  unfold snprintf
  simp only [if_neg (show (24 : Nat) ≠ 0 by decide), if_neg (show (6 : Nat) ≠ 0 by decide)]
  rw [List.take_of_length_le (by omega : (fmt_set_colour _).length ≤ 24 - 1),
    u32_add_int_small _ _ (by omega), write_utf8_at_single]
  simp only []
  rw [← Nat.cast_add, u32_add_int_small _ _ (by omega),
    List.take_of_length_le (by decide : ANSI_RESET_COLOUR.length ≤ 6 - 1),
    store_bytes_over_terminator _ _ _ _ (encode_bytes_ne_nil _)]
  have hlen : (fmt_set_colour (calc_colour_from_pos j t.length)).length +
      (encode_bytes (t.characters j)).length =
      (fmt_set_colour (calc_colour_from_pos j t.length) ++ encode_bytes (t.characters j)).length := by
    rw [List.length_append]
  rw [hlen, ← store_bytes_append]
  unfold cell_render
  simp only [List.append_assoc]

theorem getD_append_zero (xs : List Nat) (k : Nat) : (xs ++ [0]).getD k 0 = xs.getD k 0 := by
  simp only [List.getD_eq_getElem?_getD]
  by_cases h : k < xs.length
  · rw [List.getElem?_append_left h]
  · rw [List.getElem?_append_right (by omega)]
    rw [List.getElem?_eq_none (by omega : xs.length ≤ k)]
    cases hk : k - xs.length with
    | zero => rfl
    | succ n => simp

/-- Inside the 32-byte slot it targets, a glyph that passes the index check leaves
its render followed by zeros, whatever the buffer held before. -/
theorem write_trail_glyph_inside (t : char_trail) (buf : Mem) (width height j a : Nat)
    (h : trail_index t width j ≤ index_bound width height)
    (ha : trail_index t width j ≤ a ∧ a < trail_index t width j + 32) :
    write_trail_glyph t buf width height j a = cell_byte t j (a - trail_index t width j) := by
  have hlen := cell_render_length_le j t.length (t.characters j)
  rw [write_trail_glyph_written t buf width height j h]
  unfold cell_byte
  by_cases hk : a - trail_index t width j <
      (cell_render (calc_colour_from_pos j t.length) (t.characters j) ++ [0]).length
  · have := store_bytes_inside _ (memset buf (trail_index t width j) 0 32)
      (trail_index t width j) _ hk
    rw [Nat.add_sub_cancel' ha.1] at this
    rw [this, getD_append_zero]
  · simp only [List.length_append, List.length_cons, List.length_nil] at hk
    rw [store_bytes_outside _ _ _ _
      (Or.inr (by simp only [List.length_append, List.length_cons, List.length_nil]; omega))]
    unfold memset
    rw [if_pos ha, List.getD_eq_getElem?_getD, List.getElem?_eq_none (by omega)]
    rfl

/-- Outside the slot it targets a glyph changes nothing, and a glyph that fails
the index check changes nothing at all. -/
theorem write_trail_glyph_outside (t : char_trail) (buf : Mem) (width height j a : Nat)
    (ha : trail_index t width j ≤ index_bound width height →
      ¬ (trail_index t width j ≤ a ∧ a < trail_index t width j + 32)) :
    write_trail_glyph t buf width height j a = buf a := by
  by_cases h : trail_index t width j ≤ index_bound width height
  · have hlen := cell_render_length_le j t.length (t.characters j)
    rw [write_trail_glyph_written t buf width height j h]
    have hout := ha h
    rw [store_bytes_outside _ _ _ _
      (by simp only [List.length_append, List.length_cons, List.length_nil]; omega)]
    unfold memset
    rw [if_neg hout]
  · unfold write_trail_glyph
    simp only []
    rw [if_pos (by omega)]

theorem write_trail_upto_succ (t : char_trail) (buf : Mem) (width height n : Nat) :
    write_trail_upto t buf width height (n + 1) =
      write_trail_glyph t (write_trail_upto t buf width height n) width height n := by
  unfold write_trail_upto
  rw [List.range_succ, List.foldl_append]
  rfl

/-- A byte that no glyph below `n` targets is unchanged by the loop. -/
theorem write_trail_upto_untouched (t : char_trail) (buf : Mem) (width height a : Nat) :
    ∀ n, (∀ j, j < n → trail_index t width j ≤ index_bound width height →
        ¬ (trail_index t width j ≤ a ∧ a < trail_index t width j + 32)) →
      write_trail_upto t buf width height n a = buf a := by
  intro n
  induction n with
  | zero => intro _; rfl
  | succ n ih =>
    intro hall
    rw [write_trail_upto_succ, write_trail_glyph_outside _ _ _ _ _ _ (hall n (by omega))]
    exact ih (fun j hj => hall j (by omega))

/-- A byte of the slot of glyph `j0` that no later glyph targets holds the render
of glyph `j0` at the end of the loop. -/
theorem write_trail_upto_last (t : char_trail) (buf : Mem) (width height a j0 : Nat)
    (h0 : trail_index t width j0 ≤ index_bound width height)
    (ha : trail_index t width j0 ≤ a ∧ a < trail_index t width j0 + 32) :
    ∀ n, j0 < n →
      (∀ j, j0 < j → j < n → trail_index t width j ≤ index_bound width height →
        ¬ (trail_index t width j ≤ a ∧ a < trail_index t width j + 32)) →
      write_trail_upto t buf width height n a = cell_byte t j0 (a - trail_index t width j0) := by
  intro n
  induction n with
  | zero => intro h; omega
  | succ n ih =>
    intro hn hall
    rw [write_trail_upto_succ]
    by_cases hj : j0 = n
    · subst hj
      exact write_trail_glyph_inside _ _ _ _ _ _ h0 ha
    · rw [write_trail_glyph_outside _ _ _ _ _ _ (hall n (by omega) (by omega))]
      exact ih (by omega) (fun j h1 h2 => hall j h1 (by omega))

/-! ## The compositor: index arithmetic -/

theorem toInt32_modEq (n : Nat) : toInt32 n ≡ (n : Int) [ZMOD 2 ^ 32] := by
  unfold toInt32 Int.ModEq
  split_ifs <;> omega

theorem u32_sub_modEq (a b : Nat) : ((u32_sub a b : Nat) : Int) ≡ (a : Int) - b [ZMOD 2 ^ 32] := by
  unfold u32_sub Int.ModEq
  omega

/-- The index of glyph `j` is `(x + (head_row - j) * width) * 32` reduced modulo
`2^32`, with `head_row` the signed reading of `y`. -/
theorem trail_index_eq (t : char_trail) (width j : Nat) :
    (trail_index t width j : Int) =
      (((t.x : Int) + (toInt32 t.y - j) * width) * 32) % 2 ^ 32 := by
  have hr : ((u32_sub t.y j : Nat) : Int) ≡ toInt32 t.y - j [ZMOD 2 ^ 32] :=
    (u32_sub_modEq t.y j).trans ((toInt32_modEq t.y).symm.sub (Int.ModEq.refl _))
  have hw : ((width % 2 ^ 32 : Nat) : Int) ≡ (width : Int) [ZMOD 2 ^ 32] := by
    unfold Int.ModEq
    omega
  have hp : (((u32_sub t.y j * (width % 2 ^ 32)) % 2 ^ 32 : Nat) : Int) ≡
      (toInt32 t.y - j) * width [ZMOD 2 ^ 32] := by
    have h1 : (((u32_sub t.y j * (width % 2 ^ 32)) % 2 ^ 32 : Nat) : Int) =
        (((u32_sub t.y j : Nat) : Int) * ((width % 2 ^ 32 : Nat) : Int)) % 2 ^ 32 := by
      push_cast
      rfl
    rw [h1]
    exact (Int.mod_modEq _ _).trans (hr.mul hw)
  have hs : (((t.x + (u32_sub t.y j * (width % 2 ^ 32)) % 2 ^ 32) % 2 ^ 32 : Nat) : Int) ≡
      (t.x : Int) + (toInt32 t.y - j) * width [ZMOD 2 ^ 32] := by
    have h1 : (((t.x + (u32_sub t.y j * (width % 2 ^ 32)) % 2 ^ 32) % 2 ^ 32 : Nat) : Int) =
        ((t.x : Int) + (((u32_sub t.y j * (width % 2 ^ 32)) % 2 ^ 32 : Nat) : Int)) % 2 ^ 32 := by
      push_cast
      rfl
    rw [h1]
    exact (Int.mod_modEq _ _).trans ((Int.ModEq.refl _).add hp)
  have hm := hs.mul (Int.ModEq.refl (32 : Int))
  unfold trail_index
  have h2 : (((((t.x + (u32_sub t.y j * (width % 2 ^ 32)) % 2 ^ 32) % 2 ^ 32) * 32) % 2 ^ 32 : Nat) : Int) =
      ((((t.x + (u32_sub t.y j * (width % 2 ^ 32)) % 2 ^ 32) % 2 ^ 32 : Nat) : Int) * 32) % 2 ^ 32 := by
    push_cast
    rfl
  rw [h2]
  exact hm

theorem index_bound_eq (width height : Nat) (h1 : 1 ≤ width * height)
    (h2 : width * height * 32 < 2 ^ 32) : index_bound width height = width * height * 32 - 32 := by
  unfold index_bound
  omega

/-- A glyph of a trail with `x < width` whose row `head_row - j` lies in
`[0, height)` passes the index check, and its index is that of the slot
`(x, head_row - j)`. -/
theorem trail_index_in_view (t : char_trail) (width height j : Nat) (hx : t.x < width)
    (hsize : width * height * 32 < 2 ^ 32)
    (h0 : 0 ≤ toInt32 t.y - j) (h1 : toInt32 t.y - j < height) :
    trail_index t width j = (t.x + (toInt32 t.y - j).toNat * width) * 32 ∧
      trail_index t width j ≤ index_bound width height := by
  have hidx := trail_index_eq t width j
  obtain ⟨s, hs⟩ : ∃ s : Nat, toInt32 t.y - j = (s : Int) := ⟨_, (Int.toNat_of_nonneg h0).symm⟩
  rw [hs] at hidx h1 ⊢
  have hsH : s + 1 ≤ height := by omega
  have hmul : (s + 1) * width ≤ height * width := Nat.mul_le_mul_right _ hsH
  have hcomm : height * width = width * height := Nat.mul_comm _ _
  have hexp : (s + 1) * width = s * width + width := by ring
  have hH : 1 ≤ width * height := by
    have : 1 ≤ s * width + width := by omega
    omega
  rw [index_bound_eq width height hH hsize, Int.toNat_ofNat]
  have hcast : (((t.x : Int) + (s : Int) * width) * 32) =
      (((t.x + s * width) * 32 : Nat) : Int) := by push_cast; ring
  rw [hcast] at hidx
  generalize s * width = p at *
  generalize width * height = q at *
  omega

/-- A glyph of a trail with `x < width` whose row `head_row - j` lies outside
`[0, height)` fails the index check, as long as the 32-bit index does not wrap
around into the buffer. -/
theorem trail_index_out_of_view (t : char_trail) (width height j : Nat) (hx : t.x < width)
    (hh : 1 ≤ height)
    (hrow : toInt32 t.y - j < 0 ∨ (height : Int) ≤ toInt32 t.y - j)
    (hwrap : width * ((toInt32 t.y - j).natAbs + 1 + height) * 32 ≤ 2 ^ 32) :
    index_bound width height < trail_index t width j := by
  have hidx := trail_index_eq t width j
  have hexp : width * ((toInt32 t.y - j).natAbs + 1 + height) =
      (toInt32 t.y - j).natAbs * width + width + width * height := by ring
  rw [hexp] at hwrap
  have hpos : 1 ≤ width * height := Nat.mul_pos (by omega) hh
  rw [index_bound_eq width height hpos (by omega)]
  rcases hrow with hneg | hbig
  · obtain ⟨d, hd⟩ : ∃ d : Nat, toInt32 t.y - j = -(d : Int) :=
      ⟨(toInt32 t.y - j).natAbs, by omega⟩
    rw [hd] at hidx hwrap
    rw [Int.natAbs_neg, Int.natAbs_ofNat] at hwrap
    have hd1 : 1 ≤ d := by omega
    have hmul : 1 * width ≤ d * width := Nat.mul_le_mul_right _ hd1
    have hcast : (((t.x : Int) + -(d : Int) * width) * 32) =
        ((t.x : Int) - ((d * width : Nat) : Int)) * 32 := by push_cast; ring
    rw [hcast] at hidx
    generalize d * width = p at *
    generalize width * height = q at *
    omega
  · obtain ⟨s, hs⟩ : ∃ s : Nat, toInt32 t.y - j = (s : Int) :=
      ⟨(toInt32 t.y - j).toNat, by omega⟩
    rw [hs] at hidx hwrap hbig
    rw [Int.natAbs_ofNat] at hwrap
    have hsH : height ≤ s := by omega
    have hmul : height * width ≤ s * width := Nat.mul_le_mul_right _ hsH
    have hcomm : height * width = width * height := Nat.mul_comm _ _
    have hcast : (((t.x : Int) + (s : Int) * width) * 32) =
        (((t.x + s * width) * 32 : Nat) : Int) := by push_cast; ring
    rw [hcast] at hidx
    generalize s * width = p at *
    generalize width * height = q at *
    omega

theorem slot_unique (width col row x s : Nat) (hc : col < width) (hx : x < width)
    (h : col + row * width = x + s * width) : col = x ∧ row = s := by
  have hw : 0 < width := by omega
  have h1 : (col + row * width) % width = (x + s * width) % width := by rw [h]
  rw [Nat.add_mul_mod_self_right, Nat.add_mul_mod_self_right, Nat.mod_eq_of_lt hc,
    Nat.mod_eq_of_lt hx] at h1
  have h2 : (col + row * width) / width = (x + s * width) / width := by rw [h]
  rw [Nat.add_mul_div_right _ _ hw, Nat.add_mul_div_right _ _ hw, Nat.div_eq_of_lt hc,
    Nat.div_eq_of_lt hx, Nat.zero_add, Nat.zero_add] at h2
  exact ⟨h1, h2⟩

theorem u32_sub_one (n : Nat) (h1 : 1 ≤ n) (h2 : n < 2 ^ 32) : u32_sub n 1 = n - 1 := by
  unfold u32_sub
  omega

theorem write_trail_eq_upto (t : char_trail) (buf : Mem) (width height : Nat) :
    write_trail t buf width height = write_trail_upto t buf width height (u32_sub t.length 1) :=
  rfl

/-- Under the no-wrap bound of a whole trail, every glyph index `j < length - 1`
either has its row in the viewport and targets the slot `(x, head_row - j)`, or
fails the index check. -/
theorem trail_glyph_cases (t : char_trail) (width height j : Nat) (hx : t.x < width)
    (hh : 1 ≤ height) (hj : j + 1 < t.length)
    (hwrap : width * ((toInt32 t.y).natAbs + t.length + height) * 32 ≤ 2 ^ 32) :
    (0 ≤ toInt32 t.y - j ∧ toInt32 t.y - j < height ∧
        trail_index t width j = (t.x + (toInt32 t.y - j).toNat * width) * 32 ∧
        trail_index t width j ≤ index_bound width height) ∨
      ((toInt32 t.y - j < 0 ∨ (height : Int) ≤ toInt32 t.y - j) ∧
        index_bound width height < trail_index t width j) := by
  have hle : width * ((toInt32 t.y - j).natAbs + 1 + height) * 32 ≤
      width * ((toInt32 t.y).natAbs + t.length + height) * 32 :=
    Nat.mul_le_mul_right _ (Nat.mul_le_mul_left _ (by omega))
  have hsz : width * height * 32 < 2 ^ 32 := by
    have h1 : width * (1 + height) * 32 ≤
        width * ((toInt32 t.y).natAbs + t.length + height) * 32 :=
      Nat.mul_le_mul_right _ (Nat.mul_le_mul_left _ (by omega))
    have h2 : width * (1 + height) = width + width * height := by ring
    rw [h2] at h1
    generalize width * height = q at *
    omega
  by_cases hrow : 0 ≤ toInt32 t.y - j ∧ toInt32 t.y - j < height
  · left
    obtain ⟨h1, h2⟩ := trail_index_in_view t width height j hx hsz hrow.1 hrow.2
    exact ⟨hrow.1, hrow.2, h1, h2⟩
  · right
    have hr : toInt32 t.y - j < 0 ∨ (height : Int) ≤ toInt32 t.y - j := by omega
    exact ⟨hr, trail_index_out_of_view t width height j hx hh hr (le_trans hle hwrap)⟩

/-! ## The compositor: a whole trail -/

/-- The slot `(x, head_row - j0)` of a glyph whose row is in the viewport holds,
after `write_trail`, the render of that glyph followed by zeros. -/
theorem write_trail_target_slot (t : char_trail) (buf : Mem) (width height : Nat)
    (hx : t.x < width) (hh : 1 ≤ height) (hlen : 1 ≤ t.length)
    (hwrap : width * ((toInt32 t.y).natAbs + t.length + height) * 32 ≤ 2 ^ 32)
    (j0 row k : Nat) (hj0 : j0 + 1 < t.length) (hrow : (row : Int) = toInt32 t.y - j0)
    (hrh : row < height) (hk : k < 32) :
    write_trail t buf width height ((t.x + row * width) * 32 + k) = cell_byte t j0 k := by
  have hL : t.length < 2 ^ 32 := by
    have h1 : 1 * (t.length) * 32 ≤ width * ((toInt32 t.y).natAbs + t.length + height) * 32 :=
      Nat.mul_le_mul_right _ (Nat.mul_le_mul (by omega) (by omega))
    omega
  rw [write_trail_eq_upto, u32_sub_one _ hlen hL]
  have hrow0 : (toInt32 t.y - j0).toNat = row := by omega
  rcases trail_glyph_cases t width height j0 hx hh hj0 hwrap with ⟨_, _, hidx, hin⟩ | ⟨hout, _⟩
  swap
  · omega
  rw [hrow0] at hidx
  have key := write_trail_upto_last t buf width height ((t.x + row * width) * 32 + k) j0 hin
    (by omega) (t.length - 1) (by omega) ?_
  · rw [key, hidx, Nat.add_sub_cancel_left]
  · intro j hj1 hj2 hjin
    rcases trail_glyph_cases t width height j hx hh (by omega) hwrap with
      ⟨h0, _, hidxj, _⟩ | ⟨_, hskip⟩
    swap
    · omega
    obtain ⟨s, hs⟩ : ∃ s : Nat, toInt32 t.y - j = (s : Int) := ⟨_, (Int.toNat_of_nonneg h0).symm⟩
    rw [hs, Int.toNat_ofNat] at hidxj
    have hsr : s + 1 ≤ row := by omega
    have hmul : (s + 1) * width ≤ row * width := Nat.mul_le_mul_right _ hsr
    have hexp : (s + 1) * width = s * width + width := by ring
    rw [hidxj]
    generalize s * width = p at *
    generalize row * width = q at *
    omega

/-- A byte of a slot that is not the slot `(x, head_row - j)` of any glyph
`j < length - 1` is left as it was by `write_trail`. -/
theorem write_trail_other_slot (t : char_trail) (buf : Mem) (width height : Nat)
    (hx : t.x < width) (hh : 1 ≤ height) (hlen : 1 ≤ t.length)
    (hwrap : width * ((toInt32 t.y).natAbs + t.length + height) * 32 ≤ 2 ^ 32)
    (col row k : Nat) (hcol : col < width) (hk : k < 32)
    (hne : ¬ (col = t.x ∧ ∃ j, j + 1 < t.length ∧ (row : Int) = toInt32 t.y - j)) :
    write_trail t buf width height ((col + row * width) * 32 + k) =
      buf ((col + row * width) * 32 + k) := by
  have hL : t.length < 2 ^ 32 := by
    have h1 : 1 * (t.length) * 32 ≤ width * ((toInt32 t.y).natAbs + t.length + height) * 32 :=
      Nat.mul_le_mul_right _ (Nat.mul_le_mul (by omega) (by omega))
    omega
  rw [write_trail_eq_upto, u32_sub_one _ hlen hL]
  apply write_trail_upto_untouched
  intro j hj hjin hcontra
  rcases trail_glyph_cases t width height j hx hh (by omega) hwrap with
    ⟨h0, _, hidxj, _⟩ | ⟨_, hskip⟩
  swap
  · omega
  obtain ⟨s, hs⟩ : ∃ s : Nat, toInt32 t.y - j = (s : Int) := ⟨_, (Int.toNat_of_nonneg h0).symm⟩
  rw [hs, Int.toNat_ofNat] at hidxj
  rw [hidxj] at hcontra
  have heq : col + row * width = t.x + s * width := by omega
  obtain ⟨h1, h2⟩ := slot_unique width col row t.x s hcol hx heq
  exact hne ⟨h1, j, by omega, by omega⟩

theorem cell_byte_zero (t : char_trail) (j : Nat) : cell_byte t j 0 = 0x1b := by
  unfold cell_byte cell_render fmt_set_colour
  simp

/-- C3 (amended): for every viewport and every trail with column `x < width`,
`height >= 1`, `length >= 1` and `width * (|head_row| + length + height) * 32 <= 2^31`
(neither the `int` size of the buffer nor the 32-bit slot index wraps),
`write_trail` applied to an all-zero buffer leaves non-empty exactly the slots
`(x, head_row - j)` with `j < length - 1` whose row lies in `[0, height)`:
such a slot starts with a non-zero byte, and all 32 bytes of every other slot
are zero.  The glyph at index `length - 1` is never rendered. -/
theorem write_trail_nonempty_cells (t : char_trail) (width height : Nat)
    (hx : t.x < width) (hh : 1 ≤ height) (hlen : 1 ≤ t.length)
    (hwrap : width * ((toInt32 t.y).natAbs + t.length + height) * 32 ≤ 2 ^ 31)
    (col row : Nat) (hcol : col < width) (hrow : row < height) :
    ((col = t.x ∧ ∃ j, j + 1 < t.length ∧ (row : Int) = toInt32 t.y - j) →
        write_trail t (fun _ => 0) width height ((col + row * width) * 32) ≠ 0) ∧
      (¬ (col = t.x ∧ ∃ j, j + 1 < t.length ∧ (row : Int) = toInt32 t.y - j) →
        ∀ k, k < 32 →
          write_trail t (fun _ => 0) width height ((col + row * width) * 32 + k) = 0) := by
  have hw : width * ((toInt32 t.y).natAbs + t.length + height) * 32 ≤ 2 ^ 32 := by omega
  constructor
  · rintro ⟨hc, j, hj, hr⟩
    have := write_trail_target_slot t (fun _ => 0) width height hx hh hlen hw j row 0 hj hr
      hrow (by decide)
    rw [Nat.add_zero] at this
    rw [hc, this, cell_byte_zero]
    decide
  · intro hne k hk
    exact write_trail_other_slot t (fun _ => 0) width height hx hh hlen hw col row k hcol hk hne

/-- Witness of C3 (amended), the end-to-end example: a trail of length 5 at
column 0 with head row 4 on a `10 x 10` viewport gives non-empty slots at rows
4, 3, 2, 1 of column 0, an empty slot at row 0 of column 0 and at `(5, 5)`,
and the four rendered glyphs get pairwise different colours. -/
theorem write_trail_nonempty_cells_witness :
    (example_trail.x < 10 ∧ 1 ≤ example_trail.length ∧
      10 * ((toInt32 example_trail.y).natAbs + example_trail.length + 10) * 32 ≤ 2 ^ 31) ∧
    write_trail example_trail (fun _ => 0) 10 10 ((0 + 4 * 10) * 32) ≠ 0 ∧
    write_trail example_trail (fun _ => 0) 10 10 ((0 + 3 * 10) * 32) ≠ 0 ∧
    write_trail example_trail (fun _ => 0) 10 10 ((0 + 2 * 10) * 32) ≠ 0 ∧
    write_trail example_trail (fun _ => 0) 10 10 ((0 + 1 * 10) * 32) ≠ 0 ∧
    (∀ k, k < 32 → write_trail example_trail (fun _ => 0) 10 10 ((0 + 0 * 10) * 32 + k) = 0) ∧
    (∀ k, k < 32 → write_trail example_trail (fun _ => 0) 10 10 ((5 + 5 * 10) * 32 + k) = 0) ∧
    List.Pairwise (fun a b => a ≠ b)
      ((List.range 4).map fun j => calc_colour_from_pos j example_trail.length) := by
  have hy : toInt32 example_trail.y = 4 := by decide
  have hyp : 10 * ((toInt32 example_trail.y).natAbs + example_trail.length + 10) * 32 ≤ 2 ^ 31 := by
    decide
  have hx : example_trail.x < 10 := by decide
  have hl : 1 ≤ example_trail.length := by decide
  refine ⟨⟨hx, hl, hyp⟩, ?_, ?_, ?_, ?_, ?_, ?_, by decide⟩
  · exact (write_trail_nonempty_cells example_trail 10 10 hx (by decide) hl hyp 0 4
      (by decide) (by decide)).1 ⟨rfl, 0, by decide, by rw [hy]; rfl⟩
  · exact (write_trail_nonempty_cells example_trail 10 10 hx (by decide) hl hyp 0 3
      (by decide) (by decide)).1 ⟨rfl, 1, by decide, by rw [hy]; rfl⟩
  · exact (write_trail_nonempty_cells example_trail 10 10 hx (by decide) hl hyp 0 2
      (by decide) (by decide)).1 ⟨rfl, 2, by decide, by rw [hy]; rfl⟩
  · exact (write_trail_nonempty_cells example_trail 10 10 hx (by decide) hl hyp 0 1
      (by decide) (by decide)).1 ⟨rfl, 3, by decide, by rw [hy]; rfl⟩
  · exact (write_trail_nonempty_cells example_trail 10 10 hx (by decide) hl hyp 0 0
      (by decide) (by decide)).2 (by
        rintro ⟨-, j, hj, hr⟩
        rw [hy] at hr
        have : example_trail.length = 5 := rfl
        omega)
  · exact (write_trail_nonempty_cells example_trail 10 10 hx (by decide) hl hyp 5 5
      (by decide) (by decide)).2 (by
        rintro ⟨hc, -⟩
        exact absurd hc (by decide))

/-- C3 as stated fails for a trail whose 32-bit index wraps: on a `2 x 2`
viewport the trail at column 0 with head row `2^26` and length 2 has its only
rendered glyph at row `2^26`, outside `[0, 2)`, yet `(0 + 2^26 * 2) * 32` is `0`
modulo `2^32`, the index check passes, and slot `(0, 0)` becomes non-empty. -/
theorem write_trail_nonempty_cells_counterexample :
    wrapping_trail.x < 2 ∧ wrapping_trail.length = 2 ∧
      ¬ (toInt32 wrapping_trail.y - 0 < 2) ∧
      trail_index wrapping_trail 2 0 = 0 ∧
      write_trail wrapping_trail (fun _ => 0) 2 2 ((0 + 0 * 2) * 32) = 0x1b := by
  decide

/-- C4 (amended): for every viewport with `width, height >= 1` and
`width * height * 32 < 2^31` and every trail, `write_trail` changes no byte at or
beyond offset `width * height * 32`; and every glyph `j` of a trail with column
`x < width` whose row `head_row - j` lies outside `[0, height)` is skipped, the
buffer being left exactly as it was, as long as the 32-bit index does not wrap
(`width * (|head_row - j| + 1 + height) * 32 <= 2^32`).  Nothing is promised for
a glyph whose column is `>= width`. -/
theorem write_trail_in_bounds (t : char_trail) (buf : Mem) (width height : Nat)
    (hw : 1 ≤ width) (hh : 1 ≤ height) (hsize : width * height * 32 < 2 ^ 31) :
    (∀ a, width * height * 32 ≤ a → write_trail t buf width height a = buf a) ∧
      (∀ j : Nat, t.x < width →
        (toInt32 t.y - j < 0 ∨ (height : Int) ≤ toInt32 t.y - j) →
        width * ((toInt32 t.y - j).natAbs + 1 + height) * 32 ≤ 2 ^ 32 →
        write_trail_glyph t buf width height j = buf) := by
  have hpos : 1 ≤ width * height := Nat.mul_pos hw hh
  have hb := index_bound_eq width height hpos (by omega)
  constructor
  · intro a ha
    rw [write_trail_eq_upto]
    apply write_trail_upto_untouched
    intro j _ hjin
    rw [hb] at hjin
    omega
  · intro j hx hrow hwrap
    have hskip := trail_index_out_of_view t width height j hx hh hrow hwrap
    unfold write_trail_glyph
    simp only []
    rw [if_pos hskip]

/-- Witness of C4 (amended) on a `10 x 10` viewport: the trail left at column 12
by a resize changes nothing at offset `10 * 10 * 32`, and the head glyph of a
trail at column 3 with head row 12, below the viewport, is skipped. -/
theorem write_trail_in_bounds_witness :
    (1 ≤ 10 ∧ 10 * 10 * 32 < 2 ^ 31) ∧
      write_trail resized_trail (fun _ => 0xAA) 10 10 (10 * 10 * 32) = 0xAA ∧
      write_trail_glyph ⟨fp_of_nat 0, 3, 12, 5, fun _ => 0x41⟩ (fun _ => 0xAA) 10 10 0 =
        fun _ => 0xAA :=
  ⟨by decide,
    (write_trail_in_bounds resized_trail (fun _ => 0xAA) 10 10 (by decide) (by decide)
      (by decide)).1 (10 * 10 * 32) (le_refl _),
    (write_trail_in_bounds ⟨fp_of_nat 0, 3, 12, 5, fun _ => 0x41⟩ (fun _ => 0xAA) 10 10
      (by decide) (by decide) (by decide)).2 0 (by decide) (by decide) (by decide)⟩

/-- C4 as stated fails after a resize: on a `10 x 10` viewport the head glyph of
the trail at column 12 with head row 2 targets the slot `(12, 2)`, outside the
viewport, but its index `(12 + 2 * 10) * 32 = 1024` is within the buffer, so the
glyph is not skipped and is written into the slot `(2, 3)`. -/
theorem write_trail_in_bounds_counterexample :
    ¬ (resized_trail.x < 10) ∧ trail_index resized_trail 10 0 = (2 + 3 * 10) * 32 ∧
      trail_index resized_trail 10 0 ≤ index_bound 10 10 ∧
      write_trail_glyph resized_trail (fun _ => 0) 10 10 0 ((2 + 3 * 10) * 32) = 0x1b ∧
      write_trail resized_trail (fun _ => 0) 10 10 ((2 + 3 * 10) * 32) = 0x1b := by
  refine ⟨by decide, by decide, by decide, by decide, ?_⟩
  have hlast := write_trail_upto_last resized_trail (fun _ => 0) 10 10 ((2 + 3 * 10) * 32) 0
    (by decide) (by decide) 4 (by decide) (by
      intro j h1 h2 _
      interval_cases j <;> decide)
  have hz : (2 + 3 * 10) * 32 - trail_index resized_trail 10 0 = 0 := by decide
  rw [hz, cell_byte_zero] at hlast
  exact hlast

/-! ## The Glyph Source and the render of a glyph -/

/-- Every value returned by `generate_random_char` is in the character universe. -/
theorem generate_random_char_is_glyph (r : Rand) : is_glyph (generate_random_char r).1 := by
  unfold generate_random_char is_glyph
  dsimp only
  split_ifs with h
  · left
    dsimp only
    have := Nat.mod_lt (rand (rand r).2).1 (show 0x38 > 0 by decide)
    omega
  · right
    dsimp only
    have hlt := Nat.mod_lt (rand (rand r).2).1 (show sizeof_ASCII_CHARS - 1 > 0 by decide)
    generalize (rand (rand r).2).1 % (sizeof_ASCII_CHARS - 1) = k at hlt
    have hk : k < 17 := hlt
    interval_cases k <;> decide

theorem is_glyph_cases (g : Nat) (h : is_glyph g) :
    (0xFF66 ≤ g ∧ g ≤ 0xFF9D) ∨ (0x2A ≤ g ∧ g ≤ 0x7C) := by
  rcases h with h | h
  · exact Or.inl h
  · right
    have : ∀ x ∈ ASCII_CHARS.take (sizeof_ASCII_CHARS - 1), 0x2A ≤ x ∧ x ≤ 0x7C := by decide
    exact this g h

theorem is_glyph_scalar (g : Nat) (h : is_glyph g) :
    is_scalar g ∧ ¬ (0x10000 ≤ g ∧ g < 0x11000) := by
  unfold is_scalar
  rcases is_glyph_cases g h with h | h <;> omega

theorem is_glyph_width (g : Nat) (h : is_glyph g) :
    (encode_bytes g).length = if g < 0x80 then 1 else 3 := by
  rw [encode_bytes_length_std g (is_glyph_scalar g h).2]
  unfold utf8_width
  rcases is_glyph_cases g h with h | h
  · rw [if_neg (by omega), if_neg (by omega), if_pos (by omega), if_neg (by omega)]
  · rw [if_pos (by omega), if_pos (by omega)]

theorem encode_bytes_glyph_ne_zero (g : Nat) (h : is_glyph g) :
    ∀ b ∈ encode_bytes g, b ≠ 0 := by
  unfold encode_bytes
  rcases is_glyph_cases g h with h | h
  · rw [if_neg (by omega), if_neg (by omega), if_pos (by omega)]
    simp only [byte_cont, byte_lead3, List.mem_cons, List.mem_singleton, List.mem_nil_iff,
      or_false]
    rintro b (hb | hb | hb) <;> omega
  · rw [if_pos (by omega)]
    simp only [byte_ascii, List.mem_singleton]
    rintro b hb
    omega

theorem digitChar_ne_zero : ∀ d < 10, (Nat.digitChar d).toNat ≠ 0 := by decide

theorem toDigitsCore_ne_zero (fuel : Nat) :
    ∀ (n : Nat) (ds : List Char), (∀ c ∈ ds, c.toNat ≠ 0) →
      ∀ c ∈ Nat.toDigitsCore 10 fuel n ds, c.toNat ≠ 0 := by
  induction fuel with
  | zero =>
    intro n ds hds c hc
    rw [Nat.toDigitsCore] at hc
    exact hds c hc
  | succ fuel ih =>
    intro n ds hds c hc
    rw [Nat.toDigitsCore] at hc
    have hd : ∀ c ∈ Nat.digitChar (n % 10) :: ds, c.toNat ≠ 0 := by
      intro c hc
      rcases List.mem_cons.mp hc with h | h
      · rw [h]
        exact digitChar_ne_zero _ (Nat.mod_lt _ (by decide))
      · exact hds c h
    split_ifs at hc with h0
    · exact hd c hc
    · exact ih _ _ hd c hc

theorem fmt_d_ne_zero (n : Nat) : ∀ b ∈ fmt_d n, b ≠ 0 := by
  intro b hb
  unfold fmt_d Nat.toDigits at hb
  obtain ⟨c, hc, rfl⟩ := List.mem_map.mp hb
  exact toDigitsCore_ne_zero _ _ _ (by simp) c hc

theorem fmt_set_colour_ne_zero (c : rgb) : ∀ b ∈ fmt_set_colour c, b ≠ 0 := by
  unfold fmt_set_colour
  simp only [List.forall_mem_append]
  exact ⟨⟨⟨⟨⟨⟨by decide, fmt_d_ne_zero _⟩, by decide⟩, fmt_d_ne_zero _⟩, by decide⟩,
    fmt_d_ne_zero _⟩, by decide⟩

theorem load_bytes_padded (m : Mem) (idx : Nat) (xs : List Nat) (hlen : xs.length ≤ 32)
    (h : ∀ k, k < 32 → m (idx + k) = xs.getD k 0) :
    load_bytes m idx 32 = xs ++ List.replicate (32 - xs.length) 0 := by
  apply List.ext_getElem
  · simp only [load_bytes, List.length_map, List.length_range, List.length_append,
      List.length_replicate]
    omega
  · intro k h1 h2
    have hk : k < 32 := by simpa [load_bytes] using h1
    simp only [load_bytes, List.getElem_map, List.getElem_range]
    rw [h k hk, List.getD_eq_getElem?_getD]
    by_cases hx : k < xs.length
    · rw [List.getElem_append_left hx, List.getElem?_eq_getElem hx]
      rfl
    · rw [List.getElem_append_right (by omega), List.getElem?_eq_none (by omega),
        List.getElem_replicate]
      rfl

theorem cell_render_glyph_length_le (j length g : Nat) (hg : is_glyph g) :
    (cell_render (calc_colour_from_pos j length) g).length ≤ 27 := by
  obtain ⟨h1, h2, h3⟩ := calc_colour_from_pos_lt j length
  have hf := fmt_set_colour_length_le _ h1 h2 h3
  have hw := is_glyph_width g hg
  unfold cell_render
  simp only [List.length_append, ANSI_RESET_COLOUR, List.length_cons, List.length_nil]
  split_ifs at hw <;> omega

theorem cell_render_glyph_ne_zero (c : rgb) (g : Nat) (hg : is_glyph g) :
    ∀ b ∈ cell_render c g, b ≠ 0 := by
  unfold cell_render
  simp only [List.forall_mem_append]
  exact ⟨⟨fmt_set_colour_ne_zero c, encode_bytes_glyph_ne_zero g hg⟩, by decide⟩

/-- C5: for a glyph the Glyph Source can produce, at any glyph index `j` and for
any trail length, the 32-byte slot that `write_trail` writes for the glyph
(the slot at its index, when the index check passes) holds exactly the
colour-set escape `ESC[38;2;R;G;Bm` with `(R, G, B) = calc_colour_from_pos(j, length)`
in decimal, then the UTF-8 bytes of the glyph, then `ESC[39m`, then zeros.  The
glyph bytes decode to the glyph under the reference decoder and are 1 byte for
an ASCII glyph and 3 bytes for a katakana glyph; the render has at most 27
bytes, none of them zero.  For a trail with `x < width` inside the no-wrap
range the slot `(x, head_row - j)` still holds this content when `write_trail`
returns. -/
theorem write_trail_cell_content (t : char_trail) (buf : Mem) (width height j : Nat)
    (hg : ∃ r : Rand, (generate_random_char r).1 = t.characters j) :
    (trail_index t width j ≤ index_bound width height →
        load_bytes (write_trail_glyph t buf width height j) (trail_index t width j) 32 =
          fmt_set_colour (calc_colour_from_pos j t.length) ++ encode_bytes (t.characters j) ++
            ANSI_RESET_COLOUR ++
            List.replicate
              (32 - (cell_render (calc_colour_from_pos j t.length) (t.characters j)).length) 0) ∧
      (∀ row : Nat, t.x < width → j + 1 < t.length → (row : Int) = toInt32 t.y - j →
        row < height →
        width * ((toInt32 t.y).natAbs + t.length + height) * 32 ≤ 2 ^ 32 →
        load_bytes (write_trail t buf width height) ((t.x + row * width) * 32) 32 =
          fmt_set_colour (calc_colour_from_pos j t.length) ++ encode_bytes (t.characters j) ++
            ANSI_RESET_COLOUR ++
            List.replicate
              (32 - (cell_render (calc_colour_from_pos j t.length) (t.characters j)).length) 0) ∧
      utf8_decode (encode_bytes (t.characters j)) = some (t.characters j) ∧
      (encode_bytes (t.characters j)).length = (if t.characters j < 0x80 then 1 else 3) ∧
      (cell_render (calc_colour_from_pos j t.length) (t.characters j)).length ≤ 27 ∧
      ∀ b ∈ cell_render (calc_colour_from_pos j t.length) (t.characters j), b ≠ 0 := by
  obtain ⟨r, hr⟩ := hg
  have hgl : is_glyph (t.characters j) := hr ▸ generate_random_char_is_glyph r
  have hlen := cell_render_glyph_length_le j t.length (t.characters j) hgl
  refine ⟨?_, ?_, ?_, is_glyph_width _ hgl, hlen, cell_render_glyph_ne_zero _ _ hgl⟩
  · intro hin
    refine load_bytes_padded _ _ (cell_render _ _) (by omega) ?_
    intro k hk
    rw [write_trail_glyph_inside t buf width height j _ hin (by omega), Nat.add_sub_cancel_left]
    rfl
  · intro row hx hj hrow hrh hwrap
    refine load_bytes_padded _ _ (cell_render _ _) (by omega) ?_
    intro k hk
    rw [write_trail_target_slot t buf width height hx (by omega) (by omega) hwrap j row k hj
      hrow hrh hk]
    rfl
  · exact utf8_decode_encode_bytes _ (is_glyph_scalar _ hgl).1 (is_glyph_scalar _ hgl).2

/-- Witness of C5: glyph 1 of the example trail is the katakana `0xFF66`, drawn
by the Glyph Source when `rand()` returns 0 twice; at the end of `write_trail`
on a `10 x 10` viewport its slot `(0, 3)` reads `ESC[38;2;32;208;32m`, the bytes
`EF BD A6`, `ESC[39m` and seven zeros. -/
theorem write_trail_cell_content_witness :
    (∃ r : Rand, (generate_random_char r).1 = example_trail.characters 1) ∧
      load_bytes (write_trail_glyph example_trail (fun _ => 0xAA) 10 10 1)
          (trail_index example_trail 10 1) 32 =
        [0x1b, 0x5b, 0x33, 0x38, 0x3b, 0x32, 0x3b, 0x33, 0x32, 0x3b, 0x32, 0x30, 0x38, 0x3b,
          0x33, 0x32, 0x6d, 0xEF, 0xBD, 0xA6, 0x1b, 0x5b, 0x33, 0x39, 0x6d, 0, 0, 0, 0, 0, 0, 0] ∧
      load_bytes (write_trail example_trail (fun _ => 0xAA) 10 10) ((0 + 3 * 10) * 32) 32 =
        [0x1b, 0x5b, 0x33, 0x38, 0x3b, 0x32, 0x3b, 0x33, 0x32, 0x3b, 0x32, 0x30, 0x38, 0x3b,
          0x33, 0x32, 0x6d, 0xEF, 0xBD, 0xA6, 0x1b, 0x5b, 0x33, 0x39, 0x6d, 0, 0, 0, 0, 0, 0, 0] ∧
      utf8_decode (encode_bytes (example_trail.characters 1)) = some 0xFF66 := by
  have hg : ∃ r : Rand, (generate_random_char r).1 = example_trail.characters 1 :=
    ⟨⟨fun _ => 0, 0⟩, by decide⟩
  have h := write_trail_cell_content example_trail (fun _ => 0xAA) 10 10 1 hg
  exact ⟨hg, (h.1 (by decide)).trans (by decide),
    (h.2.1 3 (by decide) (by decide) (by decide) (by decide) (by decide)).trans (by decide),
    h.2.2.1⟩

/-! ## The frame flattener -/

theorem load_bytes_succ (m : Mem) (a n : Nat) :
    load_bytes m a (n + 1) = m a :: load_bytes m (a + 1) n := by
  unfold load_bytes
  rw [List.range_succ_eq_map, List.map_cons, List.map_map]
  congr 1
  apply List.map_congr_left
  intro k _
  show m (a + (k + 1)) = m (a + 1 + k)
  rw [Nat.add_comm k 1, Nat.add_assoc]

/-- The inner copy loop stores the bytes of the slot up to its first zero byte
and returns their number. -/
theorem copy_cell_eq (buffer : Mem) (i ptr : Nat) :
    ∀ (fuel tmp : Nat) (screen : Mem), tmp + fuel = 32 →
      copy_cell buffer i ptr fuel tmp screen =
        (tmp + ((load_bytes buffer (i * 32 + tmp) fuel).takeWhile fun b => b ≠ 0).length,
          store_bytes screen (ptr + tmp)
            ((load_bytes buffer (i * 32 + tmp) fuel).takeWhile fun b => b ≠ 0)) := by
  intro fuel
  induction fuel with
  | zero =>
    intro tmp screen _
    rfl
  | succ fuel ih =>
    intro tmp screen h
    rw [copy_cell, load_bytes_succ, List.takeWhile_cons]
    by_cases hb : buffer (i * 32 + tmp) ≠ 0
    · rw [if_pos ⟨by omega, hb⟩, if_pos (by simpa using hb), ih (tmp + 1) _ (by omega)]
      simp only [List.length_cons, store_bytes]
      rw [show i * 32 + (tmp + 1) = i * 32 + tmp + 1 by omega,
        show ptr + (tmp + 1) = ptr + tmp + 1 by omega,
        show tmp + 1 + ((load_bytes buffer (i * 32 + tmp + 1) fuel).takeWhile
          fun b => b ≠ 0).length = tmp + (((load_bytes buffer (i * 32 + tmp + 1) fuel).takeWhile
          fun b => b ≠ 0).length + 1) by omega]
    · rw [if_neg (fun hc => hb hc.2), if_neg (by simpa using hb)]
      rfl

theorem load_bytes_add (m : Mem) (p n : Nat) :
    load_bytes m 0 (p + n) = load_bytes m 0 p ++ load_bytes m p n := by
  unfold load_bytes
  rw [List.range_add, List.map_append, List.map_map]
  congr 1
  apply List.map_congr_left
  intro k _
  show m (0 + (p + k)) = m (p + k)
  rw [Nat.zero_add]

theorem load_bytes_congr (m m2 : Mem) (a n : Nat) (h : ∀ k, k < n → m (a + k) = m2 (a + k)) :
    load_bytes m a n = load_bytes m2 a n := by
  unfold load_bytes
  apply List.map_congr_left
  intro k hk
  exact h k (List.mem_range.mp hk)

theorem load_bytes_length (m : Mem) (a n : Nat) : (load_bytes m a n).length = n := by
  simp [load_bytes]

/-- Appending a string at `ptr` extends the bytes read from offset 0. -/
theorem load_bytes_store_bytes (m : Mem) (ptr : Nat) (bs : List Nat) :
    load_bytes (store_bytes m ptr bs) 0 (ptr + bs.length) = load_bytes m 0 ptr ++ bs := by
  rw [load_bytes_add, load_store_bytes]
  congr 1
  apply load_bytes_congr
  intro k hk
  exact store_bytes_outside _ _ _ _ (Or.inl (by omega))

theorem spec_cell_nonempty (buffer : Mem) (i : Nat) (h : buffer (i * 32) ≠ 0) :
    spec_cell buffer i = (load_bytes buffer (i * 32) 32).takeWhile fun b => b ≠ 0 := by
  unfold spec_cell
  rw [if_neg h]

theorem spec_cell_empty (buffer : Mem) (i : Nat) (h : buffer (i * 32) = 0) :
    spec_cell buffer i = [0x20] := by
  unfold spec_cell
  rw [if_pos h]

/-- One iteration of the flattening loop in terms of the bytes it appends. -/
theorem flatten_cell_eq (win32 : Bool) (width : Nat) (buffer : Mem) (s : flat_state) (i : Nat) :
    flatten_cell win32 width buffer s i =
      if buffer (i * 32) ≠ 0 then
        ⟨store_bytes s.screen_buffer s.ptr
            ((if s.num_characters % width = 0 then spec_separator win32 else []) ++
              spec_cell buffer i),
          s.ptr + ((if s.num_characters % width = 0 then spec_separator win32 else []) ++
              spec_cell buffer i).length,
          s.num_characters + 1⟩
      else
        ⟨store_bytes s.screen_buffer s.ptr
            (if s.num_characters % width = 0 then spec_separator win32 else []),
          s.ptr + (if s.num_characters % width = 0 then spec_separator win32 else []).length + 1,
          s.num_characters + 1⟩ := by
  unfold flatten_cell
  by_cases hb : buffer (i * 32) ≠ 0
  · simp only [if_pos hb]
    rw [copy_cell_eq buffer i _ 32 0 _ (by omega)]
    simp only [Nat.add_zero, Nat.zero_add]
    rw [← spec_cell_nonempty buffer i hb]
    by_cases hn : s.num_characters % width = 0
    · cases win32
      · simp [hn, spec_separator, store_bytes]
        omega
      · simp [hn, spec_separator, store_bytes]
    · simp [hn, store_bytes]
  · simp only [if_neg hb]
    by_cases hn : s.num_characters % width = 0
    · cases win32
      · simp [hn, spec_separator, store_bytes]
      · simp [hn, spec_separator, store_bytes]
    · simp [hn, store_bytes]

theorem takeWhile_length_lt (p : Nat → Bool) (l : List Nat) (h : ∃ x ∈ l, p x = false) :
    (l.takeWhile p).length < l.length := by
  induction l with
  | nil =>
    obtain ⟨x, hx, _⟩ := h
    simp at hx
  | cons a l ih =>
    rw [List.takeWhile_cons]
    by_cases ha : p a = true
    · rw [if_pos ha]
      obtain ⟨x, hx, hpx⟩ := h
      rcases List.mem_cons.mp hx with rfl | hx
      · rw [ha] at hpx
        exact absurd hpx (by decide)
      · have := ih ⟨x, hx, hpx⟩
        simp only [List.length_cons]
        omega
    · rw [if_neg ha]
      simp

/-- A slot that holds a zero byte contributes at most 31 bytes. -/
theorem spec_cell_length_le (buffer : Mem) (i : Nat)
    (h : ∃ k, k < 32 ∧ buffer (i * 32 + k) = 0) : (spec_cell buffer i).length ≤ 31 := by
  unfold spec_cell
  split_ifs with h0
  · simp
  · obtain ⟨k, hk, hz⟩ := h
    have hmem : buffer (i * 32 + k) ∈ load_bytes buffer (i * 32) 32 := by
      unfold load_bytes
      exact List.mem_map.mpr ⟨k, List.mem_range.mpr hk, rfl⟩
    have := takeWhile_length_lt (fun b => b ≠ 0) (load_bytes buffer (i * 32) 32)
      ⟨_, hmem, by simp [hz]⟩
    rw [load_bytes_length] at this
    omega

theorem flatten_upto_succ (win32 : Bool) (width : Nat) (buffer screen : Mem) (n : Nat) :
    flatten_upto win32 width buffer screen (n + 1) =
      flatten_cell win32 width buffer (flatten_upto win32 width buffer screen n) n := by
  unfold flatten_upto
  rw [List.range_succ, List.foldl_append]
  rfl

theorem spec_separator_length_le (win32 : Bool) : (spec_separator win32).length ≤ 1 := by
  cases win32 <;> decide

/-- Invariant of the flattening loop: after the slots below `n` the counter is
`n`, the bytes before `ptr` are the pieces of these slots in order, the bytes
from `ptr` on are untouched, and `ptr` is at most `32 * n`. -/
theorem flatten_upto_inv (win32 : Bool) (width height : Nat) (buffer screen : Mem)
    (hcells : ∀ i, i < width * height → ∃ k, k < 32 ∧ buffer (i * 32 + k) = 0)
    (hblank : ∀ a, a < width * height * 32 → screen a = 0x20) :
    ∀ n, n ≤ width * height →
      (flatten_upto win32 width buffer screen n).num_characters = n ∧
      (∀ a, (flatten_upto win32 width buffer screen n).ptr ≤ a →
        (flatten_upto win32 width buffer screen n).screen_buffer a = screen a) ∧
      load_bytes (flatten_upto win32 width buffer screen n).screen_buffer 0
          (flatten_upto win32 width buffer screen n).ptr =
        (List.range n).flatMap (flat_piece win32 width buffer) ∧
      (flatten_upto win32 width buffer screen n).ptr ≤ 32 * n := by
  intro n
  induction n with
  | zero =>
    intro _
    exact ⟨rfl, fun _ _ => rfl, rfl, le_refl _⟩
  | succ n ih =>
    intro hn
    obtain ⟨h1, h2, h3, h4⟩ := ih (by omega)
    rw [flatten_upto_succ, flatten_cell_eq]
    generalize flatten_upto win32 width buffer screen n = s at *
    have hsep : (if s.num_characters % width = 0 then spec_separator win32 else []).length ≤ 1 := by
      split_ifs
      · exact spec_separator_length_le win32
      · simp
    have hpiece : flat_piece win32 width buffer n =
        (if s.num_characters % width = 0 then spec_separator win32 else []) ++
          spec_cell buffer n := by
      unfold flat_piece
      rw [h1]
    generalize (if s.num_characters % width = 0 then spec_separator win32 else []) = sep at *
    have hlen := spec_cell_length_le buffer n (hcells n (by omega))
    rw [List.range_succ, List.flatMap_append, List.flatMap_singleton, hpiece, ← h3]
    by_cases hb : buffer (n * 32) ≠ 0
    · rw [if_pos hb]
      dsimp only
      refine ⟨by rw [h1], ?_, load_bytes_store_bytes _ _ _, ?_⟩
      · intro a ha
        rw [store_bytes_outside _ _ _ _ (Or.inr ha)]
        exact h2 a (by omega)
      · rw [List.length_append]
        omega
    · rw [if_neg hb]
      dsimp only
      have hb0 : buffer (n * 32) = 0 := by
        by_contra hc
        exact hb hc
      rw [spec_cell_empty buffer n hb0]
      refine ⟨by rw [h1], ?_, ?_, by omega⟩
      · intro a ha
        rw [store_bytes_outside _ _ _ _ (Or.inr (by omega))]
        exact h2 a (by omega)
      · rw [load_bytes_add, load_bytes_store_bytes, List.append_assoc]
        congr 2
        rw [load_bytes_succ]
        have hval : store_bytes s.screen_buffer s.ptr sep (s.ptr + sep.length) = 0x20 := by
          rw [store_bytes_outside _ _ _ _ (Or.inr (le_refl _)), h2 _ (by omega)]
          exact hblank _ (by omega)
        rw [hval]
        rfl

theorem flatMap_congr_range (n : Nat) (f g : Nat → List Nat) (h : ∀ k, k < n → f k = g k) :
    (List.range n).flatMap f = (List.range n).flatMap g := by
  induction n with
  | zero => rfl
  | succ n ih =>
    rw [List.range_succ, List.flatMap_append, List.flatMap_append, List.flatMap_singleton,
      List.flatMap_singleton, ih (fun k hk => h k (by omega)), h n (by omega)]

theorem flatMap_range_shift (n a : Nat) (f : Nat → List Nat) :
    (List.map (fun x => a + x) (List.range n)).flatMap f =
      (List.range n).flatMap fun x => f (a + x) := by
  induction n with
  | zero => rfl
  | succ n ih =>
    rw [List.range_succ, List.map_append, List.flatMap_append, List.flatMap_append, ih]
    rfl

theorem flatMap_range_first (sep : List Nat) (f : Nat → List Nat) (n : Nat) (hn : 1 ≤ n) :
    ((List.range n).flatMap fun c => (if c = 0 then sep else []) ++ f c) =
      sep ++ (List.range n).flatMap f := by
  obtain ⟨m, rfl⟩ : ∃ m, n = 1 + m := ⟨n - 1, by omega⟩
  rw [List.range_add, List.flatMap_append, List.flatMap_append, flatMap_range_shift,
    flatMap_range_shift]
  have h1 : ((List.range 1).flatMap fun c => (if c = 0 then sep else []) ++ f c) =
      sep ++ (List.range 1).flatMap f := by
    simp [List.range_succ]
  rw [h1, List.append_assoc]
  congr 2
  apply flatMap_congr_range
  intro k _
  rw [if_neg (by omega), List.nil_append]

/-- The pieces of the slots in slot order are the rows of the frame. -/
theorem flat_pieces_eq_spec_frame (win32 : Bool) (width : Nat) (buffer : Mem) (hw : 1 ≤ width) :
    ∀ height, (List.range (width * height)).flatMap (flat_piece win32 width buffer) =
      spec_frame win32 width height buffer := by
  intro height
  induction height with
  | zero => rfl
  | succ h ih =>
    unfold spec_frame at ih ⊢
    rw [Nat.mul_succ, List.range_add, List.flatMap_append, ih, List.range_succ,
      List.flatMap_append, List.flatMap_singleton, flatMap_range_shift]
    congr 1
    unfold spec_row
    rw [← flatMap_range_first _ _ _ hw]
    apply flatMap_congr_range
    intro k hk
    unfold flat_piece
    rw [Nat.mul_comm width h, Nat.mul_add_mod_of_lt hk]

/-- The length of the frame: the contributions of all slots and one separator
per row. -/
theorem spec_frame_length (win32 : Bool) (width : Nat) (buffer : Mem) :
    ∀ height, (spec_frame win32 width height buffer).length =
      ((List.range (width * height)).map fun i => (spec_cell buffer i).length).sum +
        (spec_separator win32).length * height := by
  intro height
  induction height with
  | zero => rfl
  | succ h ih =>
    have hrow : (spec_frame win32 width (h + 1) buffer).length =
        (spec_frame win32 width h buffer).length + (spec_row win32 width buffer h).length := by
      unfold spec_frame
      rw [List.range_succ, List.flatMap_append, List.flatMap_singleton, List.length_append]
    rw [hrow, ih, Nat.mul_succ, List.range_add, List.map_append, List.sum_append, List.map_map]
    unfold spec_row
    rw [List.length_append, List.length_flatMap, Nat.mul_comm width h]
    have hmap : List.map (List.length ∘ fun col => spec_cell buffer (h * width + col))
        (List.range width) =
        List.map ((fun i => (spec_cell buffer i).length) ∘ fun x => h * width + x)
          (List.range width) := rfl
    rw [hmap]
    ring

/-- The bytes emitted for a frame are the rows of the reference description. -/
theorem frame_output_rows (win32 : Bool) (width height : Nat) (buffer screen_buffer : Mem)
    (hw : 1 ≤ width)
    (hcells : ∀ i, i < width * height → ∃ k, k < 32 ∧ buffer (i * 32 + k) = 0) :
    load_bytes
        (flatten win32 width height buffer
          (memset screen_buffer 0 0x20 (width * height * 32))).screen_buffer 0
        (flatten win32 width height buffer
          (memset screen_buffer 0 0x20 (width * height * 32))).ptr =
      spec_frame win32 width height buffer := by
  have hblank : ∀ a, a < width * height * 32 →
      memset screen_buffer 0 0x20 (width * height * 32) a = 0x20 := by
    intro a ha
    unfold memset
    rw [if_pos ⟨Nat.zero_le _, by omega⟩]
  obtain ⟨_, _, h3, _⟩ := flatten_upto_inv win32 width height buffer
    (memset screen_buffer 0 0x20 (width * height * 32)) hcells hblank (width * height) (le_refl _)
  rw [flat_pieces_eq_spec_frame win32 width buffer hw height] at h3
  exact h3

/-- C6: for every `width x height` intermediate buffer (`width >= 1`) whose slots
each hold a zero byte among their 32 bytes (an empty slot has it first, a
render shorter than 32 bytes has it as terminator), the bytes emitted for the
frame are the rows from top to bottom, each row being the separator (a newline,
nothing on the Windows build) followed by the contributions of its slots from
left to right, where a non-empty slot contributes its bytes up to the first zero
and an empty slot the blank `0x20`; and the final `ptr` is the sum of the
contribution lengths plus one separator length per row. -/
theorem frame_output_eq_spec (win32 : Bool) (width height : Nat) (buffer screen_buffer : Mem)
    (hw : 1 ≤ width)
    (hcells : ∀ i, i < width * height → ∃ k, k < 32 ∧ buffer (i * 32 + k) = 0) :
    frame_output win32 width height buffer screen_buffer =
        spec_frame win32 width height buffer ∧
      (flatten win32 width height buffer
          (memset screen_buffer 0 0x20 (width * height * 32))).ptr =
        ((List.range (width * height)).map fun i => (spec_cell buffer i).length).sum +
          (spec_separator win32).length * height := by
  have h3 := frame_output_rows win32 width height buffer screen_buffer hw hcells
  have hout : frame_output win32 width height buffer screen_buffer =
      spec_frame win32 width height buffer := h3
  refine ⟨hout, ?_⟩
  have hlen := congrArg List.length h3
  rw [load_bytes_length, spec_frame_length] at hlen
  exact hlen

/-- Witness of C6: a `2 x 2` buffer whose slot 1 holds the bytes `41 42` and
whose other slots are empty flattens, on the non-Windows build, to newline,
blank, `41 42`, newline, blank, blank; seven bytes in all. -/
theorem frame_output_eq_spec_witness :
    frame_output false 2 2 (fun a => if a = 32 then 0x41 else if a = 33 then 0x42 else 0)
        (fun _ => 0xAA) =
      [0x0A, 0x20, 0x41, 0x42, 0x0A, 0x20, 0x20] ∧
    (flatten false 2 2 (fun a => if a = 32 then 0x41 else if a = 33 then 0x42 else 0)
        (memset (fun _ => 0xAA) 0 0x20 (2 * 2 * 32))).ptr = 7 := by
  have h := frame_output_eq_spec false 2 2
    (fun a => if a = 32 then 0x41 else if a = 33 then 0x42 else 0) (fun _ => 0xAA) (by decide)
    (by
      intro i hi
      have hi4 : i < 4 := hi
      interval_cases i
      · exact ⟨0, by decide, by decide⟩
      · exact ⟨2, by decide, by decide⟩
      · exact ⟨0, by decide, by decide⟩
      · exact ⟨0, by decide, by decide⟩)
  exact ⟨h.1.trans (by decide), h.2.trans (by decide)⟩

theorem spec_cell_mem (buffer : Mem) (i b : Nat) (h : b ∈ spec_cell buffer i) :
    b = 0x20 ∨ ∃ k, k < 32 ∧ b = buffer (i * 32 + k) := by
  unfold spec_cell at h
  split_ifs at h
  · left
    simpa using h
  · right
    have hm := (List.takeWhile_sublist _).subset h
    unfold load_bytes at hm
    obtain ⟨k, hk, rfl⟩ := List.mem_map.mp hm
    exact ⟨k, List.mem_range.mp hk, rfl⟩

theorem spec_frame_succ (win32 : Bool) (width height : Nat) (buffer : Mem) :
    spec_frame win32 width (height + 1) buffer =
      spec_frame win32 width height buffer ++ spec_row win32 width buffer height := by
  unfold spec_frame
  rw [List.range_succ, List.flatMap_append, List.flatMap_singleton]

/-- A frame whose slots hold no newline byte has exactly one newline per row. -/
theorem spec_frame_count_newline (width : Nat) (buffer : Mem) :
    ∀ height, (∀ i, i < width * height → ∀ k, k < 32 → buffer (i * 32 + k) ≠ 0x0A) →
      List.count 0x0A (spec_frame false width height buffer) = height := by
  intro height
  induction height with
  | zero => intro _; rfl
  | succ h ih =>
    intro hnl
    have hsub : width * h ≤ width * (h + 1) := Nat.mul_le_mul_left _ (by omega)
    rw [spec_frame_succ, List.count_append, ih (fun i hi => hnl i (by omega))]
    unfold spec_row spec_separator
    rw [List.count_append]
    have hz : List.count 0x0A
        ((List.range width).flatMap fun col => spec_cell buffer (h * width + col)) = 0 := by
      rw [List.count_eq_zero]
      intro hmem
      obtain ⟨col, hcol, hb⟩ := List.mem_flatMap.mp hmem
      have hc : col < width := List.mem_range.mp hcol
      have hi : h * width + col < width * (h + 1) := by
        rw [Nat.mul_succ, Nat.mul_comm width h]
        omega
      rcases spec_cell_mem buffer _ _ hb with h20 | ⟨k, hk, hbk⟩
      · exact absurd h20 (by decide)
      · exact hnl _ hi k hk hbk.symm
    rw [hz]
    rfl

theorem spec_frame_head (width height : Nat) (buffer : Mem) (hh : 1 ≤ height) :
    (spec_frame false width height buffer).head? = some 0x0A := by
  obtain ⟨h, rfl⟩ : ∃ h, height = h + 1 := ⟨height - 1, by omega⟩
  unfold spec_frame
  rw [List.range_succ_eq_map, List.flatMap_cons]
  rfl

/-- C7 (amended): on the non-Windows build the flattener emits a newline at the
start of every row, the very first included.  For every `width x height` frame
with `width, height >= 1` whose slots each hold a zero byte, the output is, row
after row, a newline followed by the contributions of the slots of the row; its
first byte is a newline; and when no slot holds a newline byte the output
contains exactly `height` newline bytes. -/
theorem frame_output_newlines (width height : Nat) (buffer screen_buffer : Mem)
    (hw : 1 ≤ width) (hh : 1 ≤ height)
    (hcells : ∀ i, i < width * height → ∃ k, k < 32 ∧ buffer (i * 32 + k) = 0) :
    frame_output false width height buffer screen_buffer =
        ((List.range height).flatMap fun row =>
          0x0A :: (List.range width).flatMap fun col => spec_cell buffer (row * width + col)) ∧
      (frame_output false width height buffer screen_buffer).head? = some 0x0A ∧
      ((∀ i, i < width * height → ∀ k, k < 32 → buffer (i * 32 + k) ≠ 0x0A) →
        List.count 0x0A (frame_output false width height buffer screen_buffer) = height) := by
  have h : frame_output false width height buffer screen_buffer =
      spec_frame false width height buffer :=
    frame_output_rows false width height buffer screen_buffer hw hcells
  rw [h]
  exact ⟨rfl, spec_frame_head width height buffer hh,
    spec_frame_count_newline width buffer height⟩

/-- Witness of C7 (amended): a `1 x 2` buffer with the byte `41` in slot 0 and an
empty slot 1 flattens to newline, `41`, newline, blank: two newlines for two
rows, the first of them at the very start. -/
theorem frame_output_newlines_witness :
    frame_output false 1 2 (fun a => if a = 0 then 0x41 else 0) (fun _ => 0xAA) =
        [0x0A, 0x41, 0x0A, 0x20] ∧
      (frame_output false 1 2 (fun a => if a = 0 then 0x41 else 0) (fun _ => 0xAA)).head? =
        some 0x0A ∧
      List.count 0x0A
        (frame_output false 1 2 (fun a => if a = 0 then 0x41 else 0) (fun _ => 0xAA)) = 2 := by
  have h := frame_output_newlines 1 2 (fun a => if a = 0 then 0x41 else 0) (fun _ => 0xAA)
    (by decide) (by decide)
    (by
      intro i hi
      have hi2 : i < 2 := hi
      interval_cases i
      · exact ⟨1, by decide, by decide⟩
      · exact ⟨0, by decide, by decide⟩)
  refine ⟨h.1.trans (by decide), h.2.1, h.2.2 ?_⟩
  intro i hi k hk
  show (if i * 32 + k = 0 then 0x41 else 0) ≠ 0x0A
  split_ifs <;> decide

/-- C7 as stated fails on the smallest frame: a `1 x 1` viewport with an empty
slot is flattened to the two bytes newline, blank.  The output holds one
newline, not `height - 1 = 0`, and its first byte is the newline, not the blank
contributed by slot `(0, 0)`. -/
theorem frame_output_newlines_counterexample :
    frame_output false 1 1 (fun _ => 0) (fun _ => 0xAA) = [0x0A, 0x20] ∧
      List.count 0x0A (frame_output false 1 1 (fun _ => 0) (fun _ => 0xAA)) ≠ 1 - 1 ∧
      (frame_output false 1 1 (fun _ => 0) (fun _ => 0xAA)).head? ≠
        (spec_cell (fun _ => 0) 0).head? := by
  decide

/-! ## Trail lifecycle -/

theorem generate_random_char_state (r : Rand) :
    (generate_random_char r).2 = ⟨r.draws, r.pos + 2⟩ := by
  unfold generate_random_char rand
  dsimp only
  split_ifs <;> rfl

/-- The filling loop of `create_trail` sets the entries `i .. i + n` to successive
values of the Glyph Source, leaves the others, and consumes two draws per entry. -/
theorem fill_characters_eq (n : Nat) :
    ∀ (i : Nat) (cs : Nat → Nat) (r : Rand),
      (∀ j, (fill_characters n i cs r).1 j =
        if i ≤ j ∧ j < i + n then (generate_random_char ⟨r.draws, r.pos + 2 * (j - i)⟩).1
        else cs j) ∧
      (fill_characters n i cs r).2 = ⟨r.draws, r.pos + 2 * n⟩ := by
  induction n with
  | zero =>
    intro i cs r
    refine ⟨fun j => ?_, rfl⟩
    rw [if_neg (by omega)]
    rfl
  | succ n ih =>
    intro i cs r
    rw [fill_characters]
    obtain ⟨h1, h2⟩ := ih (i + 1) (store cs i (generate_random_char r).1) (generate_random_char r).2
    rw [generate_random_char_state] at h1 h2
    rw [generate_random_char_state]
    constructor
    · intro j
      rw [h1 j]
      dsimp only
      by_cases hj : i + 1 ≤ j ∧ j < i + 1 + n
      · rw [if_pos hj, if_pos (by omega)]
        congr 3
        omega
      · rw [if_neg hj]
        unfold store
        by_cases hji : j = i
        · rw [if_pos hji, if_pos (by omega), hji, Nat.sub_self]
          rfl
        · rw [if_neg hji, if_neg (by omega)]
    · rw [h2]
      dsimp only
      congr 1
      omega

theorem toInt32_neg (n : Nat) (h1 : 1 ≤ n) (h2 : n ≤ 2 ^ 31) :
    toInt32 (u32_sub 0 n) = -(n : Int) := by
  unfold toInt32 u32_sub
  split_ifs <;> omega

/-- C10: for every column `x`, every content of the fresh allocation and every
outcome of the random source, `create_trail(x)` returns a trail with
`MIN_TRAIL <= length < MAX_TRAIL` (`14 <= length < 20`), `y` equal to the 32-bit
value `2^32 - length`, which reads `-length` as a signed value, column `x`, phase
counter 0, and `characters[i]` for each `i < length` equal to the value of the
`i`-th call of the Glyph Source (a member of its character universe); the
entries from `length` on are left as allocated. -/
theorem create_trail_fresh (x : Nat) (fresh : Nat → Nat) (r : Rand) :
    (MIN_TRAIL ≤ (create_trail x fresh r).1.length ∧
        (create_trail x fresh r).1.length < MAX_TRAIL) ∧
      (create_trail x fresh r).1.length = r.draws r.pos % 6 + 14 ∧
      (create_trail x fresh r).1.y = 2 ^ 32 - (create_trail x fresh r).1.length ∧
      toInt32 (create_trail x fresh r).1.y = -((create_trail x fresh r).1.length : Int) ∧
      (create_trail x fresh r).1.x = x ∧
      (create_trail x fresh r).1.counter = fp_of_nat 0 ∧
      (∀ i, i < (create_trail x fresh r).1.length →
        (create_trail x fresh r).1.characters i =
            (generate_random_char ⟨r.draws, r.pos + 1 + 2 * i⟩).1 ∧
          is_glyph ((create_trail x fresh r).1.characters i)) ∧
      (∀ i, (create_trail x fresh r).1.length ≤ i →
        (create_trail x fresh r).1.characters i = fresh i) ∧
      (create_trail x fresh r).2 =
        ⟨r.draws, r.pos + 1 + 2 * (create_trail x fresh r).1.length⟩ := by
  have hmod : r.draws r.pos % 6 < 6 := Nat.mod_lt _ (by decide)
  have hlen : (create_trail x fresh r).1.length = r.draws r.pos % 6 + 14 := by
    unfold create_trail rand MAX_TRAIL MIN_TRAIL
    dsimp only
    omega
  have hy : (create_trail x fresh r).1.y = u32_sub 0 (create_trail x fresh r).1.length := rfl
  have hfill := fill_characters_eq (create_trail x fresh r).1.length 0 fresh (rand r).2
  have hchars : (create_trail x fresh r).1.characters =
      (fill_characters (create_trail x fresh r).1.length 0 fresh (rand r).2).1 := rfl
  have hstate : (create_trail x fresh r).2 =
      (fill_characters (create_trail x fresh r).1.length 0 fresh (rand r).2).2 := rfl
  have hr : (rand r).2 = ⟨r.draws, r.pos + 1⟩ := rfl
  rw [hr] at hfill
  dsimp only at hfill
  refine ⟨by unfold MIN_TRAIL MAX_TRAIL; omega, hlen, ?_, ?_, rfl, rfl, ?_, ?_, ?_⟩
  · rw [hy]
    unfold u32_sub
    omega
  · rw [hy]
    exact toInt32_neg _ (by omega) (by omega)
  · intro i hi
    have hc : (create_trail x fresh r).1.characters i =
        (generate_random_char ⟨r.draws, r.pos + 1 + 2 * i⟩).1 := by
      rw [hchars, hr, hfill.1 i, if_pos (by omega), Nat.sub_zero]
    exact ⟨hc, hc ▸ generate_random_char_is_glyph _⟩
  · intro i hi
    rw [hchars, hr, hfill.1 i, if_neg (by omega)]
  · rw [hstate, hr, hfill.2]

/-- Witness of C10: with `rand()` returning `1000, 1007, 1014, ...` the trail
created at column 7 has length `1000 % 6 + 14 = 18`, `y = 2^32 - 18`, and its
first glyph is the value the Glyph Source draws from the next two outcomes. -/
theorem create_trail_fresh_witness :
    (create_trail 7 (fun _ => 99) ⟨fun k => 1000 + 7 * k, 0⟩).1.length = 18 ∧
      (create_trail 7 (fun _ => 99) ⟨fun k => 1000 + 7 * k, 0⟩).1.y = 4294967278 ∧
      toInt32 (create_trail 7 (fun _ => 99) ⟨fun k => 1000 + 7 * k, 0⟩).1.y = -18 ∧
      (create_trail 7 (fun _ => 99) ⟨fun k => 1000 + 7 * k, 0⟩).1.x = 7 ∧
      (create_trail 7 (fun _ => 99) ⟨fun k => 1000 + 7 * k, 0⟩).1.characters 0 = 0xFF6C ∧
      (create_trail 7 (fun _ => 99) ⟨fun k => 1000 + 7 * k, 0⟩).1.characters 18 = 99 := by
  have h := create_trail_fresh 7 (fun _ => 99) ⟨fun k => 1000 + 7 * k, 0⟩
  obtain ⟨_, hlen, hy, hs, hx, _, hch, hrest, _⟩ := h
  have hl : (create_trail 7 (fun _ => 99) ⟨fun k => 1000 + 7 * k, 0⟩).1.length = 18 := hlen
  refine ⟨hl, ?_, ?_, hx, ?_, ?_⟩
  · rw [hy, hl]
    rfl
  · rw [hs, hl]
    rfl
  · rw [(hch 0 (by rw [hl]; decide)).1]
    decide
  · exact hrest 18 (by rw [hl])

theorem bitlen_go_le (f : Nat) : ∀ (n k : Nat), n < 2 ^ k → bitlen_go f n ≤ k := by
  induction f with
  | zero =>
    intro n k _
    exact Nat.zero_le _
  | succ f ih =>
    intro n k hn
    rw [bitlen_go]
    split_ifs with h0
    · exact Nat.zero_le _
    · cases k with
      | zero =>
        rw [pow_zero] at hn
        omega
      | succ k =>
        have h2 : n / 2 < 2 ^ k := by
          rw [Nat.div_lt_iff_lt_mul (by decide)]
          rw [pow_succ] at hn
          exact hn
        have := ih (n / 2) k h2
        omega

theorem bitlen_le (n k : Nat) (h : n < 2 ^ k) : bitlen n ≤ k := bitlen_go_le n n k h

/-- The statement `y += 1.0` on a `uint32_t` is the increment modulo `2^32`. -/
theorem increment_via_double (y : Nat) (hy : y < 2 ^ 32) :
    (fp_trunc (d_add (fp_of_nat y) (fp_of_nat 1)) % 2 ^ 32).toNat = (y + 1) % 2 ^ 32 := by
  have hsum : fp_add (fp_of_nat y) (fp_of_nat 1) = ⟨false, y + 1, 0⟩ := by
    unfold fp_add fp_scaled fp_of_nat
    simp only [min_self, sub_self, Int.toNat_zero, pow_zero, Nat.mul_one, Bool.false_eq_true,
      if_false, one_mul]
    have h1 : ((y : Int) + ((1 : Nat) : Int)).natAbs = y + 1 := by omega
    have h2 : decide ((y : Int) + ((1 : Nat) : Int) < 0) = false := by
      rw [decide_eq_false_iff_not]
      omega
    rw [h1, h2]
  have hround : fp_round 53 ⟨false, y + 1, 0⟩ = ⟨false, y + 1, 0⟩ := by
    unfold fp_round
    dsimp only
    rw [if_pos (bitlen_le _ _ (by omega))]
  unfold d_add
  rw [hsum, hround]
  unfold fp_trunc
  simp only [Bool.false_eq_true, if_false, le_refl, if_true, Int.toNat_zero, pow_zero,
    Nat.mul_one, one_mul]
  omega

/-- One call of `update_trail`: the fields it keeps, the incremented `y`, the
shifted glyphs and the consumed draws. -/
theorem update_trail_step (t : char_trail) (r : Rand) (hy : t.y < 2 ^ 32)
    (hl1 : 1 ≤ t.length) (hl2 : t.length < 2 ^ 32) :
    (update_trail t r).1.y = (t.y + 1) % 2 ^ 32 ∧
      (update_trail t r).1.x = t.x ∧
      (update_trail t r).1.length = t.length ∧
      (update_trail t r).1.counter = t.counter ∧
      (update_trail t r).1.characters 0 = (generate_random_char r).1 ∧
      (∀ i, i + 1 < t.length → (update_trail t r).1.characters (i + 1) = t.characters i) ∧
      (∀ i, t.length ≤ i → (update_trail t r).1.characters i = t.characters i) ∧
      (update_trail t r).2 = ⟨r.draws, r.pos + 2⟩ := by
  have hsub := u32_sub_one t.length hl1 hl2
  refine ⟨increment_via_double t.y hy, rfl, rfl, rfl, ?_, ?_, ?_, generate_random_char_state r⟩
  · show store (memmove_up t.characters (u32_sub t.length 1)) 0 (generate_random_char r).1 0 = _
    unfold store
    rw [if_pos rfl]
  · intro i hi
    show store (memmove_up t.characters (u32_sub t.length 1)) 0 (generate_random_char r).1
      (i + 1) = _
    unfold store memmove_up
    rw [if_neg (by omega), hsub, if_pos (by omega), Nat.add_sub_cancel]
  · intro i hi
    show store (memmove_up t.characters (u32_sub t.length 1)) 0 (generate_random_char r).1 i = _
    unfold store memmove_up
    rw [if_neg (by omega), hsub, if_neg (by omega)]

theorem toInt32_add (y k : Nat) (h : toInt32 y + k < 2 ^ 31) :
    toInt32 ((y + k) % 2 ^ 32) = toInt32 y + k := by
  unfold toInt32 at *
  split_ifs at * <;> omega

/-- The state after `k` calls of `update_trail`. -/
theorem update_times_state (t : char_trail) (r : Rand) (hy : t.y < 2 ^ 32)
    (hl1 : 1 ≤ t.length) (hl2 : t.length < 2 ^ 32) :
    ∀ k, (update_times k t r).1.y = (t.y + k) % 2 ^ 32 ∧
      (update_times k t r).1.x = t.x ∧
      (update_times k t r).1.length = t.length ∧
      (update_times k t r).1.counter = t.counter ∧
      (update_times k t r).2 = ⟨r.draws, r.pos + 2 * k⟩ ∧
      (∀ i, i < t.length → (update_times k t r).1.characters i =
        if i < k then (generate_random_char ⟨r.draws, r.pos + 2 * (k - 1 - i)⟩).1
        else t.characters (i - k)) ∧
      (∀ i, t.length ≤ i → (update_times k t r).1.characters i = t.characters i) := by
  intro k
  induction k with
  | zero =>
    refine ⟨(Nat.mod_eq_of_lt hy).symm, rfl, rfl, rfl, rfl, ?_, fun _ _ => rfl⟩
    intro i _
    rw [if_neg (by omega)]
    rfl
  | succ k ih =>
    obtain ⟨h1, h2, h3, h4, h5, h6, h7⟩ := ih
    have hyk : (update_times k t r).1.y < 2 ^ 32 := by
      rw [h1]
      exact Nat.mod_lt _ (by decide)
    obtain ⟨s1, s2, s3, s4, s5, s6, s7, s8⟩ :=
      update_trail_step (update_times k t r).1 (update_times k t r).2 hyk (by omega) (by omega)
    rw [h3] at s6 s7
    rw [update_times]
    refine ⟨?_, s2.trans h2, s3.trans h3, s4.trans h4, ?_, ?_, ?_⟩
    · rw [s1, h1]
      omega
    · rw [s8, h5]
      dsimp only
      congr 1
    · intro i hi
      cases i with
      | zero =>
        rw [s5, h5, if_pos (by omega)]
        congr 3
      | succ i =>
        rw [s6 i hi, h6 i (by omega)]
        by_cases hik : i < k
        · rw [if_pos hik, if_pos (by omega)]
          congr 3
          omega
        · rw [if_neg hik, if_neg (by omega)]
          congr 1
          omega
    · intro i hi
      rw [s7 i hi, h7 i hi]

theorem toInt32_u32_sub (y l : Nat) (h : -(2 ^ 31 : Int) ≤ toInt32 y - l) :
    toInt32 (u32_sub y l) = toInt32 y - l := by
  unfold toInt32 u32_sub at *
  split_ifs at * <;> omega

/-- C9: in the pool loop, once the trail of an occupied slot has been advanced,
the slot is freed if and only if `head_row - length > height`, with `head_row`
the signed reading of `y` (the subtraction being representable as an `int`,
`head_row - length >= -2^31`); a freed trail leaves the buffer untouched, and a
trail that is not freed stays in its slot and is written to the intermediate
buffer by `write_trail` in the same iteration. -/
theorem pool_slot_retire (t : char_trail) (buf : Mem) (width height : Nat)
    (fresh : Nat → Nat) (r : Rand)
    (hrange : -(2 ^ 31 : Int) ≤ toInt32 (advance t r).1.y - (advance t r).1.length) :
    ((pool_slot_step (some t) buf width height fresh r).1 = none ↔
        toInt32 (advance t r).1.y - ((advance t r).1.length : Int) > height) ∧
      (toInt32 (advance t r).1.y - ((advance t r).1.length : Int) > height →
        pool_slot_step (some t) buf width height fresh r = (none, buf, (advance t r).2)) ∧
      (¬ toInt32 (advance t r).1.y - ((advance t r).1.length : Int) > height →
        pool_slot_step (some t) buf width height fresh r =
          (some (advance t r).1, write_trail (advance t r).1 buf width height,
            (advance t r).2)) := by
  have hsub := toInt32_u32_sub _ _ hrange
  have hfree : toInt32 (advance t r).1.y - ((advance t r).1.length : Int) > height →
      pool_slot_step (some t) buf width height fresh r = (none, buf, (advance t r).2) := by
    intro h
    unfold pool_slot_step retire_or_write
    dsimp only
    rw [hsub, if_pos h]
  have hkeep : ¬ toInt32 (advance t r).1.y - ((advance t r).1.length : Int) > height →
      pool_slot_step (some t) buf width height fresh r =
        (some (advance t r).1, write_trail (advance t r).1 buf width height,
          (advance t r).2) := by
    intro h
    unfold pool_slot_step retire_or_write
    dsimp only
    rw [hsub, if_neg h]
  refine ⟨⟨?_, fun h => by rw [hfree h]⟩, hfree, hkeep⟩
  intro hnone
  by_contra h
  rw [hkeep h] at hnone
  exact absurd hnone (by simp)

/-- Witness of C9 on a viewport of height 10: the example trail (head row 4,
length 5) is not freed after its advance and is composited, while a trail with
head row 16 and length 5 is freed, `16 - 5 > 10`. -/
theorem pool_slot_retire_witness :
    (pool_slot_step (some example_trail) (fun _ => 0) 10 10 (fun _ => 0) ⟨fun _ => 3, 0⟩).1 ≠
        none ∧
      (pool_slot_step (some example_trail) (fun _ => 0) 10 10 (fun _ => 0)
          ⟨fun _ => 3, 0⟩).2.1 =
        write_trail (advance example_trail ⟨fun _ => 3, 0⟩).1 (fun _ => 0) 10 10 ∧
      (pool_slot_step (some ⟨fp_of_nat 0, 0, 16, 5, fun _ => 0x41⟩) (fun _ => 0) 10 10
          (fun _ => 0) ⟨fun _ => 3, 0⟩).1 = none := by
  have h1 := pool_slot_retire example_trail (fun _ => 0) 10 10 (fun _ => 0) ⟨fun _ => 3, 0⟩
    (by decide)
  have h2 := pool_slot_retire ⟨fp_of_nat 0, 0, 16, 5, fun _ => 0x41⟩ (fun _ => 0) 10 10
    (fun _ => 0) ⟨fun _ => 3, 0⟩ (by decide)
  have hk := h1.2.2 (by decide)
  refine ⟨?_, ?_, h2.1.mpr (by decide)⟩
  · rw [hk]
    simp
  · rw [hk]

/-! ## The fade colour -/

set_option maxRecDepth 100000 in
/-- On the range of the compositor the floating-point computation of
`calc_colour_from_pos` gives the integer parts of the exact products. -/
theorem calc_colour_table : ∀ L < 21, ∀ j < 21, 1 ≤ j → j ≤ L →
    calc_colour_from_pos j L =
      ⟨fade_exact 40 j L, fade_exact 255 j L, fade_exact 40 j L⟩ := by
  decide

theorem fade_exact_lt (m j j' L : Nat) (hm : 11 * L ≤ 10 * m) (hL : 1 ≤ L) (hjj : j < j')
    (hj' : j' ≤ L) : fade_exact m j' L < fade_exact m j L := by
  unfold fade_exact
  have hd : 0 < 11 * L := by omega
  have hstep : m * (11 * L - 10 * j') + 11 * L ≤ m * (11 * L - 10 * j) := by
    have h1 : 11 * L - 10 * j = (11 * L - 10 * j') + 10 * (j' - j) := by omega
    rw [h1, Nat.mul_add]
    have h2 : m * (10 * 1) ≤ m * (10 * (j' - j)) :=
      Nat.mul_le_mul_left _ (Nat.mul_le_mul_left _ (by omega))
    omega
  have h3 := Nat.div_le_div_right (c := 11 * L) hstep
  rw [Nat.add_div_right _ hd] at h3
  exact h3

/-- C11: for every trail length with `1 <= length <= MAX_TRAIL` and all indices
`1 <= j < j' <= length`, each of the red, green and blue channels of
`calc_colour_from_pos(j', length)` is strictly smaller than the same channel of
`calc_colour_from_pos(j, length)`; in particular the two colours differ. -/
theorem calc_colour_monotone (length j j' : Nat) (hl : 1 ≤ length ∧ length ≤ MAX_TRAIL)
    (hj : 1 ≤ j) (hjj : j < j') (hj' : j' ≤ length) :
    (calc_colour_from_pos j' length).red < (calc_colour_from_pos j length).red ∧
      (calc_colour_from_pos j' length).green < (calc_colour_from_pos j length).green ∧
      (calc_colour_from_pos j' length).blue < (calc_colour_from_pos j length).blue ∧
      calc_colour_from_pos j' length ≠ calc_colour_from_pos j length := by
  have hmax : length ≤ 20 := hl.2
  have h1 := calc_colour_table length (by omega) j (by omega) hj (by omega)
  have h2 := calc_colour_table length (by omega) j' (by omega) (by omega) hj'
  have hr := fade_exact_lt 40 j j' length (by omega) hl.1 hjj hj'
  have hg := fade_exact_lt 255 j j' length (by omega) hl.1 hjj hj'
  rw [h1, h2]
  refine ⟨hr, hg, hr, ?_⟩
  intro heq
  have : fade_exact 40 j' length = fade_exact 40 j length := congrArg rgb.red heq
  omega

/-- Witness of C11: in a trail of length 5 the colour at index 3, `(18, 115, 18)`,
is below the colour at index 1, `(32, 208, 32)`, in every channel. -/
theorem calc_colour_monotone_witness :
    (calc_colour_from_pos 3 5).red < (calc_colour_from_pos 1 5).red ∧
      (calc_colour_from_pos 3 5).green < (calc_colour_from_pos 1 5).green ∧
      (calc_colour_from_pos 3 5).blue < (calc_colour_from_pos 1 5).blue ∧
      calc_colour_from_pos 3 5 ≠ calc_colour_from_pos 1 5 :=
  calc_colour_monotone 5 1 3 (by decide) (by decide) (by decide) (by decide)

/-- The integer part of `m * (1 - index / (length * 1.1))` over the rationals is
`fade_exact m index length`. -/
theorem floor_fade_eq (m j L : Nat) (hL : 1 ≤ L) (h : 10 * j ≤ 11 * L) :
    ⌊(m : ℚ) * (1 - (j : ℚ) / ((L : ℚ) * (11 / 10)))⌋ = (fade_exact m j L : Int) := by
  have hL0 : (L : ℚ) ≠ 0 := by positivity
  have h1 : (m : ℚ) * (1 - (j : ℚ) / ((L : ℚ) * (11 / 10))) =
      (((m * (11 * L - 10 * j) : Nat) : Int) : ℚ) / ((11 * L : Nat) : ℚ) := by
    push_cast [Nat.cast_sub h]
    field_simp
    ring
  rw [h1, Rat.floor_intCast_div_natCast]
  unfold fade_exact
  norm_cast

/-- C12 (amended): `calc_colour_from_pos(0, length)` is `(200, 200, 200)` for every
length; and for `1 <= index <= length <= MAX_TRAIL` it returns the integer parts of
`40 * c`, `255 * c`, `40 * c` with `c = 1 - index / (length * 1.1)` taken in exact
arithmetic, each of which already lies in `0 .. 255`.  The code casts to
`uint8_t` and never clamps. -/
theorem calc_colour_formula (index length : Nat) :
    calc_colour_from_pos 0 length = ⟨200, 200, 200⟩ ∧
      (1 ≤ index → index ≤ length → length ≤ MAX_TRAIL →
        ((calc_colour_from_pos index length).red : Int) =
            ⌊(40 : ℚ) * (1 - (index : ℚ) / ((length : ℚ) * (11 / 10)))⌋ ∧
          ((calc_colour_from_pos index length).green : Int) =
            ⌊(255 : ℚ) * (1 - (index : ℚ) / ((length : ℚ) * (11 / 10)))⌋ ∧
          ((calc_colour_from_pos index length).blue : Int) =
            ⌊(40 : ℚ) * (1 - (index : ℚ) / ((length : ℚ) * (11 / 10)))⌋ ∧
          (calc_colour_from_pos index length).red ≤ 255 ∧
          (calc_colour_from_pos index length).green ≤ 255 ∧
          (calc_colour_from_pos index length).blue ≤ 255) := by
  refine ⟨rfl, ?_⟩
  intro h1 h2 h3
  have hmax : length ≤ 20 := h3
  obtain ⟨b1, b2, b3⟩ := calc_colour_from_pos_lt index length
  have ht := calc_colour_table length (by omega) index (by omega) h1 h2
  have f40 := floor_fade_eq 40 index length (by omega) (by omega)
  have f255 := floor_fade_eq 255 index length (by omega) (by omega)
  have e1 : (calc_colour_from_pos index length).red = fade_exact 40 index length := by rw [ht]
  have e2 : (calc_colour_from_pos index length).green = fade_exact 255 index length := by rw [ht]
  have e3 : (calc_colour_from_pos index length).blue = fade_exact 40 index length := by rw [ht]
  refine ⟨?_, ?_, ?_, by omega, by omega, by omega⟩
  · rw [e1]
    exact_mod_cast f40.symm
  · rw [e2]
    exact_mod_cast f255.symm
  · rw [e3]
    exact_mod_cast f40.symm

/-- Witness of C12 (amended): index 1 of a trail of length 5 gets the colour
`(32, 208, 32)`, the integer parts of `40 * c` and `255 * c` for `c = 1 - 1 / 5.5`. -/
theorem calc_colour_formula_witness :
    calc_colour_from_pos 0 5 = ⟨200, 200, 200⟩ ∧
      ((calc_colour_from_pos 1 5).red : Int) =
        ⌊(40 : ℚ) * (1 - ((1 : Nat) : ℚ) / (((5 : Nat) : ℚ) * (11 / 10)))⌋ ∧
      ((calc_colour_from_pos 1 5).green : Int) =
        ⌊(255 : ℚ) * (1 - ((1 : Nat) : ℚ) / (((5 : Nat) : ℚ) * (11 / 10)))⌋ ∧
      calc_colour_from_pos 1 5 = ⟨32, 208, 32⟩ := by
  have h := calc_colour_formula 1 5
  have h2 := h.2 (by decide) (by decide) (by decide)
  exact ⟨h.1, h2.1, h2.2.1, by decide⟩

/-- C12 as stated fails twice.  For index 2 and length 1 the coefficient is
negative, `40 * c < 0`, so a clamp would give `(0, 0, 0)`, but the cast to
`uint8_t` keeps the integral parts `-32` and `-208` modulo 256 and the colour is
`(224, 48, 224)`.  For index 66 and length 75 the exact values are `40 * c = 8`
and `255 * c = 51`, but `1.1` is not a `double`, the computed coefficient falls
just below `0.2`, and the colour is `(7, 50, 7)`. -/
theorem calc_colour_formula_counterexample :
    ((40 : ℚ) * (1 - 2 / (1 * (11 / 10))) < 0 ∧
        calc_colour_from_pos 2 1 = ⟨224, 48, 224⟩) ∧
      ((40 : ℚ) * (1 - 66 / (75 * (11 / 10))) = 8 ∧
        (255 : ℚ) * (1 - 66 / (75 * (11 / 10))) = 51 ∧
        calc_colour_from_pos 66 75 = ⟨7, 50, 7⟩) := by
  refine ⟨⟨by norm_num, by decide⟩, by norm_num, by norm_num, by decide⟩

/-! ## The Glyph Source -/

/-- The two branches of `generate_random_char` in terms of its two draws. -/
theorem generate_random_char_eq (r : Rand) :
    (r.draws r.pos % 5 ≤ 3 →
        (generate_random_char r).1 = 0xFF66 + r.draws (r.pos + 1) % 0x38) ∧
      (¬ r.draws r.pos % 5 ≤ 3 →
        (generate_random_char r).1 = ASCII_CHARS.getD (r.draws (r.pos + 1) % 17) 0) := by
  have hlt := Nat.mod_lt (r.draws (r.pos + 1)) (show 0x38 > 0 by decide)
  constructor
  · intro h
    unfold generate_random_char rand
    dsimp only
    rw [if_pos h]
    dsimp only
    omega
  · intro h
    unfold generate_random_char rand
    dsimp only
    rw [if_neg h]
    rfl

/-- C13 fails on the code: `generate_random_char` takes the katakana branch
exactly when the first draw `r` has `r % 5 <= 3`, that is for the 4 residues
0, 1, 2, 3 out of 5 and not for 3 of them, and the ASCII branch for the single
residue 4.  With first draw 3 the result is the katakana `0xFF66`. -/
theorem generate_random_char_branch (r : Rand) :
    (0xFF66 ≤ (generate_random_char r).1 ↔ r.draws r.pos % 5 ≤ 3) ∧
      ((generate_random_char r).1 < 0x80 ↔ r.draws r.pos % 5 = 4) ∧
      ((List.range 5).filter fun k => decide (k % 5 ≤ 3)).length = 4 ∧
      (generate_random_char ⟨fun i => if i = 0 then 3 else 0, 0⟩).1 = 0xFF66 := by
  have hmod := Nat.mod_lt (r.draws r.pos) (show 5 > 0 by decide)
  have hg := is_glyph_cases _ (generate_random_char_is_glyph r)
  obtain ⟨hk, ha⟩ := generate_random_char_eq r
  have hascii : ∀ k, k < 17 → ASCII_CHARS.getD k 0 < 0x80 := by decide
  have h17 := Nat.mod_lt (r.draws (r.pos + 1)) (show 17 > 0 by decide)
  refine ⟨⟨?_, ?_⟩, ⟨?_, ?_⟩, by decide, by decide⟩
  · intro h
    by_contra hc
    have := hascii _ h17
    rw [ha hc] at h
    omega
  · intro h
    rw [hk h]
    omega
  · intro h
    by_contra hc
    rw [hk (by omega)] at h
    omega
  · intro h
    rw [ha (by omega)]
    exact hascii _ h17

/-- C14: for every outcome of the random source the value returned by
`generate_random_char` is `0xFF66 + (r mod 0x38)`, one of the `0x38` code points
`0xFF66 .. 0xFF9D`, on the katakana branch, and the character at position
`r mod 17` of the 17 characters `0123456789*+-<=>|` on the ASCII branch, `r`
being the second draw; and every value of the character universe is returned
for some outcome. -/
theorem generate_random_char_values (r : Rand) :
    ASCII_CHARS.take 17 = "0123456789*+-<=>|".toList.map Char.toNat ∧
      (r.draws r.pos % 5 ≤ 3 →
        (generate_random_char r).1 = 0xFF66 + r.draws (r.pos + 1) % 0x38 ∧
          0xFF66 ≤ (generate_random_char r).1 ∧ (generate_random_char r).1 ≤ 0xFF9D) ∧
      (¬ r.draws r.pos % 5 ≤ 3 →
        (generate_random_char r).1 = (ASCII_CHARS.take 17).getD (r.draws (r.pos + 1) % 17) 0 ∧
          (generate_random_char r).1 ∈ ASCII_CHARS.take 17) ∧
      (∀ g, (0xFF66 ≤ g ∧ g ≤ 0xFF9D) ∨ g ∈ ASCII_CHARS.take 17 →
        ∃ r2 : Rand, (generate_random_char r2).1 = g) := by
  obtain ⟨hk, ha⟩ := generate_random_char_eq r
  have h38 := Nat.mod_lt (r.draws (r.pos + 1)) (show 0x38 > 0 by decide)
  have h17 := Nat.mod_lt (r.draws (r.pos + 1)) (show 17 > 0 by decide)
  have htake : ∀ k, k < 17 → (ASCII_CHARS.take 17).getD k 0 = ASCII_CHARS.getD k 0 ∧
      ASCII_CHARS.getD k 0 ∈ ASCII_CHARS.take 17 := by decide
  refine ⟨rfl, ?_, ?_, ?_⟩
  · intro h
    rw [hk h]
    exact ⟨rfl, by omega, by omega⟩
  · intro h
    rw [ha h, (htake _ h17).1]
    exact ⟨rfl, (htake _ h17).2⟩
  · rintro g (hg | hg)
    · refine ⟨⟨fun i => if i = 0 then 0 else g - 0xFF66, 0⟩, ?_⟩
      have h := (generate_random_char_eq ⟨fun i => if i = 0 then 0 else g - 0xFF66, 0⟩).1
        (by show (0 : Nat) % 5 ≤ 3; decide)
      rw [h]
      dsimp only
      rw [if_neg (by omega)]
      omega
    · obtain ⟨k, hk17, hkg⟩ : ∃ k, k < 17 ∧ ASCII_CHARS.getD k 0 = g := by
        have hall : ∀ x ∈ ASCII_CHARS.take 17, ∃ k, k < 17 ∧ ASCII_CHARS.getD k 0 = x := by
          decide
        exact hall g hg
      refine ⟨⟨fun i => if i = 0 then 4 else k, 0⟩, ?_⟩
      have h := (generate_random_char_eq ⟨fun i => if i = 0 then 4 else k, 0⟩).2
        (by show ¬ (4 : Nat) % 5 ≤ 3; decide)
      rw [h]
      dsimp only
      rw [if_neg (by omega), Nat.mod_eq_of_lt hk17, hkg]

/-- Witness of C14: the draws `2, 60` give the katakana `0xFF66 + 60 % 0x38 = 0xFF6A`
and the draws `4, 27` give the character at position `27 % 17 = 10`, the
asterisk. -/
theorem generate_random_char_values_witness :
    (generate_random_char ⟨fun i => if i = 0 then 2 else 60, 0⟩).1 = 0xFF6A ∧
      (generate_random_char ⟨fun i => if i = 0 then 4 else 27, 0⟩).1 = 0x2A ∧
      ∃ r2 : Rand, (generate_random_char r2).1 = 0x7C := by
  have h1 := (generate_random_char_values ⟨fun i => if i = 0 then 2 else 60, 0⟩).2.1 (by decide)
  have h2 := (generate_random_char_values ⟨fun i => if i = 0 then 4 else 27, 0⟩).2.2.1
    (by decide)
  have h3 := (generate_random_char_values ⟨fun _ => 0, 0⟩).2.2.2 0x7C (Or.inr (by decide))
  exact ⟨h1.1.trans (by decide), h2.1.trans (by decide), h3⟩

/-! ## The viewport size -/

/-- C16: for every pair `(w, h)` reported by the terminal-size query,
`get_screen_size` returns width `w` if `w > 0` and 80 otherwise, and height `h`
if `h > 0` and 24 otherwise; both returned dimensions are positive. -/
theorem get_screen_size_positive (w h : Int) :
    (get_screen_size w h).screen_width = (if w > 0 then w else 80) ∧
      (get_screen_size w h).screen_height = (if h > 0 then h else 24) ∧
      0 < (get_screen_size w h).screen_width ∧ 0 < (get_screen_size w h).screen_height := by
  unfold get_screen_size
  dsimp only
  by_cases hw : w ≤ 0 <;> by_cases hh : h ≤ 0
  · rw [if_pos hw, if_pos hh, if_neg (by omega), if_neg (by omega)]
    omega
  · rw [if_pos hw, if_neg hh, if_neg (by omega), if_pos (by omega)]
    omega
  · rw [if_neg hw, if_pos hh, if_pos (by omega), if_neg (by omega)]
    omega
  · rw [if_neg hw, if_neg hh, if_pos (by omega), if_pos (by omega)]
    omega

/-! ## The compositor: overwriting -/

theorem trail_index_aligned (t : char_trail) (width j : Nat) : trail_index t width j % 32 = 0 := by
  unfold trail_index
  omega

/-- Two slots that share a byte are the same slot. -/
theorem slot_overlap (i1 i2 a : Nat) (h1 : i1 % 32 = 0) (h2 : i2 % 32 = 0)
    (ha1 : i1 ≤ a ∧ a < i1 + 32) (ha2 : i2 ≤ a ∧ a < i2 + 32) : i1 = i2 := by
  omega

/-- A slot targeted by some glyph below `n` holds, after the loop over the glyphs
below `n`, the render of the last glyph that targets it, whatever the buffer
held before. -/
theorem write_trail_upto_slot (t : char_trail) (width height idx : Nat) :
    ∀ n, (∃ j0, j0 < n ∧ trail_index t width j0 = idx ∧
        trail_index t width j0 ≤ index_bound width height) →
      ∃ j1, j1 < n ∧ trail_index t width j1 = idx ∧
        trail_index t width j1 ≤ index_bound width height ∧
        ∀ (buf : Mem) (k : Nat), k < 32 →
          write_trail_upto t buf width height n (idx + k) = cell_byte t j1 k := by
  intro n
  induction n with
  | zero =>
    rintro ⟨j0, hj0, _⟩
    omega
  | succ n ih =>
    rintro ⟨j0, hj0, hidx0, hin0⟩
    by_cases hn : trail_index t width n = idx ∧ trail_index t width n ≤ index_bound width height
    · refine ⟨n, by omega, hn.1, hn.2, ?_⟩
      intro buf k hk
      rw [write_trail_upto_succ,
        write_trail_glyph_inside t _ width height n (idx + k) hn.2 (by omega), hn.1,
        Nat.add_sub_cancel_left]
    · have hj0n : j0 < n := by
        by_contra hc
        have : j0 = n := by omega
        subst this
        exact hn ⟨hidx0, hin0⟩
      obtain ⟨j1, hj1, hi1, hb1, hall⟩ := ih ⟨j0, hj0n, hidx0, hin0⟩
      refine ⟨j1, by omega, hi1, hb1, ?_⟩
      intro buf k hk
      rw [write_trail_upto_succ, write_trail_glyph_outside t _ width height n (idx + k) ?_]
      · exact hall buf k hk
      · intro hin hcontra
        have hal := trail_index_aligned t width n
        have hal0 := trail_index_aligned t width j0
        have : trail_index t width n = idx := by
          rw [← hidx0] at hcontra ⊢
          omega
        exact hn ⟨this, hin⟩

theorem pool_slot_step_keep (t : char_trail) (buf : Mem) (width height : Nat)
    (fresh : Nat → Nat) (r : Rand)
    (hkeep : ¬ toInt32 (u32_sub (advance t r).1.y (advance t r).1.length) > (height : Int)) :
    pool_slot_step (some t) buf width height fresh r =
      (some (advance t r).1, write_trail (advance t r).1 buf width height, (advance t r).2) := by
  unfold pool_slot_step retire_or_write
  dsimp only
  rw [if_neg hkeep]

theorem pool_loop_nil (width height : Nat) (fresh : Nat → Nat) (buf : Mem) (r : Rand) :
    pool_loop width height fresh [] buf r = ([], buf, r) := by
  rw [pool_loop]

theorem pool_loop_cons (width height : Nat) (fresh : Nat → Nat) (slot : Option char_trail)
    (rest : List (Option char_trail)) (buf : Mem) (r : Rand) :
    (pool_loop width height fresh (slot :: rest) buf r).2 =
      (pool_loop width height fresh rest
        (pool_slot_step slot buf width height fresh r).2.1
        (pool_slot_step slot buf width height fresh r).2.2).2 := by
  rw [pool_loop]

/-- C15: for any prior contents of the intermediate buffer, `write_trail` leaves
every byte outside the slots it targets unchanged, and each slot it targets (the
slot at the index of a glyph that passes the index check) ends up holding, in
all its 32 bytes, the render of a glyph of this trail followed by zeros, the
same bytes for every prior content.  Hence when the pool loop composites two
trails one after the other and the second one targets a slot, the slot holds
exactly the render of the second trail, whatever the first one wrote there. -/
theorem write_trail_last_writer (t : char_trail) (buf : Mem) (width height : Nat) :
    (∀ a, (∀ j, j < u32_sub t.length 1 → trail_index t width j ≤ index_bound width height →
          ¬ (trail_index t width j ≤ a ∧ a < trail_index t width j + 32)) →
        write_trail t buf width height a = buf a) ∧
      (∀ j0, j0 < u32_sub t.length 1 → trail_index t width j0 ≤ index_bound width height →
        ∃ j1, j1 < u32_sub t.length 1 ∧ trail_index t width j1 = trail_index t width j0 ∧
          ∀ (prior : Mem) (k : Nat), k < 32 →
            write_trail t prior width height (trail_index t width j0 + k) = cell_byte t j1 k) ∧
      (∀ (t1 : char_trail) (fresh : Nat → Nat) (r : Rand),
        ¬ toInt32 (u32_sub (advance t1 r).1.y (advance t1 r).1.length) > (height : Int) →
        ¬ toInt32 (u32_sub (advance t (advance t1 r).2).1.y
            (advance t (advance t1 r).2).1.length) > (height : Int) →
        (pool_loop width height fresh [some t1, some t] buf r).2.1 =
            write_trail (advance t (advance t1 r).2).1
              (write_trail (advance t1 r).1 buf width height) width height ∧
          ∀ j0, j0 < u32_sub (advance t (advance t1 r).2).1.length 1 →
            trail_index (advance t (advance t1 r).2).1 width j0 ≤ index_bound width height →
            ∃ j1, j1 < u32_sub (advance t (advance t1 r).2).1.length 1 ∧
              trail_index (advance t (advance t1 r).2).1 width j1 =
                trail_index (advance t (advance t1 r).2).1 width j0 ∧
              ∀ k, k < 32 →
                (pool_loop width height fresh [some t1, some t] buf r).2.1
                    (trail_index (advance t (advance t1 r).2).1 width j0 + k) =
                  cell_byte (advance t (advance t1 r).2).1 j1 k) := by
  refine ⟨?_, ?_, ?_⟩
  · intro a ha
    rw [write_trail_eq_upto]
    exact write_trail_upto_untouched t buf width height a _ ha
  · intro j0 hj0 hin
    obtain ⟨j1, hj1, hidx, _, hall⟩ := write_trail_upto_slot t width height
      (trail_index t width j0) (u32_sub t.length 1) ⟨j0, hj0, rfl, hin⟩
    exact ⟨j1, hj1, hidx, fun prior k hk => hall prior k hk⟩
  · intro t1 fresh r hk1 hk2
    have hpool : (pool_loop width height fresh [some t1, some t] buf r).2.1 =
        write_trail (advance t (advance t1 r).2).1
          (write_trail (advance t1 r).1 buf width height) width height := by
      rw [pool_loop_cons, pool_slot_step_keep t1 buf width height fresh r hk1]
      dsimp only
      rw [pool_loop_cons, pool_slot_step_keep t _ width height fresh _ hk2, pool_loop_nil]
    refine ⟨hpool, ?_⟩
    intro j0 hj0 hin
    obtain ⟨j1, hj1, hidx, _, hall⟩ := write_trail_upto_slot (advance t (advance t1 r).2).1
      width height (trail_index (advance t (advance t1 r).2).1 width j0)
      (u32_sub (advance t (advance t1 r).2).1.length 1) ⟨j0, hj0, rfl, hin⟩
    refine ⟨j1, hj1, hidx, ?_⟩
    intro k hk
    rw [hpool]
    exact hall _ k hk

/-- Witness of C15: on a `10 x 10` viewport the pool `[example_trail, overlap_trail]`
composites both trails on the same cells; the slot `(0, 4)` of the head glyphs
ends up with the asterisk of the second trail at offset 19, after its colour
escape, and nothing of the `A` the first trail wrote there. -/
theorem write_trail_last_writer_witness :
    write_trail example_trail (fun _ => 0) 10 10 ((0 + 4 * 10) * 32 + 19) = 0x41 ∧
      (pool_loop 10 10 (fun _ => 0) [some example_trail, some overlap_trail] (fun _ => 0)
          ⟨fun _ => 3, 0⟩).2.1 ((0 + 4 * 10) * 32 + 19) = 0x2A := by
  constructor
  · have h := write_trail_target_slot example_trail (fun _ => 0) 10 10 (by decide) (by decide)
      (by decide) (by decide) 0 4 19 (by decide) (by decide) (by decide) (by decide)
    exact h.trans (by decide)
  · have h := (write_trail_last_writer overlap_trail (fun _ => 0) 10 10).2.2 example_trail
      (fun _ => 0) ⟨fun _ => 3, 0⟩ (by decide) (by decide)
    obtain ⟨j1, hj1, hidx, hall⟩ := h.2 0 (by decide) (by decide)
    have hn : u32_sub (advance overlap_trail (advance example_trail ⟨fun _ => 3, 0⟩).2).1.length 1
        = 4 := by decide
    rw [hn] at hj1
    have hi0 : trail_index (advance overlap_trail (advance example_trail ⟨fun _ => 3, 0⟩).2).1
        10 0 = (0 + 4 * 10) * 32 := by decide
    rw [hi0] at hall hidx
    have h19 := hall 19 (by decide)
    rw [h19]
    interval_cases j1
    · decide
    · exact absurd hidx (by decide)
    · exact absurd hidx (by decide)
    · exact absurd hidx (by decide)

/-! ## The frame flattener: the cursor stays inside the screen buffer -/

theorem cell_byte_terminated (t : char_trail) (j : Nat) : cell_byte t j 28 = 0 := by
  have hlen := cell_render_length_le j t.length (t.characters j)
  unfold cell_byte
  rw [List.getD_eq_getElem?_getD, List.getElem?_eq_none (by omega)]
  rfl

theorem composited_cell_zero (buffer : Mem) (i : Nat) (h : composited_cell buffer i) :
    ∃ k, k < 32 ∧ buffer (i * 32 + k) = 0 := by
  rcases h with h | ⟨t, j, h⟩
  · exact ⟨0, by decide, h 0 (by decide)⟩
  · exact ⟨28, by decide, (h 28 (by decide)).trans (cell_byte_terminated t j)⟩

/-- `write_trail` keeps every slot in the state the compositor leaves slots in. -/
theorem write_trail_composited (t : char_trail) (buf : Mem) (width height i : Nat)
    (h : composited_cell buf i) : composited_cell (write_trail t buf width height) i := by
  by_cases hex : ∃ j0, j0 < u32_sub t.length 1 ∧ trail_index t width j0 = i * 32 ∧
      trail_index t width j0 ≤ index_bound width height
  · obtain ⟨j1, _, _, _, hall⟩ := write_trail_upto_slot t width height (i * 32)
      (u32_sub t.length 1) hex
    exact Or.inr ⟨t, j1, fun k hk => hall buf k hk⟩
  · have hsame : ∀ k, k < 32 → write_trail t buf width height (i * 32 + k) = buf (i * 32 + k) := by
      intro k hk
      rw [write_trail_eq_upto]
      apply write_trail_upto_untouched
      intro j hj hin hcontra
      have hal := trail_index_aligned t width j
      exact hex ⟨j, hj, by omega, hin⟩
    rcases h with h | ⟨t2, j2, h⟩
    · exact Or.inl fun k hk => (hsame k hk).trans (h k hk)
    · exact Or.inr ⟨t2, j2, fun k hk => (hsame k hk).trans (h k hk)⟩

/-- The intermediate buffer of a frame, zeroed and then written by any sequence of
trails, has all its slots in the state the compositor leaves slots in. -/
theorem composited_frame (width height : Nat) (buf : Mem) (i : Nat)
    (hi : i < width * height) :
    ∀ ts : List char_trail,
      composited_cell
        (ts.foldl (fun b t => write_trail t b width height)
          (memset buf 0 0 (width * height * 32))) i := by
  intro ts
  induction ts using List.reverseRecOn with
  | nil =>
    left
    intro k hk
    show memset buf 0 0 (width * height * 32) (i * 32 + k) = 0
    unfold memset
    rw [if_pos ⟨Nat.zero_le _, by omega⟩]
  | append_singleton ts t ih =>
    rw [List.foldl_append, List.foldl_cons, List.foldl_nil]
    exact write_trail_composited t _ width height i ih

/-- C17: for every viewport with `width, height >= 1` and every intermediate buffer
whose slots are each all zero or a render written by `write_trail`, the cursor
`ptr` of the flattening loop is at most `32 * n` after `n` slots, hence never
above `width * height * 32`, separators included, on either build; and no byte
at or beyond offset `width * height * 32` of the screen buffer is written. -/
theorem flatten_cursor_bound (win32 : Bool) (width height : Nat) (buffer screen_buffer : Mem)
    (hw : 1 ≤ width) (hh : 1 ≤ height)
    (hcells : ∀ i, i < width * height → composited_cell buffer i) :
    (∀ n, n ≤ width * height →
        (flatten_upto win32 width buffer
          (memset screen_buffer 0 0x20 (width * height * 32)) n).ptr ≤ 32 * n ∧
        (flatten_upto win32 width buffer
          (memset screen_buffer 0 0x20 (width * height * 32)) n).ptr ≤ width * height * 32) ∧
      (flatten win32 width height buffer
        (memset screen_buffer 0 0x20 (width * height * 32))).ptr ≤ width * height * 32 ∧
      (∀ a, width * height * 32 ≤ a →
        (flatten win32 width height buffer
          (memset screen_buffer 0 0x20 (width * height * 32))).screen_buffer a =
          screen_buffer a) := by
  have hpos : 1 ≤ width * height := Nat.mul_pos hw hh
  have hblank : ∀ a, a < width * height * 32 →
      memset screen_buffer 0 0x20 (width * height * 32) a = 0x20 := by
    intro a ha
    unfold memset
    rw [if_pos ⟨Nat.zero_le _, by omega⟩]
  have hinv := flatten_upto_inv win32 width height buffer
    (memset screen_buffer 0 0x20 (width * height * 32))
    (fun i hi => composited_cell_zero buffer i (hcells i hi)) hblank
  have hfl : flatten win32 width height buffer
      (memset screen_buffer 0 0x20 (width * height * 32)) =
      flatten_upto win32 width buffer (memset screen_buffer 0 0x20 (width * height * 32))
        (width * height) := rfl
  refine ⟨?_, ?_, ?_⟩
  · intro n hn
    obtain ⟨_, _, _, h4⟩ := hinv n hn
    exact ⟨h4, by omega⟩
  · rw [hfl]
    obtain ⟨_, _, _, h4⟩ := hinv (width * height) (le_refl _)
    omega
  · intro a ha
    rw [hfl]
    obtain ⟨_, h2, _, h4⟩ := hinv (width * height) (le_refl _)
    rw [h2 a (by omega)]
    unfold memset
    rw [if_neg (by omega)]

/-- Witness of C17: the buffer of a `10 x 10` frame in which the example trail
was composited is flattened with a cursor of at most `10 * 10 * 32`. -/
theorem flatten_cursor_bound_witness :
    (flatten false 10 10
        ([example_trail].foldl (fun b t => write_trail t b 10 10)
          (memset (fun _ => 0xAA) 0 0 (10 * 10 * 32)))
        (memset (fun _ => 0xAA) 0 0x20 (10 * 10 * 32))).ptr ≤ 10 * 10 * 32 :=
  (flatten_cursor_bound false 10 10 _ (fun _ => 0xAA) (by decide) (by decide)
    (fun i hi => composited_frame 10 10 (fun _ => 0xAA) i hi [example_trail])).2.1

/-! ## Trail invariants -/

/-- The fields of a freshly created trail. -/
theorem create_trail_fields (x : Nat) (fresh : Nat → Nat) (r : Rand) :
    (create_trail x fresh r).1.length = r.draws r.pos % 6 + 14 ∧
      (create_trail x fresh r).1.y = u32_sub 0 (create_trail x fresh r).1.length ∧
      (create_trail x fresh r).1.x = x ∧
      (∀ i, i < (create_trail x fresh r).1.length →
        is_glyph ((create_trail x fresh r).1.characters i)) ∧
      (∀ i, (create_trail x fresh r).1.length ≤ i →
        (create_trail x fresh r).1.characters i = fresh i) := by
  have hmod : r.draws r.pos % 6 < 6 := Nat.mod_lt _ (by decide)
  have hlen : (create_trail x fresh r).1.length = r.draws r.pos % 6 + 14 := by
    unfold create_trail rand MAX_TRAIL MIN_TRAIL
    dsimp only
    omega
  have hfill := fill_characters_eq (create_trail x fresh r).1.length 0 fresh (rand r).2
  have hchars : (create_trail x fresh r).1.characters =
      (fill_characters (create_trail x fresh r).1.length 0 fresh (rand r).2).1 := rfl
  refine ⟨hlen, rfl, rfl, ?_, ?_⟩
  · intro i hi
    rw [hchars, hfill.1 i, if_pos (by omega)]
    exact generate_random_char_is_glyph _
  · intro i hi
    rw [hchars, hfill.1 i, if_neg (by omega)]

/-- C18: every trail reachable from the trail returned by `create_trail` by any
number of `update_trail` steps keeps the length and the column it was created
with, satisfies `MIN_TRAIL <= length < MAX_TRAIL`, has every `characters[i]` with
`i < length` in the character universe of the Glyph Source, and still has the
entries from `length` on as they were allocated, so that the shift of
`length - 1` entries never wrote outside the `MAX_TRAIL` entries of the array. -/
theorem reachable_invariant (x : Nat) (fresh : Nat → Nat) (r : Rand) (t : char_trail)
    (h : reachable (create_trail x fresh r).1 t) :
    t.length = (create_trail x fresh r).1.length ∧ t.x = x ∧
      (MIN_TRAIL ≤ t.length ∧ t.length < MAX_TRAIL) ∧
      (∀ i, i < t.length → is_glyph (t.characters i)) ∧
      (∀ i, t.length ≤ i → t.characters i = fresh i) ∧
      t.y < 2 ^ 32 := by
  obtain ⟨c1, c2, c3, c4, c5⟩ := create_trail_fields x fresh r
  have hmod : r.draws r.pos % 6 < 6 := Nat.mod_lt _ (by decide)
  induction h with
  | start =>
    refine ⟨rfl, c3, by unfold MIN_TRAIL MAX_TRAIL; omega, c4, c5, ?_⟩
    rw [c2]
    unfold u32_sub
    omega
  | step t r2 _ ih =>
    obtain ⟨i1, i2, i3, i4, i5, i6⟩ := ih
    have hl1 : 1 ≤ t.length := by
      have := i3.1
      unfold MIN_TRAIL at this
      omega
    have hl2 : t.length < 2 ^ 32 := by
      have := i3.2
      unfold MAX_TRAIL at this
      omega
    obtain ⟨s1, s2, s3, _, s5, s6, s7, _⟩ := update_trail_step t r2 i6 hl1 hl2
    refine ⟨s3.trans i1, s2.trans i2, by rw [s3]; exact i3, ?_, ?_, ?_⟩
    · intro i hi
      rw [s3] at hi
      cases i with
      | zero =>
        rw [s5]
        exact generate_random_char_is_glyph r2
      | succ i =>
        rw [s6 i hi]
        exact i4 i (by omega)
    · intro i hi
      rw [s3] at hi
      rw [s7 i hi]
      exact i5 i hi
    · rw [s1]
      exact Nat.mod_lt _ (by decide)

/-- Witness of C18: the trail created at column 7 from the draws
`1000, 1007, ...` and updated once still has length 18 and column 7, and its new
head glyph is in the character universe. -/
theorem reachable_invariant_witness :
    reachable (create_trail 7 (fun _ => 99) ⟨fun k => 1000 + 7 * k, 0⟩).1
        (update_trail (create_trail 7 (fun _ => 99) ⟨fun k => 1000 + 7 * k, 0⟩).1
          ⟨fun _ => 3, 0⟩).1 ∧
      (update_trail (create_trail 7 (fun _ => 99) ⟨fun k => 1000 + 7 * k, 0⟩).1
        ⟨fun _ => 3, 0⟩).1.length = 18 ∧
      (update_trail (create_trail 7 (fun _ => 99) ⟨fun k => 1000 + 7 * k, 0⟩).1
        ⟨fun _ => 3, 0⟩).1.x = 7 ∧
      is_glyph ((update_trail (create_trail 7 (fun _ => 99) ⟨fun k => 1000 + 7 * k, 0⟩).1
        ⟨fun _ => 3, 0⟩).1.characters 0) := by
  have hr : reachable (create_trail 7 (fun _ => 99) ⟨fun k => 1000 + 7 * k, 0⟩).1
      (update_trail (create_trail 7 (fun _ => 99) ⟨fun k => 1000 + 7 * k, 0⟩).1
        ⟨fun _ => 3, 0⟩).1 := reachable.step _ _ reachable.start
  obtain ⟨h1, h2, h3, h4, _, _⟩ := reachable_invariant 7 (fun _ => 99)
    ⟨fun k => 1000 + 7 * k, 0⟩ _ hr
  have hlen := (create_trail_fields 7 (fun _ => 99) ⟨fun k => 1000 + 7 * k, 0⟩).1
  refine ⟨hr, h1.trans (hlen.trans (by decide)), h2, h4 0 ?_⟩
  rw [h1, hlen]
  decide

/-! ## The UTF-8 encoder on a sequence -/

theorem encode_all_cons (c : Nat) (rest : List Nat) :
    encode_all (c :: rest) = encode_bytes c ++ encode_all rest := by
  unfold encode_all
  rw [List.flatMap_cons]

/-- With a capacity of at least 4 the loop of `write_utf8_buf` stores the
encodings of the code points that fit, whole and in order, and counts them. -/
theorem write_utf8_loop_eq (cap : Nat) (hcap : cap < 2 ^ 64) (h4 : 4 ≤ cap) :
    ∀ (input : List Nat) (bw : Nat) (out : Mem),
      write_utf8_loop cap input bw out =
        (bw + (encode_all (input.take (fit_count cap input bw))).length,
          store_bytes out bw (encode_all (input.take (fit_count cap input bw)))) := by
  intro input
  induction input with
  | nil =>
    intro bw out
    rfl
  | cons c rest ih =>
    intro bw out
    have hlen := encode_bytes_length_le c
    rw [write_utf8_loop_cons cap c rest bw out hcap (by omega), fit_count]
    by_cases hfull : cap ≤ bw + (encode_bytes c).length
    · rw [if_pos hfull, if_pos hfull]
      rfl
    · rw [if_neg hfull, if_neg hfull, ih, List.take_succ_cons, encode_all_cons,
        List.length_append, store_bytes_append, Nat.add_assoc]

/-- The totals of the code points that fit stay below the capacity, and the
first code point that does not fit would reach it. -/
theorem fit_count_spec (cap : Nat) :
    ∀ (input : List Nat) (used : Nat), used < cap →
      fit_count cap input used ≤ input.length ∧
      (∀ i, i ≤ fit_count cap input used →
        used + (encode_all (input.take i)).length < cap) ∧
      (fit_count cap input used < input.length →
        cap ≤ used + (encode_all (input.take (fit_count cap input used + 1))).length) := by
  intro input
  induction input with
  | nil =>
    intro used hu
    refine ⟨le_refl _, ?_, ?_⟩
    · intro i _
      rw [List.take_nil]
      exact hu
    · intro h
      exact absurd h (by simp [fit_count])
  | cons c rest ih =>
    intro used hu
    rw [fit_count]
    by_cases hfull : cap ≤ used + (encode_bytes c).length
    · rw [if_pos hfull]
      refine ⟨Nat.zero_le _, ?_, ?_⟩
      · intro i hi
        have : i = 0 := by omega
        subst this
        exact hu
      · intro _
        rw [List.take_succ_cons, List.take_zero, encode_all_cons]
        simp only [encode_all, List.flatMap_nil, List.append_nil]
        exact hfull
    · rw [if_neg hfull]
      obtain ⟨h1, h2, h3⟩ := ih (used + (encode_bytes c).length) (by omega)
      refine ⟨by simp only [List.length_cons]; omega, ?_, ?_⟩
      · intro i hi
        cases i with
        | zero => exact hu
        | succ i =>
          rw [List.take_succ_cons, encode_all_cons, List.length_append]
          have := h2 i (by omega)
          omega
      · intro hlt
        rw [List.take_succ_cons, encode_all_cons, List.length_append]
        have := h3 (by simp only [List.length_cons] at hlt; omega)
        omega

theorem fit_count_replicate (cap k : Nat) :
    ∀ used, used + k < cap → fit_count cap (List.replicate k 0x41) used = k := by
  induction k with
  | zero =>
    intro used _
    rfl
  | succ k ih =>
    intro used hu
    have h1 : (encode_bytes 0x41).length = 1 := by decide
    rw [List.replicate_succ, fit_count, h1, if_neg (by omega), ih (used + 1) (by omega)]

theorem encode_all_replicate (k : Nat) : (encode_all (List.replicate k 0x41)).length = k := by
  induction k with
  | zero => rfl
  | succ k ih =>
    have h1 : (encode_bytes 0x41).length = 1 := by decide
    rw [List.replicate_succ, encode_all_cons, List.length_append, ih, h1]
    omega

/-! ## The life of a trail -/

/-- A frame in which the phase counter goes from zero to `0.5`: no
`update_trail` step. -/
theorem advance_idle (t : char_trail) (r : Rand)
    (hc : t.counter = ⟨false, 0, 0⟩ ∨ t.counter = ⟨false, 0, -23⟩) :
    advance t r = (⟨⟨false, 8388608, -24⟩, t.x, t.y, t.length, t.characters⟩, r) := by
  have h0 : to_float (d_add ⟨false, 0, 0⟩ SPEED) = ⟨false, 8388608, -24⟩ := by decide
  have h1 : to_float (d_add ⟨false, 0, -23⟩ SPEED) = ⟨false, 8388608, -24⟩ := by decide
  have ht : (fp_trunc ⟨false, 8388608, -24⟩).toNat = 0 := by decide
  unfold advance
  dsimp only
  rcases hc with hc | hc
  · rw [hc, h0, ht]
    rfl
  · rw [hc, h1, ht]
    rfl

/-- A frame in which the phase counter goes from `0.5` to `1.0`: exactly one
`update_trail` step, and the counter is back to zero. -/
theorem advance_tick (t : char_trail) (r : Rand) (hc : t.counter = ⟨false, 8388608, -24⟩) :
    advance t r =
      (⟨⟨false, 0, -23⟩, (update_trail t r).1.x, (update_trail t r).1.y,
          (update_trail t r).1.length, (update_trail t r).1.characters⟩,
        (update_trail t r).2) := by
  have h0 : to_float (d_add ⟨false, 8388608, -24⟩ SPEED) = ⟨false, 8388608, -23⟩ := by decide
  have ht : (fp_trunc ⟨false, 8388608, -23⟩).toNat = 1 := by decide
  have hle : fp_le (fp_of_nat 1) ⟨false, 8388608, -23⟩ = true := by decide
  have hsub : to_float (d_sub ⟨false, 8388608, -23⟩ (fp_of_nat 1)) = ⟨false, 0, -23⟩ := by decide
  unfold advance
  dsimp only
  rw [hc, h0, ht, advance_loop]
  dsimp only
  rw [if_pos hle, advance_loop]
  unfold update_trail
  dsimp only
  rw [hsub]

/-- The slot content after the step of an occupied slot: the advanced trail,
unless its tail row is below the viewport. -/
theorem pool_slot_step_some (t : char_trail) (buffer : Mem) (width height : Nat)
    (fresh : Nat → Nat) (r : Rand) :
    (pool_slot_step (some t) buffer width height fresh r).1 =
      if toInt32 (u32_sub (advance t r).1.y (advance t r).1.length) > (height : Int) then none
      else some (advance t r).1 := by
  unfold pool_slot_step retire_or_write
  dsimp only
  split <;> rfl

/-- The state of a slot on every frame before its trail is freed: the length
is unchanged, the head row has advanced by one on every second frame, and
the phase counter alternates between `0.5` and zero. -/
theorem slot_frames_alive (width height : Nat) (fresh : Nat → Nat) (bufs : Nat → Mem)
    (rs : Nat → Rand) (t0 : char_trail) (hc : t0.counter = ⟨false, 0, 0⟩)
    (hl1 : 1 ≤ t0.length) (hl2 : t0.length ≤ 20) (hy : t0.y = 2 ^ 32 - t0.length)
    (hh : height < 2 ^ 26) (n : Nat) (hn : n < 2 * (height + 2 * t0.length + 1)) :
    ∃ t, slot_frames width height fresh bufs rs n (some t0) = some t ∧
      t.length = t0.length ∧ t.y = (2 ^ 32 - t0.length + n / 2) % 2 ^ 32 ∧
      t.counter = (if n % 2 = 1 then ⟨false, 8388608, -24⟩
        else if n = 0 then ⟨false, 0, 0⟩ else ⟨false, 0, -23⟩) := by
  induction n with
  | zero =>
    refine ⟨t0, rfl, rfl, ?_, ?_⟩
    · rw [hy]
      omega
    · rw [hc]
      rfl
  | succ n ih =>
    obtain ⟨t, hs, hlen, hty, htc⟩ := ih (by omega)
    have hstep : slot_frames width height fresh bufs rs (n + 1) (some t0) =
        (pool_slot_step (some t) (bufs n) width height fresh (rs n)).1 := by
      rw [← hs]
      rfl
    rw [hstep, pool_slot_step_some]
    by_cases hodd : n % 2 = 1
    · rw [if_pos hodd] at htc
      have hu := update_trail_step t (rs n) (by rw [hty]; omega) (by omega) (by omega)
      rw [advance_tick t (rs n) htc]
      dsimp only
      rw [hu.1, hu.2.2.1, hlen, hty]
      have hdiv : (n + 1) / 2 = n / 2 + 1 := by omega
      have hnot : ¬ toInt32 (u32_sub ((((2 ^ 32 - t0.length + n / 2) % 2 ^ 32) + 1) % 2 ^ 32)
          t0.length) > (height : Int) := by
        unfold toInt32 u32_sub
        split <;> omega
      rw [if_neg hnot]
      refine ⟨_, rfl, ?_, ?_, ?_⟩
      · rfl
      · dsimp only
        rw [hdiv]
        omega
      · dsimp only
        rw [if_neg (by omega), if_neg (by omega)]
    · have hc2 : t.counter = ⟨false, 0, 0⟩ ∨ t.counter = ⟨false, 0, -23⟩ := by
        rw [if_neg hodd] at htc
        by_cases h0 : n = 0
        · rw [if_pos h0] at htc
          exact Or.inl htc
        · rw [if_neg h0] at htc
          exact Or.inr htc
      rw [advance_idle t (rs n) hc2]
      dsimp only
      rw [hlen, hty]
      have hdiv : (n + 1) / 2 = n / 2 := by omega
      have hnot : ¬ toInt32 (u32_sub ((2 ^ 32 - t0.length + n / 2) % 2 ^ 32)
          t0.length) > (height : Int) := by
        unfold toInt32 u32_sub
        split <;> omega
      rw [if_neg hnot]
      refine ⟨_, rfl, ?_, ?_, ?_⟩
      · rfl
      · dsimp only
        rw [hdiv]
      · dsimp only
        rw [if_pos (by omega)]

/-- The step of a slot on the last frame of its trail: the head row has
reached `height + length + 1`, the tail row is below the viewport. -/
theorem slot_frames_freed (width height : Nat) (fresh : Nat → Nat) (bufs : Nat → Mem)
    (rs : Nat → Rand) (t0 : char_trail) (hc : t0.counter = ⟨false, 0, 0⟩)
    (hl1 : 1 ≤ t0.length) (hl2 : t0.length ≤ 20) (hy : t0.y = 2 ^ 32 - t0.length)
    (hh : height < 2 ^ 26) :
    slot_frames width height fresh bufs rs (2 * (height + 2 * t0.length + 1)) (some t0) =
      none := by
  obtain ⟨t, hs, hlen, hty, htc⟩ := slot_frames_alive width height fresh bufs rs t0 hc hl1 hl2 hy
    hh (2 * (height + 2 * t0.length) + 1) (by omega)
  have hidx : 2 * (height + 2 * t0.length + 1) = (2 * (height + 2 * t0.length) + 1) + 1 := by
    omega
  have hstep : slot_frames width height fresh bufs rs
      ((2 * (height + 2 * t0.length) + 1) + 1) (some t0) =
        (pool_slot_step (some t) (bufs (2 * (height + 2 * t0.length) + 1)) width height fresh
          (rs (2 * (height + 2 * t0.length) + 1))).1 := by
    rw [← hs]
    rfl
  rw [hidx, hstep, pool_slot_step_some]
  rw [if_pos (by omega)] at htc
  have hu := update_trail_step t (rs (2 * (height + 2 * t0.length) + 1)) (by rw [hty]; omega)
    (by omega) (by omega)
  rw [advance_tick t _ htc]
  dsimp only
  rw [hu.1, hu.2.2.1, hlen, hty]
  have hgt : toInt32 (u32_sub ((((2 ^ 32 - t0.length +
      (2 * (height + 2 * t0.length) + 1) / 2) % 2 ^ 32) + 1) % 2 ^ 32) t0.length) >
        (height : Int) := by
    unfold toInt32 u32_sub
    split <;> omega
  rw [if_pos hgt]

/-- C20: in a viewport of constant height `height ≥ 1` (of a size the buffer
arithmetic can hold), a trail that `create_trail` has made with length `L`
still occupies its slot after each of the next `2 * (height + 2 * L + 1) - 1`
frames, with its length unchanged, its head row at `-L + n / 2` after `n`
frames (one `update_trail` step on every second frame) and a phase counter
below `1.0`, and the frame number `2 * (height + 2 * L + 1)` frees it. -/
theorem trail_lifetime (x width height : Nat) (fresh : Nat → Nat) (r : Rand)
    (bufs : Nat → Mem) (rs : Nat → Rand) (hw : 1 ≤ width) (hh : 1 ≤ height)
    (hsize : width * height * 32 < 2 ^ 31) :
    (∀ n, n < 2 * (height + 2 * (create_trail x fresh r).1.length + 1) →
      ∃ t, slot_frames width height fresh bufs rs n (some (create_trail x fresh r).1) = some t ∧
        t.length = (create_trail x fresh r).1.length ∧
        toInt32 t.y = ((n / 2 : Nat) : Int) - ((create_trail x fresh r).1.length : Int) ∧
        fp_lt t.counter (fp_of_nat 1) = true) ∧
      slot_frames width height fresh bufs rs
        (2 * (height + 2 * (create_trail x fresh r).1.length + 1))
        (some (create_trail x fresh r).1) = none := by
  have hf := create_trail_fields x fresh r
  have hmod : r.draws r.pos % 6 < 6 := Nat.mod_lt _ (by decide)
  have hl1 : 1 ≤ (create_trail x fresh r).1.length := by omega
  have hl2 : (create_trail x fresh r).1.length ≤ 20 := by omega
  have hy : (create_trail x fresh r).1.y = 2 ^ 32 - (create_trail x fresh r).1.length := by
    rw [hf.2.1]
    unfold u32_sub
    omega
  have hle : height ≤ width * height := Nat.le_mul_of_pos_left height hw
  have hh2 : height < 2 ^ 26 := by
    generalize width * height = p at *
    omega
  refine ⟨?_, slot_frames_freed width height fresh bufs rs _ rfl hl1 hl2 hy hh2⟩
  intro n hn
  obtain ⟨t, hs, hlen, hty, htc⟩ :=
    slot_frames_alive width height fresh bufs rs _ rfl hl1 hl2 hy hh2 n hn
  refine ⟨t, hs, hlen, ?_, ?_⟩
  · rw [hty]
    unfold toInt32
    split <;> omega
  · rw [htc]
    split
    · decide
    · split <;> decide

/-- C20 at a concrete input: an 80 × 24 viewport and a trail of length 14; the
trail is still in its slot after 105 frames, with its head on row 38, and
frame 106 frees it. -/
theorem trail_lifetime_witness :
    1 ≤ 80 ∧ 1 ≤ 24 ∧ 80 * 24 * 32 < 2 ^ 31 ∧
      (create_trail 0 (fun _ => 0) ⟨fun _ => 0, 0⟩).1.length = 14 ∧
      (∃ t, slot_frames 80 24 (fun _ => 0) (fun _ _ => 0) (fun _ => ⟨fun _ => 0, 0⟩) 105
          (some (create_trail 0 (fun _ => 0) ⟨fun _ => 0, 0⟩).1) = some t ∧
        t.length = 14 ∧ toInt32 t.y = 38 ∧ fp_lt t.counter (fp_of_nat 1) = true) ∧
      slot_frames 80 24 (fun _ => 0) (fun _ _ => 0) (fun _ => ⟨fun _ => 0, 0⟩) 106
        (some (create_trail 0 (fun _ => 0) ⟨fun _ => 0, 0⟩).1) = none := by
  have h := trail_lifetime 0 80 24 (fun _ => 0) ⟨fun _ => 0, 0⟩ (fun _ _ => 0)
    (fun _ => ⟨fun _ => 0, 0⟩) (by decide) (by decide) (by decide)
  have hlen : (create_trail 0 (fun _ => 0) ⟨fun _ => 0, 0⟩).1.length = 14 := by
    rw [(create_trail_fields 0 (fun _ => 0) ⟨fun _ => 0, 0⟩).1]
    rfl
  rw [hlen] at h
  refine ⟨by decide, by decide, by decide, hlen, ?_, h.2⟩
  obtain ⟨t, hs, hl, hy, hc⟩ := h.1 105 (by decide)
  exact ⟨t, hs, hl, by rw [hy]; decide, hc⟩

/-- Outside the range `[0x10000, 0x11000)` the bytes the loop stores for a code
point up to `0x10FFFF` are its standard UTF-8 form. -/
theorem encode_bytes_eq_utf8_encode (c : Nat) (hc : c ≤ 0x10FFFF)
    (h : ¬ (0x10000 ≤ c ∧ c < 0x11000)) : encode_bytes c = utf8_encode c := by
  unfold encode_bytes utf8_encode
  by_cases h1 : c < 0x80
  · rw [if_pos h1, if_pos h1, byte_ascii]
    congr 1
    omega
  · rw [if_neg h1, if_neg h1]
    by_cases h2 : c < 0x800
    · rw [if_pos h2, if_pos h2, byte_lead2, byte_cont, shr6]
      congr 1
      · omega
      · congr 1
        omega
    · rw [if_neg h2, if_neg h2]
      by_cases h3 : c < 0x10000
      · rw [if_pos (by omega), if_pos h3, byte_lead3, byte_cont, byte_cont, shr6, shr12]
        congr 1
        · omega
        · congr 1
          · omega
          · congr 1
            omega
      · rw [if_neg (by omega), if_neg h3, byte_lead4, byte_cont, byte_cont, byte_cont, shr6,
          shr12, shr18]
        congr 1
        · omega
        · congr 1
          · omega
          · congr 1
            · omega
            · congr 1
              omega

theorem utf8_encode_length (c : Nat) : (utf8_encode c).length = utf8_width c := by
  unfold utf8_encode utf8_width
  split_ifs <;> rfl

/-- The reference encoder and the reference decoder agree on every Unicode
scalar value. -/
theorem utf8_decode_utf8_encode (c : Nat) (hc : is_scalar c) :
    utf8_decode (utf8_encode c) = some c := by
  by_cases h : 0x10000 ≤ c ∧ c < 0x11000
  · obtain ⟨hmax, hsur⟩ := hc
    unfold utf8_encode
    rw [if_neg (by omega), if_neg (by omega), if_neg (by omega)]
    unfold utf8_decode is_continuation
    have e0 : 0xF0 + c / 0x40000 = 0xF0 := by omega
    have e1 : 0x80 + c / 0x1000 % 0x40 = 0x90 := by omega
    rw [e0, e1]
    simp only [Bool.and_eq_true, decide_eq_true_eq]
    rw [if_pos (by omega)]
    rw [if_pos (by omega)]
    exact congrArg some (by omega)
  · rw [← encode_bytes_eq_utf8_encode c hc.1 h]
    exact utf8_decode_encode_bytes c hc h

theorem encode_all_eq_utf8 (input : List Nat)
    (hin : ∀ c ∈ input, c ≤ 0x10FFFF ∧ ¬ (0x10000 ≤ c ∧ c < 0x11000)) :
    encode_all input = utf8_encode_all input := by
  induction input with
  | nil => rfl
  | cons c rest ih =>
    have hc := hin c (List.mem_cons_self c rest)
    unfold encode_all utf8_encode_all at *
    rw [List.flatMap_cons, List.flatMap_cons, encode_bytes_eq_utf8_encode c hc.1 hc.2,
      ih (fun d hd => hin d (List.mem_cons_of_mem c hd))]

theorem fit_count_eq_utf8 (cap : Nat) (input : List Nat)
    (hin : ∀ c ∈ input, c ≤ 0x10FFFF ∧ ¬ (0x10000 ≤ c ∧ c < 0x11000)) :
    ∀ used, fit_count cap input used = utf8_fit_count cap input used := by
  induction input with
  | nil =>
    intro used
    rfl
  | cons c rest ih =>
    intro used
    have hc := hin c (List.mem_cons_self c rest)
    rw [fit_count, utf8_fit_count, encode_bytes_length_std c hc.2,
      ih (fun d hd => hin d (List.mem_cons_of_mem c hd))]

/-- The sequence behaviour of `write_utf8_buf` in terms of the bytes its own
branches store: with a capacity of at least 4, and fewer than `2^31` bytes
written, it returns the number of bytes of the code points that fit, stores
them whole from offset 0 and changes nothing else. -/
theorem write_utf8_buf_stored (cap : Nat) (input : List Nat) (out : Mem) (h4 : 4 ≤ cap)
    (hcap : cap < 2 ^ 64)
    (hint : cap ≤ 2 ^ 31 ∨ (encode_all (input.take (fit_count cap input 0))).length < 2 ^ 31) :
    (write_utf8_buf cap out input.length input).1 =
        ((encode_all (input.take (fit_count cap input 0))).length : Int) ∧
      (encode_all (input.take (fit_count cap input 0))).length ≤ cap - 1 ∧
      load_bytes (write_utf8_buf cap out input.length input).2 0
          (encode_all (input.take (fit_count cap input 0))).length =
        encode_all (input.take (fit_count cap input 0)) ∧
      (∀ a, (encode_all (input.take (fit_count cap input 0))).length ≤ a →
        (write_utf8_buf cap out input.length input).2 a = out a) ∧
      fit_count cap input 0 ≤ input.length ∧
      (∀ i, i ≤ fit_count cap input 0 → (encode_all (input.take i)).length < cap) ∧
      (fit_count cap input 0 < input.length →
        cap ≤ (encode_all (input.take (fit_count cap input 0 + 1))).length) := by
  obtain ⟨s1, s2, s3⟩ := fit_count_spec cap input 0 (by omega)
  have hbelow := s2 (fit_count cap input 0) (le_refl _)
  rw [Nat.zero_add] at hbelow
  have hloop := write_utf8_loop_eq cap hcap h4 input 0 out
  rw [Nat.zero_add] at hloop
  have hbuf : write_utf8_buf cap out input.length input =
      (((encode_all (input.take (fit_count cap input 0))).length : Int),
        store_bytes out 0 (encode_all (input.take (fit_count cap input 0)))) := by
    unfold write_utf8_buf
    rw [List.take_length, hloop]
    dsimp only
    rw [toInt32_small _ (by omega)]
  rw [hbuf]
  refine ⟨rfl, by omega, load_store_bytes _ _ _, ?_, s1, ?_, ?_⟩
  · intro a ha
    exact store_bytes_outside _ _ _ _ (Or.inr (by omega))
  · intro i hi
    have := s2 i hi
    omega
  · intro hlt
    have := s3 hlt
    omega

/-- C19 (amended): for every sequence of Unicode code points (each at most
`0x10FFFF`) none of which lies in `[0x10000, 0x11000)`, and every capacity
`cap >= 4` (a `size_t`), as long as fewer than `2^31` bytes get written (always
so when `cap <= 2^31`), `write_utf8_buf` returns `n <= cap - 1`, the `n` bytes
it has written from offset 0 are exactly the concatenated standard UTF-8 forms
of the first `m` code points of the input, a code point never being written
partially, no other byte is changed, and `m` is the index of the first code
point whose standard UTF-8 form would bring the total to `cap` or more, or the
input length if there is none.  The standard form of a scalar value is the byte
string that the reference decoder maps back to it. -/
theorem write_utf8_buf_prefix (cap : Nat) (input : List Nat) (out : Mem) (h4 : 4 ≤ cap)
    (hcap : cap < 2 ^ 64)
    (hin : ∀ c ∈ input, c ≤ 0x10FFFF ∧ ¬ (0x10000 ≤ c ∧ c < 0x11000))
    (hint : cap ≤ 2 ^ 31 ∨
      (utf8_encode_all (input.take (utf8_fit_count cap input 0))).length < 2 ^ 31) :
    (write_utf8_buf cap out input.length input).1 =
        ((utf8_encode_all (input.take (utf8_fit_count cap input 0))).length : Int) ∧
      (utf8_encode_all (input.take (utf8_fit_count cap input 0))).length ≤ cap - 1 ∧
      load_bytes (write_utf8_buf cap out input.length input).2 0
          (utf8_encode_all (input.take (utf8_fit_count cap input 0))).length =
        utf8_encode_all (input.take (utf8_fit_count cap input 0)) ∧
      (∀ a, (utf8_encode_all (input.take (utf8_fit_count cap input 0))).length ≤ a →
        (write_utf8_buf cap out input.length input).2 a = out a) ∧
      utf8_fit_count cap input 0 ≤ input.length ∧
      (∀ i, i ≤ utf8_fit_count cap input 0 → (utf8_encode_all (input.take i)).length < cap) ∧
      (utf8_fit_count cap input 0 < input.length →
        cap ≤ (utf8_encode_all (input.take (utf8_fit_count cap input 0 + 1))).length) ∧
      (∀ c ∈ input, is_scalar c → utf8_decode (utf8_encode c) = some c) := by
  have hfit := fit_count_eq_utf8 cap input hin 0
  have henc : ∀ i, encode_all (input.take i) = utf8_encode_all (input.take i) := fun i =>
    encode_all_eq_utf8 (input.take i) (fun c hc => hin c (List.mem_of_mem_take hc))
  have h := write_utf8_buf_stored cap input out h4 hcap (by rw [hfit, henc]; exact hint)
  rw [hfit] at h
  simp only [henc] at h
  obtain ⟨h1, h2, h3, h5, h6, h7, h8⟩ := h
  exact ⟨h1, h2, h3, h5, h6, h7, h8, fun c _ hs => utf8_decode_utf8_encode c hs⟩

/-- Witness of C19 (amended): with capacity 5 the input `0x41, 0xFF66, 0x42` has
its first two code points written, `41 EF BD A6`, four bytes, and the third left
out because it would bring the total to 5. -/
theorem write_utf8_buf_prefix_witness :
    (∀ c ∈ [0x41, 0xFF66, 0x42], c ≤ 0x10FFFF ∧ ¬ (0x10000 ≤ c ∧ c < 0x11000)) ∧
      (write_utf8_buf 5 (fun _ => 0) 3 [0x41, 0xFF66, 0x42]).1 = 4 ∧
      utf8_fit_count 5 [0x41, 0xFF66, 0x42] 0 = 2 ∧
      load_bytes (write_utf8_buf 5 (fun _ => 0) 3 [0x41, 0xFF66, 0x42]).2 0 4 =
        [0x41, 0xEF, 0xBD, 0xA6] ∧
      (write_utf8_buf 5 (fun _ => 0) 3 [0x41, 0xFF66, 0x42]).2 4 = 0 ∧
      utf8_decode [0xEF, 0xBD, 0xA6] = some 0xFF66 := by
  have hin : ∀ c ∈ [0x41, 0xFF66, 0x42], c ≤ 0x10FFFF ∧ ¬ (0x10000 ≤ c ∧ c < 0x11000) := by
    decide
  obtain ⟨h1, _, h3, h4, _, _, _, h8⟩ :=
    write_utf8_buf_prefix 5 [0x41, 0xFF66, 0x42] (fun _ => 0) (by decide) (by decide) hin
      (Or.inl (by decide))
  have hn : (utf8_encode_all
      ([0x41, 0xFF66, 0x42].take (utf8_fit_count 5 [0x41, 0xFF66, 0x42] 0))).length = 4 := by
    decide
  rw [hn] at h3 h4
  exact ⟨hin, h1.trans (by decide), by decide, h3.trans (by decide), h4 4 (le_refl _),
    h8 0xFF66 (by decide) (by unfold is_scalar; decide)⟩

/-- C19 as stated fails twice.  With `cap = 4` and the single code point
`0x10000`, whose standard UTF-8 form `F0 90 80 80` has four bytes and so would
bring the total to `cap`, nothing should be written; the code takes its
three-byte branch (bound `0x11000`), stores `E0 80 80` and returns 3, bytes
that are the standard form of no prefix of the input and that the reference
decoder rejects.  And with `cap = 2^32` and an input of `2^31` code points `0x41`
the loop writes `2^31` bytes, fewer than `cap`, but the counter is returned as
an `int`, so the value returned is `-2^31` and not the number of bytes written. -/
theorem write_utf8_buf_prefix_counterexample :
    (is_scalar 0x10000 ∧ 4 ≤ 4 ∧ utf8_encode 0x10000 = [0xF0, 0x90, 0x80, 0x80] ∧
      utf8_fit_count 4 [0x10000] 0 = 0 ∧
      (write_utf8_buf 4 (fun _ => 0xAA) 1 [0x10000]).1 = 3 ∧
      load_bytes (write_utf8_buf 4 (fun _ => 0xAA) 1 [0x10000]).2 0 4 =
        [0xE0, 0x80, 0x80, 0xAA] ∧
      utf8_decode [0xE0, 0x80, 0x80] = none ∧
      (∀ m, utf8_encode_all ([0x10000].take m) ≠ [0xE0, 0x80, 0x80])) ∧
    (4 ≤ 2 ^ 32 ∧
      (write_utf8_loop (2 ^ 32) (List.replicate (2 ^ 31) 0x41) 0 (fun _ => 0)).1 = 2 ^ 31 ∧
      (write_utf8_buf (2 ^ 32) (fun _ => 0) (2 ^ 31) (List.replicate (2 ^ 31) 0x41)).1 =
        -(2 ^ 31 : Int)) := by
  have hfit := fit_count_replicate (2 ^ 32) (2 ^ 31) 0 (by omega)
  have hloop := write_utf8_loop_eq (2 ^ 32) (by omega) (by omega)
    (List.replicate (2 ^ 31) 0x41) 0 (fun _ => 0)
  rw [hfit, List.take_of_length_le (by rw [List.length_replicate]), encode_all_replicate,
    Nat.zero_add] at hloop
  refine ⟨⟨by unfold is_scalar; decide, by decide, by decide, by decide, by decide, by decide,
    by decide, ?_⟩, by omega, by rw [hloop], ?_⟩
  · intro m
    cases m with
    | zero => decide
    | succ m =>
      rw [List.take_succ_cons, List.take_nil]
      decide
  · unfold write_utf8_buf
    rw [List.take_of_length_le (by rw [List.length_replicate]), hloop]
    decide

/-! ## The phase loop and the glyph shift -/

/-- The result of `update_trail` does not depend on the phase counter, which
it leaves as it is. -/
theorem update_trail_congr (a b : char_trail) (r : Rand) (hx : a.x = b.x) (hy : a.y = b.y)
    (hl : a.length = b.length) (hc : a.characters = b.characters) :
    (update_trail a r).1.x = (update_trail b r).1.x ∧
      (update_trail a r).1.y = (update_trail b r).1.y ∧
      (update_trail a r).1.length = (update_trail b r).1.length ∧
      (update_trail a r).1.characters = (update_trail b r).1.characters ∧
      (update_trail a r).2 = (update_trail b r).2 := by
  unfold update_trail
  dsimp only
  rw [hx, hy, hl, hc]
  exact ⟨rfl, rfl, rfl, rfl, rfl⟩

theorem update_times_congr (k : Nat) (a b : char_trail) (r : Rand) (hx : a.x = b.x)
    (hy : a.y = b.y) (hl : a.length = b.length) (hc : a.characters = b.characters) :
    (update_times k a r).1.x = (update_times k b r).1.x ∧
      (update_times k a r).1.y = (update_times k b r).1.y ∧
      (update_times k a r).1.length = (update_times k b r).1.length ∧
      (update_times k a r).1.characters = (update_times k b r).1.characters ∧
      (update_times k a r).2 = (update_times k b r).2 := by
  induction k with
  | zero => exact ⟨hx, hy, hl, hc, rfl⟩
  | succ k ih =>
    obtain ⟨i1, i2, i3, i4, i5⟩ := ih
    rw [update_times, update_times, i5]
    exact update_trail_congr _ _ _ i1 i2 i3 i4

/-- The first of `k + 1` steps can be taken apart. -/
theorem update_times_front (k : Nat) (t : char_trail) (r : Rand) :
    update_times (k + 1) t r = update_times k (update_trail t r).1 (update_trail t r).2 := by
  induction k with
  | zero => rfl
  | succ k ih =>
    rw [update_times, ih]
    rfl

/-- The loop of the trail update performs one `update_trail` step for each time
it finds the phase counter at `1.0` or more. -/
theorem advance_loop_eq (fuel : Nat) :
    ∀ (t : char_trail) (r : Rand),
      (advance_loop fuel t r).1.x = (update_times (phase_count fuel t.counter) t r).1.x ∧
      (advance_loop fuel t r).1.y = (update_times (phase_count fuel t.counter) t r).1.y ∧
      (advance_loop fuel t r).1.length =
        (update_times (phase_count fuel t.counter) t r).1.length ∧
      (advance_loop fuel t r).1.characters =
        (update_times (phase_count fuel t.counter) t r).1.characters ∧
      (advance_loop fuel t r).2 = (update_times (phase_count fuel t.counter) t r).2 := by
  induction fuel with
  | zero =>
    intro t r
    exact ⟨rfl, rfl, rfl, rfl, rfl⟩
  | succ fuel ih =>
    intro t r
    rw [advance_loop, phase_count]
    by_cases h : fp_le (fp_of_nat 1) t.counter = true
    · rw [if_pos h, if_pos h]
      dsimp only
      have hcnt : (update_trail t r).1.counter = t.counter := rfl
      rw [hcnt, update_times_front]
      obtain ⟨i1, i2, i3, i4, i5⟩ := ih
        ⟨to_float (d_sub t.counter (fp_of_nat 1)), (update_trail t r).1.x,
          (update_trail t r).1.y, (update_trail t r).1.length,
          (update_trail t r).1.characters⟩ (update_trail t r).2
      obtain ⟨c1, c2, c3, c4, c5⟩ := update_times_congr
        (phase_count fuel (to_float (d_sub t.counter (fp_of_nat 1))))
        ⟨to_float (d_sub t.counter (fp_of_nat 1)), (update_trail t r).1.x,
          (update_trail t r).1.y, (update_trail t r).1.length,
          (update_trail t r).1.characters⟩ (update_trail t r).1 (update_trail t r).2
        rfl rfl rfl rfl
      exact ⟨i1.trans c1, i2.trans c2, i3.trans c3, i4.trans c4, i5.trans c5⟩
    · rw [if_neg h, if_neg h]
      exact ⟨rfl, rfl, rfl, rfl, rfl⟩

/-- One frame of the trail update performs exactly as many `update_trail` steps
as the number of times the phase reaches `1.0` in that frame. -/
theorem advance_eq_update_times (t : char_trail) (r : Rand) :
    (advance t r).1.x = (update_times (phase_steps t.counter) t r).1.x ∧
      (advance t r).1.y = (update_times (phase_steps t.counter) t r).1.y ∧
      (advance t r).1.length = (update_times (phase_steps t.counter) t r).1.length ∧
      (advance t r).1.characters = (update_times (phase_steps t.counter) t r).1.characters ∧
      (advance t r).2 = (update_times (phase_steps t.counter) t r).2 := by
  unfold advance phase_steps
  dsimp only
  obtain ⟨i1, i2, i3, i4, i5⟩ := advance_loop_eq
    (fp_trunc (to_float (d_add t.counter SPEED))).toNat
    ⟨to_float (d_add t.counter SPEED), t.x, t.y, t.length, t.characters⟩ r
  obtain ⟨c1, c2, c3, c4, c5⟩ := update_times_congr
    (phase_count (fp_trunc (to_float (d_add t.counter SPEED))).toNat
      (to_float (d_add t.counter SPEED)))
    ⟨to_float (d_add t.counter SPEED), t.x, t.y, t.length, t.characters⟩ t r rfl rfl rfl rfl
  exact ⟨i1.trans c1, i2.trans c2, i3.trans c3, i4.trans c4, i5.trans c5⟩

/-- After any number of frames the trail has taken exactly as many steps as the
phase has reached `1.0`: the head row has gone up by that number, the glyphs
have moved up by that number of places, and the places they left hold freshly
drawn glyphs. -/
theorem advance_frames_shift (t : char_trail) (rs : Nat → Rand) (hy : t.y < 2 ^ 32)
    (hl1 : 1 ≤ t.length) (hl2 : t.length < 2 ^ 32) :
    ∀ n, (advance_frames rs n t).y = (t.y + phase_reached rs n t) % 2 ^ 32 ∧
      (advance_frames rs n t).x = t.x ∧
      (advance_frames rs n t).length = t.length ∧
      (∀ i, phase_reached rs n t ≤ i → i < t.length →
        (advance_frames rs n t).characters i = t.characters (i - phase_reached rs n t)) ∧
      (∀ i, i < phase_reached rs n t → i < t.length →
        ∃ r2 : Rand, (advance_frames rs n t).characters i = (generate_random_char r2).1) ∧
      (∀ i, t.length ≤ i → (advance_frames rs n t).characters i = t.characters i) := by
  intro n
  induction n with
  | zero =>
    refine ⟨(Nat.mod_eq_of_lt hy).symm, rfl, rfl, fun _ _ _ => rfl, ?_, fun _ _ => rfl⟩
    intro i hi
    exact absurd hi (Nat.not_lt_zero i)
  | succ n ih =>
    obtain ⟨h1, h2, h3, h4, h5, h6⟩ := ih
    have hyT : (advance_frames rs n t).y < 2 ^ 32 := by
      rw [h1]
      exact Nat.mod_lt _ (by decide)
    obtain ⟨a1, a2, a3, a4, _⟩ := advance_eq_update_times (advance_frames rs n t) (rs n)
    obtain ⟨u1, u2, u3, _, _, u6, u7⟩ := update_times_state (advance_frames rs n t) (rs n) hyT
      (by omega) (by omega) (phase_steps (advance_frames rs n t).counter)
    have hreach : phase_reached rs (n + 1) t =
        phase_reached rs n t + phase_steps (advance_frames rs n t).counter := rfl
    have hframe : advance_frames rs (n + 1) t = (advance (advance_frames rs n t) (rs n)).1 := rfl
    rw [hreach, hframe, a1, a2, a3, a4, u1, u2, u3, h1, h2, h3]
    rw [h3] at u6 u7
    refine ⟨by omega, rfl, rfl, ?_, ?_, ?_⟩
    · intro i hki hi
      rw [u6 i hi, if_neg (by omega), h4 _ (by omega) (by omega)]
      congr 1
      omega
    · intro i hik hi
      rw [u6 i hi]
      by_cases hlt : i < phase_steps (advance_frames rs n t).counter
      · rw [if_pos hlt]
        exact ⟨_, rfl⟩
      · rw [if_neg hlt]
        exact h5 _ (by omega) (by omega)
    · intro i hi
      rw [u7 i hi, h6 i hi]

theorem phase_steps_idle : phase_steps ⟨false, 0, 0⟩ = 0 ∧ phase_steps ⟨false, 0, -23⟩ = 0 := by
  decide

theorem phase_steps_tick : phase_steps ⟨false, 8388608, -24⟩ = 1 := by
  decide

/-- With `SPEED = 0.5` a trail that starts with the counter at zero reaches `1.0`
in every second frame: after `n` frames it has done so `n / 2` times, the counter
is zero or `0.5`, and the glyph at index `i < n / 2` is the one drawn in the
frame of step number `n / 2 - 1 - i`. -/
theorem advance_frames_cycle (t : char_trail) (rs : Nat → Rand) (hc : t.counter = ⟨false, 0, 0⟩)
    (hy : t.y < 2 ^ 32) (hl1 : 1 ≤ t.length) (hl2 : t.length < 2 ^ 32) :
    ∀ n, (advance_frames rs n t).counter =
        (if n % 2 = 1 then ⟨false, 8388608, -24⟩
          else if n = 0 then ⟨false, 0, 0⟩ else ⟨false, 0, -23⟩) ∧
      phase_reached rs n t = n / 2 ∧
      (∀ i, i < n / 2 → i < t.length →
        (advance_frames rs n t).characters i =
          (generate_random_char (rs (2 * (n / 2 - 1 - i) + 1))).1) := by
  intro n
  induction n with
  | zero =>
    refine ⟨hc, rfl, ?_⟩
    intro i hi
    exact absurd hi (Nat.not_lt_zero i)
  | succ n ih =>
    obtain ⟨h1, h2, h3⟩ := ih
    obtain ⟨g1, _, g3, _, _, _⟩ := advance_frames_shift t rs hy hl1 hl2 n
    have hyT : (advance_frames rs n t).y < 2 ^ 32 := by
      rw [g1]
      exact Nat.mod_lt _ (by decide)
    have hreach : phase_reached rs (n + 1) t =
        phase_reached rs n t + phase_steps (advance_frames rs n t).counter := rfl
    have hframe : advance_frames rs (n + 1) t = (advance (advance_frames rs n t) (rs n)).1 := rfl
    by_cases hodd : n % 2 = 1
    · rw [if_pos hodd] at h1
      obtain ⟨_, _, _, _, s5, s6, _, _⟩ :=
        update_trail_step (advance_frames rs n t) (rs n) hyT (by omega) (by omega)
      rw [g3] at s6
      rw [hreach, hframe, advance_tick _ _ h1, h1, phase_steps_tick, h2]
      dsimp only
      refine ⟨by rw [if_neg (by omega), if_neg (by omega)], by omega, ?_⟩
      intro i hi hil
      cases i with
      | zero =>
        rw [s5]
        have hidx : 2 * ((n + 1) / 2 - 1 - 0) + 1 = n := by omega
        rw [hidx]
      | succ i =>
        rw [s6 i hil, h3 i (by omega) (by omega)]
        have hidx : 2 * ((n + 1) / 2 - 1 - (i + 1)) + 1 = 2 * (n / 2 - 1 - i) + 1 := by omega
        rw [hidx]
    · rw [if_neg hodd] at h1
      have hc2 : (advance_frames rs n t).counter = ⟨false, 0, 0⟩ ∨
          (advance_frames rs n t).counter = ⟨false, 0, -23⟩ := by
        by_cases h0 : n = 0
        · rw [if_pos h0] at h1
          exact Or.inl h1
        · rw [if_neg h0] at h1
          exact Or.inr h1
      have hst : phase_steps (advance_frames rs n t).counter = 0 := by
        rcases hc2 with h | h
        · rw [h]
          exact phase_steps_idle.1
        · rw [h]
          exact phase_steps_idle.2
      rw [hreach, hframe, advance_idle _ _ hc2, hst, h2]
      dsimp only
      have hdiv : (n + 1) / 2 = n / 2 := by omega
      refine ⟨by rw [if_pos (by omega)], by omega, ?_⟩
      intro i hi hil
      rw [hdiv] at hi ⊢
      exact h3 i hi hil

/-- C8: for every trail with `y < 2^32` and `1 <= length <= MAX_TRAIL`, one
`update_trail` step increases `y` by exactly 1 in 32-bit arithmetic (and the
signed head row by exactly 1 unless it is `2^31 - 1`), moves the glyph at each
index `i` in `[0, length - 1)` to index `i + 1`, the old glyph at index
`length - 1` being dropped, puts the freshly drawn glyph at index 0, and leaves
`length`, `x` and the entries from `length` on unchanged; after `k` steps the
head row has increased by exactly `k`, the glyphs at `[k, length)` are the
original glyphs at `[0, length - k)`, and index `i < k` holds the glyph drawn by
step number `k - 1 - i`, the newest first.  The trail update of `main` takes
these steps when the phase reaches `1.0`: one frame of `advance` leaves the
trail that `phase_steps` steps leave, `phase_steps` being the number of times
the loop finds the counter at `1.0` or more; after `n` frames, in which the
phase has reached `1.0` `phase_reached` times, the head row has increased by
exactly that number and the glyphs have moved up by that number of places,
behind freshly drawn ones; and with `SPEED = 0.5` a trail that starts with the
counter at zero has reached `1.0` exactly `n / 2` times after `n` frames, with
the counter below `1.0` and the glyph of step number `n / 2 - 1 - i`, drawn in
frame `2 * (n / 2 - 1 - i) + 2`, at index `i`. -/
theorem update_trail_shift (t : char_trail) (r : Rand) (k : Nat) (rs : Nat → Rand) (n : Nat)
    (hy : t.y < 2 ^ 32) (hlen : 1 ≤ t.length ∧ t.length ≤ MAX_TRAIL) :
    ((update_trail t r).1.y = (t.y + 1) % 2 ^ 32 ∧
        (toInt32 t.y + 1 < 2 ^ 31 → toInt32 (update_trail t r).1.y = toInt32 t.y + 1) ∧
        (∀ i, i + 1 < t.length → (update_trail t r).1.characters (i + 1) = t.characters i) ∧
        (update_trail t r).1.characters 0 = (generate_random_char r).1 ∧
        (∀ i, t.length ≤ i → (update_trail t r).1.characters i = t.characters i) ∧
        (update_trail t r).1.length = t.length ∧ (update_trail t r).1.x = t.x) ∧
      ((update_times k t r).1.y = (t.y + k) % 2 ^ 32 ∧
        (toInt32 t.y + k < 2 ^ 31 → toInt32 (update_times k t r).1.y = toInt32 t.y + k) ∧
        (∀ i, k ≤ i → i < t.length →
          (update_times k t r).1.characters i = t.characters (i - k)) ∧
        (∀ i, i < k → i < t.length →
          (update_times k t r).1.characters i =
            (generate_random_char (update_times (k - 1 - i) t r).2).1) ∧
        (∀ i, t.length ≤ i → (update_times k t r).1.characters i = t.characters i) ∧
        (update_times k t r).1.length = t.length ∧ (update_times k t r).1.x = t.x) ∧
      ((advance t r).1.y = (update_times (phase_steps t.counter) t r).1.y ∧
        (advance t r).1.characters = (update_times (phase_steps t.counter) t r).1.characters ∧
        (advance t r).1.length = (update_times (phase_steps t.counter) t r).1.length ∧
        (advance t r).1.x = (update_times (phase_steps t.counter) t r).1.x ∧
        (advance t r).2 = (update_times (phase_steps t.counter) t r).2) ∧
      ((advance_frames rs n t).y = (t.y + phase_reached rs n t) % 2 ^ 32 ∧
        (toInt32 t.y + phase_reached rs n t < 2 ^ 31 →
          toInt32 (advance_frames rs n t).y = toInt32 t.y + phase_reached rs n t) ∧
        (∀ i, phase_reached rs n t ≤ i → i < t.length →
          (advance_frames rs n t).characters i = t.characters (i - phase_reached rs n t)) ∧
        (∀ i, i < phase_reached rs n t → i < t.length →
          ∃ r2 : Rand, (advance_frames rs n t).characters i = (generate_random_char r2).1) ∧
        (∀ i, t.length ≤ i → (advance_frames rs n t).characters i = t.characters i) ∧
        (advance_frames rs n t).length = t.length ∧ (advance_frames rs n t).x = t.x) ∧
      (t.counter = fp_of_nat 0 →
        phase_reached rs n t = n / 2 ∧
        (advance_frames rs n t).y = (t.y + n / 2) % 2 ^ 32 ∧
        fp_lt (advance_frames rs n t).counter (fp_of_nat 1) = true ∧
        (∀ i, i < n / 2 → i < t.length →
          (advance_frames rs n t).characters i =
            (generate_random_char (rs (2 * (n / 2 - 1 - i) + 1))).1)) := by
  have hl2 : t.length < 2 ^ 32 := by
    have := hlen.2
    unfold MAX_TRAIL at this
    omega
  obtain ⟨s1, s2, s3, _, s5, s6, s7, _⟩ := update_trail_step t r hy hlen.1 hl2
  obtain ⟨h1, h2, h3, _, _, h6, h7⟩ := update_times_state t r hy hlen.1 hl2 k
  obtain ⟨a1, a2, a3, a4, a5⟩ := advance_eq_update_times t r
  obtain ⟨f1, f2, f3, f4, f5, f6⟩ := advance_frames_shift t rs hy hlen.1 hl2 n
  refine ⟨⟨s1, ?_, s6, s5, s7, s3, s2⟩, ⟨h1, ?_, ?_, ?_, h7, h3, h2⟩, ⟨a2, a4, a3, a1, a5⟩,
    ⟨f1, ?_, f4, f5, f6, f3, f2⟩, ?_⟩
  · intro hs
    rw [s1]
    have := toInt32_add t.y 1 hs
    exact this
  · intro hs
    rw [h1]
    exact toInt32_add t.y k hs
  · intro i hki hi
    rw [h6 i hi, if_neg (by omega)]
  · intro i hik hi
    rw [h6 i hi, if_pos hik, (update_times_state t r hy hlen.1 hl2 (k - 1 - i)).2.2.2.2.1]
  · intro hs
    rw [f1]
    exact toInt32_add t.y _ hs
  · intro hc
    obtain ⟨c1, c2, c3⟩ := advance_frames_cycle t rs hc hy hlen.1 hl2 n
    refine ⟨c2, by rw [f1, c2], ?_, c3⟩
    rw [c1]
    split
    · decide
    · split <;> decide

/-- Witness of C8: the example trail (head row 4, length 5, counter zero) with a
random source that always returns 3.  Two steps give head row 6, the original
glyphs 0, 1, 2 at indices 2, 3, 4 and the katakana `0xFF69` at indices 0 and 1;
four frames of the trail update reach `1.0` twice and give the same trail. -/
theorem update_trail_shift_witness :
    (example_trail.y < 2 ^ 32 ∧ 1 ≤ example_trail.length ∧ example_trail.length ≤ MAX_TRAIL) ∧
      (update_trail example_trail ⟨fun _ => 3, 0⟩).1.y = 5 ∧
      (update_times 2 example_trail ⟨fun _ => 3, 0⟩).1.y = 6 ∧
      toInt32 (update_times 2 example_trail ⟨fun _ => 3, 0⟩).1.y = 6 ∧
      (update_times 2 example_trail ⟨fun _ => 3, 0⟩).1.characters 2 = 0x41 ∧
      (update_times 2 example_trail ⟨fun _ => 3, 0⟩).1.characters 4 = 0x30 ∧
      (update_times 2 example_trail ⟨fun _ => 3, 0⟩).1.characters 0 = 0xFF69 ∧
      (update_times 2 example_trail ⟨fun _ => 3, 0⟩).1.length = 5 ∧
      example_trail.counter = fp_of_nat 0 ∧
      phase_reached (fun _ => ⟨fun _ => 3, 0⟩) 4 example_trail = 2 ∧
      (advance_frames (fun _ => ⟨fun _ => 3, 0⟩) 4 example_trail).y = 6 ∧
      (advance_frames (fun _ => ⟨fun _ => 3, 0⟩) 4 example_trail).characters 2 = 0x41 ∧
      (advance_frames (fun _ => ⟨fun _ => 3, 0⟩) 4 example_trail).characters 4 = 0x30 ∧
      (advance_frames (fun _ => ⟨fun _ => 3, 0⟩) 4 example_trail).characters 0 = 0xFF69 := by
  have hyp : example_trail.y < 2 ^ 32 ∧ 1 ≤ example_trail.length ∧
      example_trail.length ≤ MAX_TRAIL := by decide
  obtain ⟨⟨a1, _⟩, ⟨b1, b2, b3, b4, _, b6, _⟩, _, ⟨_, _, c3, _⟩, d⟩ :=
    update_trail_shift example_trail ⟨fun _ => 3, 0⟩ 2 (fun _ => ⟨fun _ => 3, 0⟩) 4 hyp.1 hyp.2
  obtain ⟨d1, d2, _, d4⟩ := d rfl
  rw [d1] at c3
  refine ⟨hyp, a1.trans (by decide), b1.trans (by decide), (b2 (by decide)).trans (by decide),
    (b3 2 (by decide) (by decide)).trans (by decide),
    (b3 4 (by decide) (by decide)).trans (by decide),
    (b4 0 (by decide) (by decide)).trans (by decide), b6.trans (by decide), rfl, d1,
    d2.trans (by decide), (c3 2 (by decide) (by decide)).trans (by decide),
    (c3 4 (by decide) (by decide)).trans (by decide),
    (d4 0 (by decide) (by decide)).trans (by decide)⟩

end Matrix
